import Mathlib

/-!
# Verification of gogit's core against its specification

Shallow embedding of the gogit version-control engine (object store, tree
model, index codec, commit parsing, merge machinery) and proofs of the
frozen claims about it.  Go byte slices are modelled as `List Nat` (each
element a byte value), Go strings as Lean `String` with a codepoint-level
byte view `strBytes` (the two agree on ASCII data, which is all the code
ever puts into headers); Go's `map[string]string` values are modelled as
association lists with Go's zero-value lookup (`mget` returns `""` for a
missing key, exactly as the merge code relies on).  SHA-1 and the abstract
content hash are model parameters, since the code relies only on their
functional behaviour (determinism plus absence of collisions among the
finitely many objects actually written).
-/

namespace Gogit

/-- Byte sequences (Go `[]byte`); each element is a byte value. -/
abbrev Bytes := List Nat

/-- Codepoint-level byte view of a Go string (agrees with UTF-8 on ASCII). -/
def strBytes (s : String) : Bytes := s.data.map Char.toNat

/-- Inverse view: bytes back to a string, one codepoint per byte. -/
def bytesToStr (bs : Bytes) : String := ⟨bs.map Char.ofNat⟩

theorem bytesToStr_strBytes (s : String) : bytesToStr (strBytes s) = s := by
  simp only [bytesToStr, strBytes, List.map_map]
  have : (Char.ofNat ∘ Char.toNat) = id := by
    funext c; exact Char.ofNat_toNat c
  rw [this, List.map_id]

theorem strBytes_ne_nil {s : String} (h : s ≠ "") : strBytes s ≠ [] := by
  intro hc
  apply h
  have := congrArg bytesToStr hc
  rwa [bytesToStr_strBytes] at this

/-- Go `fmt` whitespace bytes recognised by `Sscanf` verbs. -/
def isSpaceByte (b : Nat) : Bool := b = 32 || (9 ≤ b && b ≤ 13)

/-- Decimal digit bytes, fuel-structured so the kernel can evaluate it (the
fuel never runs out when it starts at `n`, since `n / 10 < n`). -/
def natDigitsF : Nat → Nat → Bytes
  | 0, n => [48 + n % 10]
  | fuel + 1, n => if n < 10 then [48 + n] else natDigitsF fuel (n / 10) ++ [48 + n % 10]

/-- Decimal digit bytes of a natural number, as emitted by `fmt`'s `%d`. -/
def natDigits (n : Nat) : Bytes := natDigitsF n n

theorem natDigitsF_ne_nil (fuel n : Nat) : natDigitsF fuel n ≠ [] := by
  cases fuel with
  | zero => simp [natDigitsF]
  | succ k =>
    unfold natDigitsF
    split
    · simp
    · simp

theorem natDigits_ne_nil (n : Nat) : natDigits n ≠ [] := natDigitsF_ne_nil n n

theorem natDigitsF_digits (fuel : Nat) :
    ∀ n, ∀ b ∈ natDigitsF fuel n, 48 ≤ b ∧ b ≤ 57 := by
  induction fuel with
  | zero =>
    intro n b hb
    simp only [natDigitsF, List.mem_singleton] at hb
    have := Nat.mod_lt n (y := 10) (by omega)
    omega
  | succ k ih =>
    intro n b hb
    unfold natDigitsF at hb
    split at hb
    · rename_i h
      simp only [List.mem_singleton] at hb
      omega
    · rcases List.mem_append.1 hb with h1 | h2
      · exact ih (n / 10) b h1
      · simp only [List.mem_singleton] at h2
        have := Nat.mod_lt n (y := 10) (by omega)
        omega

theorem natDigits_digits (n : Nat) : ∀ b ∈ natDigits n, 48 ≤ b ∧ b ≤ 57 :=
  natDigitsF_digits n n

/-- Octal digit bytes, fuel-structured like `natDigitsF`. -/
def octalDigitsF : Nat → Nat → Bytes
  | 0, n => [48 + n % 8]
  | fuel + 1, n => if n < 8 then [48 + n] else octalDigitsF fuel (n / 8) ++ [48 + n % 8]

/-- Octal digit bytes of a natural number, as emitted by `fmt`'s `%o`. -/
def octalDigits (n : Nat) : Bytes := octalDigitsF n n

/-- `fmt.Sprintf("%o", m)` as a string. -/
def octalStr (m : Nat) : String := bytesToStr (octalDigits m)

theorem takeWhile_append_of_all {p : Nat → Bool} {l1 l2 : Bytes}
    (h1 : ∀ b ∈ l1, p b) :
    (l1 ++ l2).takeWhile p = l1 ++ l2.takeWhile p := by
  induction l1 with
  | nil => simp
  | cons a l ih =>
    have ha : p a := h1 a (by simp)
    simp [List.takeWhile_cons, ha, ih (fun b hb => h1 b (by simp [hb]))]

theorem dropWhile_cons_of_neg {p : Nat → Bool} {a : Nat} {l : Bytes}
    (h : ¬ p a) : (a :: l).dropWhile p = a :: l := by
  simp [List.dropWhile_cons, h]

/-! ## Object store (src/object: HashObject, WriteObject, ReadObject)

The store maps a hash string to the *decompressed* wire encoding of the
object; zlib compression is a bijection on the stored data, so the model
stores wire bytes directly (a failed decompression corresponds to a key
that is absent).  The hash function is a model parameter `H`.
-/

/-- The object store: hash string to decompressed wire bytes. -/
abbrev Store := String → Option Bytes

/-- Wire encoding `"<kind> <decimal-length>\0<payload>"` with an arbitrary
*declared* length `m`, which need not match the payload (used to study
`ReadObject`'s treatment of the length field). -/
def encodeObjDecl (kind : String) (m : Nat) (content : Bytes) : Bytes :=
  strBytes kind ++ (32 :: (natDigits m ++ (0 :: content)))

/-- Wire encoding `"<kind> <decimal-length>\0<payload>"` of an object. -/
def encodeObj (kind : String) (content : Bytes) : Bytes :=
  encodeObjDecl kind content.length content

/-- `WriteObject`: no-op if the key exists, otherwise store the wire bytes.
Returns the hash and the new store. -/
def writeObject (H : String → Bytes → String) (store : Store)
    (kind : String) (content : Bytes) : String × Store :=
  let h := H kind content
  match store h with
  | some _ => (h, store)
  | none => (h, fun h' => if h' = h then some (encodeObj kind content) else store h')

/-- The `%s` token of `fmt.Sscanf(header, "%s %d", ...)`: leading whitespace
skipped, then a maximal run of non-whitespace bytes. -/
def scanTok (bs : Bytes) : Bytes :=
  (bs.dropWhile isSpaceByte).takeWhile (fun b => !isSpaceByte b)

/-- Strip one optional `+`/`-` sign byte. -/
def dropSign (bs : Bytes) : Bytes :=
  if bs.head? = some 43 ∨ bs.head? = some 45 then bs.tail else bs

/-- The digit run consumed by the `%d` verb after the token. -/
def scanDigits (bs : Bytes) : Bytes :=
  (dropSign (((bs.dropWhile isSpaceByte).drop (scanTok bs).length).dropWhile
    isSpaceByte)).takeWhile (fun b => 48 ≤ b && b ≤ 57)

/-- `fmt.Sscanf(header, "%s %d", ...)`: a whitespace-delimited token followed
by a decimal integer.  Returns the token; the parsed size is discarded by
`ReadObject`, so only parse success is modelled beyond the token. -/
def scanHeader (bs : Bytes) : Option String :=
  if scanTok bs = [] then none
  else if scanDigits bs = [] then none
  else some (bytesToStr (scanTok bs))

/-- `ReadObject`: look up the wire bytes, find the first NUL, parse the
pre-NUL header as `"<token> <int>"`, and return the kind together with every
byte after the first NUL. -/
def readObject (store : Store) (h : String) : Option (String × Bytes) :=
  match store h with
  | none => none
  | some raw =>
    if (raw.takeWhile (fun b => b ≠ 0)).length = raw.length then none
    else
      match scanHeader (raw.takeWhile (fun b => b ≠ 0)) with
      | none => none
      | some kind => some (kind, raw.drop ((raw.takeWhile (fun b => b ≠ 0)).length + 1))

/-- A kind string usable in a wire header: nonempty, and none of its bytes is
NUL or `fmt` whitespace. -/
def KindToken (kind : String) : Prop :=
  kind ≠ "" ∧ ∀ b ∈ strBytes kind, b ≠ 0 ∧ ¬ isSpaceByte b

theorem takeWhile_encodeObjDecl (kind : String) (m : Nat) (content : Bytes)
    (hk : KindToken kind) :
    (encodeObjDecl kind m content).takeWhile (fun b => decide (b ≠ 0))
      = strBytes kind ++ (32 :: natDigits m) := by
  obtain ⟨_, hbytes⟩ := hk
  unfold encodeObjDecl
  rw [takeWhile_append_of_all (fun b hb => by simpa using (hbytes b hb).1)]
  congr 1
  rw [List.takeWhile_cons]
  norm_num
  rw [takeWhile_append_of_all (fun b hb => by
    have := natDigits_digits m b hb; simp; omega)]
  simp

theorem scanHeader_header (kind : String) (m : Nat) (hk : KindToken kind) :
    scanHeader (strBytes kind ++ (32 :: natDigits m)) = some kind := by
  obtain ⟨hne, hbytes⟩ := hk
  have hnil := strBytes_ne_nil hne
  have hnodrop : (strBytes kind ++ (32 :: natDigits m)).dropWhile isSpaceByte
      = strBytes kind ++ (32 :: natDigits m) := by
    cases hsk : strBytes kind with
    | nil => exact absurd hsk hnil
    | cons a t =>
      simp only [List.cons_append]
      exact dropWhile_cons_of_neg (by
        simpa using (hbytes a (by rw [hsk]; simp)).2)
  have htok : scanTok (strBytes kind ++ (32 :: natDigits m)) = strBytes kind := by
    unfold scanTok
    rw [hnodrop]
    rw [takeWhile_append_of_all (p := fun b => !isSpaceByte b)
      (fun b hb => by simpa using (hbytes b hb).2)]
    simp [List.takeWhile_cons, isSpaceByte]
  have hdigits : scanDigits (strBytes kind ++ (32 :: natDigits m)) = natDigits m := by
    unfold scanDigits
    rw [hnodrop, htok, List.drop_left]
    have h1 : (32 :: natDigits m).dropWhile isSpaceByte = natDigits m := by
      rw [List.dropWhile_cons, if_pos (by simp [isSpaceByte])]
      cases hnd : natDigits m with
      | nil => rfl
      | cons a t =>
        have := natDigits_digits m a (by rw [hnd]; simp)
        exact dropWhile_cons_of_neg (by simp [isSpaceByte]; omega)
    rw [h1]
    have h2 : dropSign (natDigits m) = natDigits m := by
      unfold dropSign
      rw [if_neg]
      push_neg
      cases hnd : natDigits m with
      | nil => simp
      | cons a t =>
        have := natDigits_digits m a (by rw [hnd]; simp)
        constructor <;> simp <;> omega
    rw [h2]
    apply List.takeWhile_eq_self_iff.2
    intro b hb
    have := natDigits_digits m b hb
    simp; omega
  unfold scanHeader
  rw [htok, hdigits, if_neg hnil, if_neg (natDigits_ne_nil m), bytesToStr_strBytes]

/-- Reading any store cell that holds a wire encoding with an arbitrary
declared length returns the kind and the bytes after the first NUL. -/
theorem readObject_of_stored (store : Store) (h : String) (kind : String)
    (m : Nat) (content : Bytes) (hk : KindToken kind)
    (hst : store h = some (encodeObjDecl kind m content)) :
    readObject store h = some (kind, content) := by
  have hpre := takeWhile_encodeObjDecl kind m content hk
  have hlen : (strBytes kind ++ (32 :: natDigits m)).length <
      (encodeObjDecl kind m content).length := by
    unfold encodeObjDecl
    simp
  have hdrop : (encodeObjDecl kind m content).drop
      ((strBytes kind ++ (32 :: natDigits m)).length + 1) = content := by
    have hsplit : encodeObjDecl kind m content
        = (strBytes kind ++ (32 :: natDigits m) ++ [0]) ++ content := by
      unfold encodeObjDecl
      simp
    rw [hsplit]
    rw [List.drop_left']
    simp
    omega
  unfold readObject
  rw [hst]
  simp only [hpre]
  rw [if_neg (by omega), scanHeader_header kind m hk, hdrop]

/-- **C2** — Object round-trip: for every kind in `{blob, tree, commit}` and
every payload, writing the object and reading it back by the returned hash
yields exactly the original kind and payload, provided the store is
content-addressed at the written key (i.e. the hash has not collided with a
different object, which is the code's standing assumption about SHA-1). -/
theorem object_roundtrip (H : String → Bytes → String) (store : Store)
    (kind : String) (content : Bytes)
    (hkind : kind = "blob" ∨ kind = "tree" ∨ kind = "commit")
    (hstore : ∀ w, store (H kind content) = some w → w = encodeObj kind content) :
    readObject (writeObject H store kind content).2
      (writeObject H store kind content).1 = some (kind, content) := by
  have hk : KindToken kind := by
    rcases hkind with h | h | h <;> subst h <;>
      exact ⟨by decide, by decide⟩
  unfold writeObject
  cases hst : store (H kind content) with
  | none =>
    simp only [hst]
    exact readObject_of_stored _ _ kind content.length content hk
      (by simp [encodeObj])
  | some w =>
    have hw := hstore w hst
    simp only [hst]
    exact readObject_of_stored _ _ kind content.length content hk
      (by rw [hst, hw]; rfl)

/-- Witness for C2 at a concrete kind, payload, hash function and store. -/
theorem object_roundtrip_witness :
    ("blob" = "blob" ∨ "blob" = "tree" ∨ "blob" = "commit") ∧
    readObject (writeObject (fun _ _ => "h0") (fun _ => none) "blob" [104, 105]).2
      (writeObject (fun _ _ => "h0") (fun _ => none) "blob" [104, 105]).1
      = some ("blob", [104, 105]) :=
  ⟨Or.inl rfl,
    object_roundtrip (fun _ _ => "h0") (fun _ => none) "blob" [104, 105]
      (Or.inl rfl) (fun _w hw => Option.noConfusion hw)⟩

/-- **C9** — `ReadObject` never checks the declared decimal length against the
payload: an object stored with any declared length `m` (matching the payload
or not) is read successfully, returning the kind and all bytes after the
first NUL. -/
theorem readObject_ignores_declared_length (kind : String) (m : Nat)
    (content : Bytes) (h : String) (hk : KindToken kind) :
    readObject (fun h' => if h' = h then some (encodeObjDecl kind m content)
      else none) h = some (kind, content) :=
  readObject_of_stored _ h kind m content hk (by simp)

/-- Witness for C9: a blob whose header declares length 999 for a 2-byte
payload is still read back whole. -/
theorem readObject_ignores_declared_length_witness :
    KindToken "blob" ∧
    readObject (fun h' => if h' = "zz" then some (encodeObjDecl "blob" 999 [7, 8])
      else none) "zz" = some ("blob", [7, 8]) :=
  ⟨⟨by decide, by decide⟩,
    readObject_ignores_declared_length "blob" 999 [7, 8] "zz" ⟨by decide, by decide⟩⟩

/-! ## Commit objects (src/object/commit.go: ParseCommit, WriteCommit) -/

/-- A parsed commit object. -/
structure Commit where
  treeHash : String
  parents : List String
  author : String
  committer : String
  message : String
deriving Repr, DecidableEq

/-- Bytes Go's `unicode.IsSpace` accepts, restricted to Latin-1 (all that
`strings.TrimSpace` can meet one codepoint at a time). -/
def goIsSpace (c : Char) : Bool :=
  c = ' ' || c = '\t' || c = '\n' || c = Char.ofNat 11 || c = Char.ofNat 12 ||
    c = '\r' || c = Char.ofNat 133 || c = Char.ofNat 160

/-- `strings.TrimSpace`: strip leading and trailing whitespace. -/
def goTrimSpace (s : String) : String :=
  ⟨((s.data.dropWhile goIsSpace).reverse.dropWhile goIsSpace).reverse⟩

/-- First-occurrence split on `"\n\n"` (`strings.SplitN(text, "\n\n", 2)`);
`none` when the separator does not occur. -/
def splitNN : List Char → Option (List Char × List Char)
  | [] => none
  | c :: rest =>
    if c = '\n' ∧ rest.head? = some '\n' then some ([], rest.tail)
    else
      match splitNN rest with
      | some (a, b) => some (c :: a, b)
      | none => none

/-- `strings.Split(s, "\n")`. -/
def splitLines : List Char → List (List Char)
  | [] => [[]]
  | c :: rest =>
    if c = '\n' then [] :: splitLines rest
    else
      match splitLines rest with
      | [] => [[c]]
      | l :: ls => (c :: l) :: ls

/-- `strings.HasPrefix` (kernel-reducible, unlike `String.startsWith`). -/
def goHasPrefix (s pre : String) : Bool := pre.data.isPrefixOf s.data

/-- `s[n:]` on characters (= `strings.TrimPrefix` once the prefix length is
known). -/
def goDrop (s : String) (n : Nat) : String := ⟨s.data.drop n⟩

/-- One iteration of `ParseCommit`'s header loop. -/
def applyLine (c : Commit) (line : String) : Commit :=
  if goHasPrefix line "tree " then { c with treeHash := goDrop line 5 }
  else if goHasPrefix line "parent " then { c with parents := c.parents ++ [goDrop line 7] }
  else if goHasPrefix line "author " then { c with author := goDrop line 7 }
  else if goHasPrefix line "committer " then { c with committer := goDrop line 10 }
  else c

/-- The zero `Commit` with a given message, as built before the header loop. -/
def commitInit (msg : String) : Commit :=
  { treeHash := "", parents := [], author := "", committer := "", message := msg }

/-- `ParseCommit`: split headers from message at the first blank line, set
`Message` to `strings.TrimSpace` of the tail, then scan header lines. -/
def parseCommit (data : Bytes) : Commit :=
  match splitNN (bytesToStr data).data with
  | some (a, b) =>
    (splitLines a).foldl (fun c l => applyLine c ⟨l⟩) (commitInit (goTrimSpace ⟨b⟩))
  | none =>
    (splitLines (bytesToStr data).data).foldl (fun c l => applyLine c ⟨l⟩)
      (commitInit "")

/-- Whether a character list contains the two-character run `"\n\n"`. -/
def hasNLNL : List Char → Bool
  | [] => false
  | c :: rest => (c = '\n' && rest.head? = some '\n') || hasNLNL rest

theorem splitNN_append (A B : List Char) (h1 : hasNLNL A = false)
    (h2 : A.getLast? ≠ some '\n') :
    splitNN (A ++ '\n' :: '\n' :: B) = some (A, B) := by
  induction A with
  | nil => simp [splitNN]
  | cons c rest ih =>
    have hnotsep : ¬ (c = '\n' ∧ (rest ++ '\n' :: '\n' :: B).head? = some '\n') := by
      rintro ⟨hc, hh⟩
      subst hc
      cases rest with
      | nil => simp at h2
      | cons d rest2 =>
        simp only [List.cons_append, List.head?_cons, Option.some.injEq] at hh
        apply absurd h1
        simp [hasNLNL, hh]
    have h1' : hasNLNL rest = false := by
      simp only [hasNLNL, Bool.or_eq_false_iff] at h1
      exact h1.2
    have h2' : rest.getLast? ≠ some '\n' ∨ rest = [] := by
      cases rest with
      | nil => exact Or.inr rfl
      | cons d r2 => exact Or.inl (by rwa [List.getLast?_cons_cons] at h2)
    rcases h2' with h2' | h2'
    · simp only [List.cons_append, splitNN]
      rw [if_neg (by simpa using hnotsep)]
      rw [show rest.append ('\n' :: '\n' :: B) = rest ++ '\n' :: '\n' :: B from rfl,
        ih h1' h2']
    · subst h2'
      have hc : ¬ c = '\n' := by simpa using h2
      simp [splitNN, hc]

theorem applyLine_message (c : Commit) (line : String) :
    (applyLine c line).message = c.message := by
  unfold applyLine
  split
  · rfl
  split
  · rfl
  split
  · rfl
  split
  · rfl
  · rfl

theorem foldl_applyLine_message (lines : List (List Char)) (c : Commit) :
    (lines.foldl (fun c l => applyLine c ⟨l⟩) c).message = c.message := by
  induction lines generalizing c with
  | nil => rfl
  | cons l ls ih => rw [List.foldl_cons, ih, applyLine_message]

/-- **C8 counterexample** — a message body that begins with whitespace loses
its leading whitespace: parsing `"tree x\n\n  hello"` yields message
`"hello"`, not `"  hello"` as the claim requires. -/
theorem parseCommit_strips_leading_ws :
    (parseCommit (strBytes "tree x\n\n  hello")).message = "hello" ∧
      (parseCommit (strBytes "tree x\n\n  hello")).message ≠ "  hello" := by
  constructor <;> decide

/-- **C8 amended** — for a commit payload `A ++ "\n\n" ++ B` whose header
block `A` contains no blank line and does not end in a newline, the parsed
message is `B` with *both leading and trailing* whitespace stripped
(`strings.TrimSpace`), not just trailing. -/
theorem parseCommit_message (A B : String) (h1 : hasNLNL A.data = false)
    (h2 : A.data.getLast? ≠ some '\n') :
    (parseCommit (strBytes (A ++ "\n\n" ++ B))).message = goTrimSpace B := by
  unfold parseCommit
  rw [bytesToStr_strBytes]
  have hdata : (A ++ "\n\n" ++ B).data = A.data ++ '\n' :: '\n' :: B.data := by
    simp [String.data_append]
  rw [hdata, splitNN_append A.data B.data h1 h2]
  simp only [foldl_applyLine_message]
  show (commitInit (goTrimSpace ⟨B.data⟩)).message = goTrimSpace B
  exact congrArg goTrimSpace (by cases B; rfl)

/-- Witness for the amended C8. -/
theorem parseCommit_message_witness :
    hasNLNL "tree x".data = false ∧ "tree x".data.getLast? ≠ some '\n' ∧
      (parseCommit (strBytes ("tree x" ++ "\n\n" ++ "  m "))).message = "m" :=
  ⟨by decide, by decide,
    (parseCommit_message "tree x" "  m " (by decide) (by decide)).trans (by decide)⟩

/-! ## Index codec (src/index: ReadIndex, WriteIndex)

The byte-level index format.  `readIndexBytes` models `ReadIndex` applied to
the raw bytes of the index file; the `bytes.Reader` is modelled by the list
of not-yet-consumed bytes, `binary.Read`'s ignored error by an `Option`
whose `none` leaves the destination at its zero value, and a Go slice
expression with a negative bound by the `panic` result.  SHA-1 is the
parameter `sha1`.
-/

/-- A single in-memory index entry (`index.Entry`). -/
structure IEntry where
  ctime : Nat
  mtime : Nat
  size : Nat
  hash : String
  mode : Nat
  path : String
deriving Repr, DecidableEq

/-- Big-endian 4-byte encoding of a `uint32` value. -/
def be4 (n : Nat) : Bytes :=
  [n / 16777216 % 256, n / 65536 % 256, n / 256 % 256, n % 256]

/-- Big-endian 2-byte encoding of a `uint16` value. -/
def be2 (n : Nat) : Bytes := [n / 256 % 256, n % 256]

/-- `binary.Read` of a big-endian `uint32`: `none` (destination untouched)
when fewer than 4 bytes remain; `io.ReadFull` consumes what is available. -/
def read4 : Bytes → Option Nat × Bytes
  | a :: b :: c :: d :: rest => (some (((a * 256 + b) * 256 + c) * 256 + d), rest)
  | _ => (none, [])

/-- `binary.Read` of a big-endian `uint16`. -/
def read2 : Bytes → Option Nat × Bytes
  | a :: b :: rest => (some (a * 256 + b), rest)
  | _ => (none, [])

/-- `r.Read(buf)` into a fresh zeroed buffer of length `n`: fills as many
bytes as remain, the rest of the buffer stays zero. -/
def readBuf (n : Nat) (bs : Bytes) : Bytes × Bytes :=
  (bs.take n ++ List.replicate (n - bs.length) 0, bs.drop n)

/-- NUL padding length for an entry of total unpadded length `entryLen`. -/
def padLenOf (entryLen : Nat) : Nat := (8 - entryLen % 8) % 8

/-- Value of one hex digit byte (`0-9`, `a-f`, `A-F`). -/
def hexDigVal (b : Nat) : Option Nat :=
  if 48 ≤ b ∧ b ≤ 57 then some (b - 48)
  else if 97 ≤ b ∧ b ≤ 102 then some (b - 87)
  else if 65 ≤ b ∧ b ≤ 70 then some (b - 55)
  else none

/-- `hex.DecodeString` bytes: the decoded pairs up to the first malformed
pair (Go returns the partial result together with the error, and
`WriteIndex` ignores the error). The boolean records success. -/
def hexDecodeAux : Bytes → Bytes × Bool
  | [] => ([], true)
  | [_] => ([], false)
  | a :: b :: rest =>
    match hexDigVal a, hexDigVal b with
    | some x, some y =>
      match hexDecodeAux rest with
      | (r, ok) => ((16 * x + y) :: r, ok)
    | _, _ => ([], false)

/-- `hex.DecodeString` on a Go string. -/
def hexDecodeStr (s : String) : Bytes × Bool := hexDecodeAux (strBytes s)

/-- Lower-case hex digit byte of a nibble. -/
def hexDig (n : Nat) : Nat := if n < 10 then 48 + n else 87 + n

/-- `hex.EncodeToString` bytes (lower-case). -/
def hexEncodeBytes (bs : Bytes) : Bytes :=
  bs.flatMap (fun b => [hexDig (b / 16 % 16), hexDig (b % 16)])

/-- `hex.EncodeToString` as a Go string. -/
def hexEncodeStr (bs : Bytes) : String := bytesToStr (hexEncodeBytes bs)

/-- Byte-lexicographic Go string comparison `<`. -/
def bytesLt : Bytes → Bytes → Bool
  | [], [] => false
  | [], _ :: _ => true
  | _ :: _, [] => false
  | a :: as, b :: bs => if a < b then true else if b < a then false else bytesLt as bs

/-- Go `<` on strings (byte-lexicographic). -/
def strLt (a b : String) : Bool := bytesLt (strBytes a) (strBytes b)

/-- Insert an entry before the first existing entry not `<` it (the effect of
`sort.Slice` by path on path-distinct entries). -/
def insertByPath (e : IEntry) : List IEntry → List IEntry
  | [] => [e]
  | f :: fs => if strLt f.path e.path then f :: insertByPath e fs else e :: f :: fs

/-- Sort index entries ascending by path. -/
def sortByPath (l : List IEntry) : List IEntry := l.foldr insertByPath []

/-- Serialized form of one index entry, exactly as `WriteIndex` emits it:
fields big-endian, the (possibly partial) hex-decoded hash, `uint16`-wrapped
path length, path bytes, NUL padding computed from `38 + len(path)`. -/
def encEntry (e : IEntry) : Bytes :=
  be4 e.ctime ++ be4 e.mtime ++ be4 e.size ++ (hexDecodeStr e.hash).1 ++
    be4 e.mode ++ be2 ((strBytes e.path).length % 65536) ++ strBytes e.path ++
    List.replicate (padLenOf (38 + (strBytes e.path).length)) 0

/-- `WriteIndex` as a byte sequence: magic, version, count, sorted entries,
then the SHA-1 of everything so far. -/
def writeIndexBytes (sha1 : Bytes → Bytes) (entries : List IEntry) : Bytes :=
  let body := strBytes "GIDX" ++ be4 1 ++ be4 entries.length ++
    ((sortByPath entries).map encEntry).flatten
  body ++ sha1 body

/-- Decode one entry from the remaining bytes (`ReadIndex` loop body). -/
def decEntry (bs : Bytes) : IEntry × Bytes :=
  let r1 := read4 bs
  let r2 := read4 r1.2
  let r3 := read4 r2.2
  let rh := readBuf 20 r3.2
  let r5 := read4 rh.2
  let r6 := read2 r5.2
  let pl := r6.1.getD 0
  let rp := readBuf pl r6.2
  ({ ctime := r1.1.getD 0, mtime := r2.1.getD 0, size := r3.1.getD 0,
     hash := hexEncodeStr rh.1, mode := r5.1.getD 0, path := bytesToStr rp.1 },
   rp.2.drop (padLenOf (38 + pl)))

/-- Decode `count` entries. -/
def decEntries : Nat → Bytes → List IEntry
  | 0, _ => []
  | n + 1, bs => (decEntry bs).1 :: decEntries n (decEntry bs).2

/-- Result of `ReadIndex` on raw file bytes: a decoded entry list, an error
return, or a runtime panic. -/
inductive ReadIndexResult where
  | panic
  | err (msg : String)
  | ok (entries : List IEntry)
deriving Repr, DecidableEq

/-- `ReadIndex` applied to the raw bytes of an existing index file.  Note the
order of operations in the source: the `< 12` length check, then the slice
`data[len(data)-20:]` (which panics for lengths 12–19), the checksum, the
magic, reading version and count, the version check, then the entry loop. -/
def readIndexBytes (sha1 : Bytes → Bytes) (data : Bytes) : ReadIndexResult :=
  if data.length < 12 then .err "index file too short"
  else if data.length < 20 then .panic
  else
    if sha1 (data.take (data.length - 20)) ≠ data.drop (data.length - 20) then
      .err "index checksum mismatch"
    else
      let rm := readBuf 4 data
      if rm.1 ≠ strBytes "GIDX" then .err "invalid index magic"
      else
        let rv := read4 rm.2
        let rc := read4 rv.2
        if rv.1.getD 0 ≠ 1 then .err "unsupported index version"
        else .ok (decEntries (rc.1.getD 0) rc.2)

/-- **C3** — the claim asserts `ReadIndex` never panics on any input that
passes the `length ≥ 12` check (naming lengths 12–31 in particular), but the
source slices `data[len(data)-20:]` right after that check, which panics for
every length in 12–19.  This evaluates the model at a 12-byte index file
(magic + version + count and nothing else): the result is a panic, not an
error return. -/
theorem readIndex_panics_on_12_bytes :
    readIndexBytes (fun _ => List.replicate 20 0)
      (strBytes "GIDX" ++ be4 1 ++ be4 0) = .panic := by decide

theorem toNat_ofNat_char (n : Nat) (h : Nat.isValidChar n) :
    (Char.ofNat n).toNat = n := by
  unfold Char.ofNat
  split
  · simp only [Char.ofNatAux, Char.toNat]
    exact rfl
  · rename_i hh
    exact absurd h hh

theorem strBytes_bytesToStr (bs : Bytes) (h : ∀ b ∈ bs, b < 55296) :
    strBytes (bytesToStr bs) = bs := by
  induction bs with
  | nil => rfl
  | cons a t ih =>
    have h1 : strBytes (bytesToStr (a :: t))
        = Char.toNat (Char.ofNat a) :: strBytes (bytesToStr t) := rfl
    rw [h1, toNat_ofNat_char a (Or.inl (h a (by simp))),
      ih (fun b hb => h b (by simp [hb]))]

theorem read4_be4 (n : Nat) (rest : Bytes) (h : n < 4294967296) :
    read4 (be4 n ++ rest) = (some n, rest) := by
  simp only [be4, List.cons_append, List.nil_append, read4]
  congr 1
  congr 1
  omega

theorem read2_be2 (n : Nat) (rest : Bytes) (h : n < 65536) :
    read2 (be2 n ++ rest) = (some n, rest) := by
  simp only [be2, List.cons_append, List.nil_append, read2]
  congr 1
  congr 1
  omega

theorem readBuf_exact (n : Nat) (bs rest : Bytes) (h : bs.length = n) :
    readBuf n (bs ++ rest) = (bs, rest) := by
  unfold readBuf
  rw [List.take_left' h, List.drop_left' h]
  simp
  omega

theorem hexDigVal_hexDig (x : Nat) (h : x < 16) :
    hexDigVal (hexDig x) = some x := by
  unfold hexDig hexDigVal
  by_cases h10 : x < 10
  · rw [if_pos h10, if_pos (by omega)]
    congr 1
    omega
  · rw [if_neg h10, if_neg (by omega), if_pos (by omega)]
    congr 1
    omega

theorem hexDig_lt (x : Nat) (h : x < 16) : hexDig x < 128 := by
  unfold hexDig
  split <;> omega

theorem hexDecodeAux_encode (bs : Bytes) (h : ∀ b ∈ bs, b < 256) :
    hexDecodeAux (hexEncodeBytes bs) = (bs, true) := by
  induction bs with
  | nil => rfl
  | cons a t ih =>
    have ha := h a (by simp)
    have hstep : hexEncodeBytes (a :: t)
        = hexDig (a / 16 % 16) :: hexDig (a % 16) :: hexEncodeBytes t := rfl
    rw [hstep]
    simp only [hexDecodeAux]
    rw [hexDigVal_hexDig _ (Nat.mod_lt _ (by omega)),
      hexDigVal_hexDig _ (Nat.mod_lt _ (by omega))]
    simp only
    rw [ih (fun b hb => h b (by simp [hb]))]
    simp only
    congr 2
    omega

theorem hexEncodeBytes_lt (bs : Bytes) : ∀ b ∈ hexEncodeBytes bs, b < 128 := by
  intro b hb
  unfold hexEncodeBytes at hb
  simp only [List.mem_flatMap] at hb
  obtain ⟨a, _, hmem⟩ := hb
  simp only [List.mem_cons, List.mem_singleton] at hmem
  rcases hmem with h | h | h
  · subst h
    exact hexDig_lt _ (Nat.mod_lt _ (by omega))
  · subst h
    exact hexDig_lt _ (Nat.mod_lt _ (by omega))
  · cases h

theorem hexDecodeStr_encode (bs : Bytes) (h : ∀ b ∈ bs, b < 256) :
    hexDecodeStr (hexEncodeStr bs) = (bs, true) := by
  unfold hexDecodeStr hexEncodeStr
  rw [strBytes_bytesToStr _ (fun b hb => by
    have := hexEncodeBytes_lt bs b hb
    omega)]
  exact hexDecodeAux_encode bs h

/-- Wellformedness of an in-memory entry for a faithful byte round-trip:
`uint32`-ranged numeric fields (guaranteed by Go's types), a 40-character
lower-case-hex hash, and an ASCII path shorter than 65536 bytes. -/
def EntryWF (e : IEntry) : Prop :=
  e.ctime < 4294967296 ∧ e.mtime < 4294967296 ∧ e.size < 4294967296 ∧
    e.mode < 4294967296 ∧
    (∃ bs, bs.length = 20 ∧ (∀ b ∈ bs, b < 256) ∧ e.hash = hexEncodeStr bs) ∧
    (strBytes e.path).length < 65536 ∧ ∀ b ∈ strBytes e.path, b < 128

theorem decEntry_enc (e : IEntry) (rest : Bytes) (hwf : EntryWF e) :
    decEntry (encEntry e ++ rest) = (e, rest) := by
  obtain ⟨h1, h2, h3, h4, ⟨bsh, hbl, hblt, hbs⟩, hplen, _⟩ := hwf
  have hdec : hexDecodeStr e.hash = (bsh, true) := by
    rw [hbs]; exact hexDecodeStr_encode bsh hblt
  have hhx : (hexDecodeStr e.hash).1 = bsh := by rw [hdec]
  have hr1 : ∀ R, read4 (be4 e.ctime ++ R) = (some e.ctime, R) :=
    fun R => read4_be4 _ R h1
  have hr2 : ∀ R, read4 (be4 e.mtime ++ R) = (some e.mtime, R) :=
    fun R => read4_be4 _ R h2
  have hr3 : ∀ R, read4 (be4 e.size ++ R) = (some e.size, R) :=
    fun R => read4_be4 _ R h3
  have hr4 : ∀ R, read4 (be4 e.mode ++ R) = (some e.mode, R) :=
    fun R => read4_be4 _ R h4
  have hrh : ∀ R, readBuf 20 (bsh ++ R) = (bsh, R) :=
    fun R => readBuf_exact 20 bsh R hbl
  have hmod : (strBytes e.path).length % 65536 = (strBytes e.path).length :=
    Nat.mod_eq_of_lt hplen
  have hr6 : ∀ R, read2 (be2 ((strBytes e.path).length % 65536) ++ R)
      = (some (strBytes e.path).length, R) := fun R => by
    rw [hmod]; exact read2_be2 _ R hplen
  have hrp : ∀ R, readBuf (strBytes e.path).length (strBytes e.path ++ R)
      = (strBytes e.path, R) := fun R => readBuf_exact _ _ R rfl
  have hpad : ∀ R, (List.replicate (padLenOf (38 + (strBytes e.path).length)) 0
      ++ R).drop (padLenOf (38 + (strBytes e.path).length)) = R := fun R =>
    List.drop_left' (by simp)
  unfold encEntry decEntry
  rw [hhx]
  simp only [List.append_assoc]
  rw [hr1, hr2]
  simp only
  rw [hr3]
  simp only
  rw [hrh]
  simp only
  rw [hr4]
  simp only
  rw [hr6]
  simp only [Option.getD_some]
  rw [hrp]
  simp only
  rw [hpad]
  rw [bytesToStr_strBytes, ← hbs]

theorem decEntries_enc (es : List IEntry) (rest : Bytes)
    (hwf : ∀ e ∈ es, EntryWF e) :
    decEntries es.length ((es.map encEntry).flatten ++ rest) = es := by
  induction es with
  | nil => rfl
  | cons e t ih =>
    simp only [List.map_cons, List.flatten_cons, List.length_cons, decEntries,
      List.append_assoc]
    rw [decEntry_enc e _ (hwf e (by simp))]
    exact congrArg (fun l => e :: l) (ih (fun x hx => hwf x (by simp [hx])))

theorem mem_insertByPath {e f : IEntry} {l : List IEntry} :
    f ∈ insertByPath e l ↔ f = e ∨ f ∈ l := by
  induction l with
  | nil => simp [insertByPath]
  | cons a t ih =>
    unfold insertByPath
    split
    · simp only [List.mem_cons, ih]
      tauto
    · simp only [List.mem_cons]

theorem mem_sortByPath {f : IEntry} {l : List IEntry} :
    f ∈ sortByPath l ↔ f ∈ l := by
  induction l with
  | nil => simp [sortByPath]
  | cons a t ih =>
    unfold sortByPath at ih ⊢
    simp only [List.foldr_cons, mem_insertByPath, List.mem_cons, ih]

theorem length_insertByPath (e : IEntry) (l : List IEntry) :
    (insertByPath e l).length = l.length + 1 := by
  induction l with
  | nil => rfl
  | cons a t ih =>
    unfold insertByPath
    split
    · simp [ih]
    · simp

theorem length_sortByPath (l : List IEntry) :
    (sortByPath l).length = l.length := by
  induction l with
  | nil => rfl
  | cons a t ih =>
    unfold sortByPath at ih ⊢
    simp [List.foldr_cons, length_insertByPath, ih]

theorem encEntry_length_mod8 (e : IEntry) (hwf : EntryWF e) :
    (encEntry e).length % 8 = 0 := by
  obtain ⟨_, _, _, _, ⟨bsh, hbl, hblt, hbs⟩, _, _⟩ := hwf
  have hdec : (hexDecodeStr e.hash).1 = bsh := by
    rw [hbs, hexDecodeStr_encode bsh hblt]
  unfold encEntry
  rw [hdec]
  simp only [List.length_append, List.length_replicate, be4, be2,
    List.length_cons, List.length_nil, hbl, padLenOf]
  omega

theorem flatten_encEntry_mod8 (l : List IEntry) (h : ∀ e ∈ l, EntryWF e) :
    ((l.map encEntry).flatten).length % 8 = 0 := by
  induction l with
  | nil => rfl
  | cons e t ih =>
    simp only [List.map_cons, List.flatten_cons, List.length_append]
    have h1 := encEntry_length_mod8 e (h e (by simp))
    have h2 := ih (fun x hx => h x (by simp [hx]))
    omega

/-- **C7 amended** — index round-trip: for entries with pairwise-distinct
ASCII paths shorter than 65536 bytes, 40-character lower-case-hex hashes and
`uint32`-ranged numeric fields, reading back a just-written index returns
exactly the entries sorted ascending by path with all fields preserved, and
the byte length between the 12-byte header and the 20-byte checksum is a
multiple of 8.  (The distinct-path hypothesis reflects that `sort.Slice` is
unstable, so equal paths have no canonical order.) -/
theorem index_roundtrip (sha1 : Bytes → Bytes) (entries : List IEntry)
    (hsha : ∀ b, (sha1 b).length = 20)
    (hwf : ∀ e ∈ entries, EntryWF e)
    (hcount : entries.length < 4294967296)
    (_hdist : entries.Pairwise (fun a b => a.path ≠ b.path)) :
    readIndexBytes sha1 (writeIndexBytes sha1 entries) = .ok (sortByPath entries)
      ∧ ((writeIndexBytes sha1 entries).length - 32) % 8 = 0 := by
  have hwfs : ∀ e ∈ sortByPath entries, EntryWF e :=
    fun e he => hwf e (mem_sortByPath.1 he)
  set body := strBytes "GIDX" ++ be4 1 ++ be4 entries.length ++
    ((sortByPath entries).map encEntry).flatten with hbody
  have hdata : writeIndexBytes sha1 entries = body ++ sha1 body := rfl
  have hblen : 12 ≤ body.length := by
    rw [hbody]
    simp [strBytes, be4]
  have hlen : (body ++ sha1 body).length = body.length + 20 := by
    simp [hsha body]
  constructor
  · rw [hdata]
    unfold readIndexBytes
    rw [if_neg (by omega), if_neg (by omega)]
    rw [show (body ++ sha1 body).length - 20 = body.length by omega]
    rw [List.take_left' rfl, List.drop_left' rfl]
    rw [if_neg (by simp)]
    have hsplit : body ++ sha1 body = strBytes "GIDX" ++ (be4 1 ++ (be4 entries.length
        ++ (((sortByPath entries).map encEntry).flatten ++ sha1 body))) := by
      rw [hbody]
      simp [List.append_assoc]
    rw [hsplit, readBuf_exact 4 _ _ (by simp [strBytes])]
    simp only
    rw [if_neg (by simp)]
    rw [read4_be4 1 _ (by omega)]
    simp only
    rw [read4_be4 entries.length _ hcount]
    simp only [Option.getD_some]
    rw [if_neg (by omega)]
    rw [show entries.length = (sortByPath entries).length from
      (length_sortByPath entries).symm]
    rw [decEntries_enc _ _ hwfs]
  · rw [hdata, hlen]
    have hflat : (((sortByPath entries).map encEntry).flatten).length % 8 = 0 :=
      flatten_encEntry_mod8 _ hwfs
    have hG : (strBytes "GIDX").length = 4 := rfl
    have hb4 : ∀ n, (be4 n).length = 4 := fun _ => rfl
    rw [hbody]
    simp only [List.length_append, hG, hb4]
    omega

/-- **C7 counterexample** — the round-trip does not hold for *every*
in-memory index: an entry whose `Hash` uses upper-case hex digits (a legal
value of the `Hash string` field) is read back lower-cased, so
`read(write(idx)) ≠ sort_by_path(idx)`. -/
theorem index_roundtrip_fails_uppercase :
    readIndexBytes (fun _ => List.replicate 20 0)
        (writeIndexBytes (fun _ => List.replicate 20 0)
          [{ ctime := 1, mtime := 2, size := 3,
             hash := "AAAAAAAAAAAAAAAAAAAAAAAAAAAAAAAAAAAAAAAA",
             mode := 33188, path := "f" }])
      ≠ .ok (sortByPath
          [{ ctime := 1, mtime := 2, size := 3,
             hash := "AAAAAAAAAAAAAAAAAAAAAAAAAAAAAAAAAAAAAAAA",
             mode := 33188, path := "f" }]) := by decide

/-- Witness for the amended C7 at a concrete wellformed one-entry index. -/
theorem index_roundtrip_witness :
    readIndexBytes (fun _ => List.replicate 20 0)
        (writeIndexBytes (fun _ => List.replicate 20 0)
          [{ ctime := 1, mtime := 2, size := 3,
             hash := "aaaaaaaaaaaaaaaaaaaaaaaaaaaaaaaaaaaaaaaa",
             mode := 33188, path := "f" }])
      = .ok (sortByPath
          [{ ctime := 1, mtime := 2, size := 3,
             hash := "aaaaaaaaaaaaaaaaaaaaaaaaaaaaaaaaaaaaaaaa",
             mode := 33188, path := "f" }]) :=
  (index_roundtrip (fun _ => List.replicate 20 0)
    [{ ctime := 1, mtime := 2, size := 3,
       hash := "aaaaaaaaaaaaaaaaaaaaaaaaaaaaaaaaaaaaaaaa",
       mode := 33188, path := "f" }]
    (fun _ => by simp)
    (fun e he => by
      simp only [List.mem_singleton] at he
      subst he
      exact ⟨by decide, by decide, by decide, by decide,
        ⟨List.replicate 20 170, by decide, by decide, by decide⟩,
        by decide, by decide⟩)
    (by decide)
    (by simp)).1

/-! ## First-parent walks and the merge base (src/cmd merge: findMergeBase)

`walk` models the repeated `for h != "" { ...; h = parents[0] or "" }` loop
that both loops of `findMergeBase` perform, collecting the visited hashes in
order.  It carries a fuel argument because the Go loop's termination depends
on the commit graph; all theorems assume enough fuel (the claim's
"finite first-parent chains").
-/

/-- `ReadCommit`: read the object (any kind) and parse it as a commit;
`ParseCommit` itself never fails. -/
def readCommit (s : Store) (h : String) : Option Commit :=
  match readObject s h with
  | none => none
  | some (_, content) => some (parseCommit content)

/-- `commit.Parents[0]`, or `""` when the commit has no parents. -/
def firstParent (c : Commit) : String := c.parents.headD ""

/-- The hashes visited by a first-parent loop from `h`, in order.  Each
visited hash is recorded before its commit is read; the walk ends at `""`,
at a read error, or (artificially) when the fuel runs out. -/
def walk (s : Store) : Nat → String → List String
  | 0, _ => []
  | fuel + 1, h =>
    if h = "" then []
    else
      h :: (match readCommit s h with
        | none => []
        | some c => walk s fuel (firstParent c))

/-- The second loop of `findMergeBase`: walk from `h` and return the first
hash in `anc`, or `""` when the walk ends first. -/
def walkFind (s : Store) (anc : List String) : Nat → String → String
  | 0, _ => ""
  | fuel + 1, h =>
    if h = "" then ""
    else if h ∈ anc then h
    else
      match readCommit s h with
      | none => ""
      | some c => walkFind s anc fuel (firstParent c)

/-- `findMergeBase(root, hash1, hash2)`: collect the first-parent ancestors
of `hash1`, then walk from `hash2` and return the first hash in that set. -/
def findMergeBase (s : Store) (fuel : Nat) (hash1 hash2 : String) : String :=
  walkFind s (walk s fuel hash1) fuel hash2

/-- Modelled from the spec's words (C6): "the first hash on the first-parent
walk from `current` that also appears in the set of first-parent ancestors
of the other side". -/
def mergeBaseSpec (s : Store) (fuel : Nat) (cur tar : String) : String :=
  ((walk s fuel cur).find? (fun x => decide (x ∈ walk s fuel tar))).getD ""

theorem walk_mem_ne_empty (s : Store) (fuel : Nat) (h : String) :
    ∀ x ∈ walk s fuel h, x ≠ "" := by
  induction fuel generalizing h with
  | zero => simp [walk]
  | succ n ih =>
    intro x hx
    unfold walk at hx
    by_cases hh : h = ""
    · simp [hh] at hx
    · rw [if_neg hh] at hx
      rcases List.mem_cons.1 hx with h1 | h1
      · subst h1; exact hh
      · cases hrc : readCommit s h with
        | none => rw [hrc] at h1; cases h1
        | some c =>
          rw [hrc] at h1
          exact ih (firstParent c) x h1

theorem walk_cons (s : Store) (fuel : Nat) (h : String) (hh : h ≠ "")
    (c : Commit) (hrc : readCommit s h = some c) :
    walk s (fuel + 1) h = h :: walk s fuel (firstParent c) := by
  conv =>
    lhs
    unfold walk
  rw [if_neg hh, hrc]

/-- Once a walk ends naturally (its length is below the fuel), more fuel
does not change it. -/
theorem walk_stable (s : Store) (fuel : Nat) (h : String)
    (hlen : (walk s fuel h).length < fuel) :
    walk s (fuel + 1) h = walk s fuel h := by
  induction fuel generalizing h with
  | zero => omega
  | succ n ih =>
    by_cases hh : h = ""
    · subst hh
      simp [walk]
    · cases hrc : readCommit s h with
      | none =>
        unfold walk
        rw [if_neg hh, if_neg hh, hrc]
      | some c =>
        rw [walk_cons s (n + 1) h hh c hrc, walk_cons s n h hh c hrc]
        rw [walk_cons s n h hh c hrc] at hlen
        simp only [List.length_cons] at hlen
        rw [ih (firstParent c) (by omega)]

theorem walk_stable_ge (s : Store) (fuel m : Nat) (h : String)
    (hlen : (walk s fuel h).length < fuel) (hm : fuel ≤ m) :
    walk s m h = walk s fuel h := by
  induction m with
  | zero =>
    have : fuel = 0 := by omega
    subst this
    rfl
  | succ k ih =>
    by_cases hk : fuel = k + 1
    · subst hk; rfl
    · have hk' : fuel ≤ k := by omega
      rw [← ih hk'] at hlen ⊢
      exact walk_stable s k h (by
        rw [ih hk'] at hlen ⊢
        omega)

/-- Structure of a walk at a member: the walk from any visited hash is a
suffix of the original walk, and the visited hash does not occur in the
prefix before its own walk starts. -/
theorem walk_suffix (s : Store) (fuel : Nat) (h x : String)
    (hlen : (walk s fuel h).length < fuel)
    (hread : ∀ y ∈ walk s fuel h, readCommit s y ≠ none)
    (hx : x ∈ walk s fuel h) :
    ∃ pre, walk s fuel h = pre ++ walk s fuel x ∧ x ∉ pre := by
  induction fuel generalizing h with
  | zero => simp [walk] at hx
  | succ n ih =>
    have hh : h ≠ "" := by
      intro hc
      subst hc
      simp [walk] at hx
    by_cases hxh : x = h
    · subst hxh
      exact ⟨[], by simp, by simp⟩
    · cases hrc : readCommit s h with
      | none =>
        unfold walk at hx
        rw [if_neg hh, hrc] at hx
        simp at hx
        exact absurd hx hxh
      | some c =>
        rw [walk_cons s n h hh c hrc] at hx hlen hread
        simp only [List.length_cons] at hlen
        have hx' : x ∈ walk s n (firstParent c) := by
          rcases List.mem_cons.1 hx with h1 | h1
          · exact absurd h1 hxh
          · exact h1
        have hlen' : (walk s n (firstParent c)).length < n := by omega
        have hread' : ∀ y ∈ walk s n (firstParent c), readCommit s y ≠ none :=
          fun y hy => hread y (by simp [hy])
        obtain ⟨pre, hpre, hnx⟩ := ih (firstParent c) hlen' hread' hx'
        have hxlen : (walk s n x).length < n := by
          have : (walk s n x).length ≤ (walk s n (firstParent c)).length := by
            rw [hpre]
            simp
          omega
        have hstab : walk s (n + 1) x = walk s n x := walk_stable s n x hxlen
        refine ⟨h :: pre, ?_, ?_⟩
        · rw [walk_cons s n h hh c hrc, hpre, hstab]
          simp
        · simp only [List.mem_cons]
          push_neg
          exact ⟨hxh, hnx⟩

/-- The second loop visits exactly `walk` and returns its first hash in
`anc`. -/
theorem walkFind_spec (s : Store) (anc : List String) (fuel : Nat) (h : String)
    (hlen : (walk s fuel h).length < fuel)
    (hread : ∀ y ∈ walk s fuel h, readCommit s y ≠ none) :
    walkFind s anc fuel h
      = ((walk s fuel h).find? (fun x => decide (x ∈ anc))).getD "" := by
  induction fuel generalizing h with
  | zero => omega
  | succ n ih =>
    by_cases hh : h = ""
    · subst hh
      simp [walkFind, walk]
    · by_cases hanc : h ∈ anc
      · unfold walkFind walk
        rw [if_neg hh, if_neg hh, if_pos hanc]
        cases hrc : readCommit s h with
        | none => simp [hanc]
        | some c => simp [hanc]
      · cases hrc : readCommit s h with
        | none =>
          exfalso
          apply hread h _ hrc
          unfold walk
          rw [if_neg hh, hrc]
          simp
        | some c =>
          have hstep : walkFind s anc (n + 1) h = walkFind s anc n (firstParent c) := by
            conv =>
              lhs
              unfold walkFind
            rw [if_neg hh, if_neg hanc, hrc]
          rw [hstep]
          rw [walk_cons s n h hh c hrc] at hlen hread
          simp only [List.length_cons] at hlen
          rw [ih (firstParent c) (by omega) (fun y hy => hread y (by simp [hy]))]
          rw [walk_cons s n h hh c hrc, List.find?_cons]
          have : (decide (h ∈ anc)) = false := by simp [hanc]
          rw [this]

/-- Unique decomposition of a list at an element absent from both prefixes. -/
theorem split_at_unique {α : Type} {a : α} :
    ∀ (t1 t2 p1 p2 : List α), t1 ++ a :: t2 = p1 ++ a :: p2 →
      a ∉ t1 → a ∉ p1 → t1 = p1 ∧ t2 = p2 := by
  intro t1
  induction t1 with
  | nil =>
    intro t2 p1 p2 heq n1 n2
    cases p1 with
    | nil =>
      simp only [List.nil_append] at heq
      injection heq with _ h
      exact ⟨rfl, h⟩
    | cons d p1' =>
      simp only [List.nil_append, List.cons_append] at heq
      injection heq with hd _
      exact absurd (by rw [hd]; simp : a ∈ d :: p1') n2
  | cons c t1' ih =>
    intro t2 p1 p2 heq n1 n2
    cases p1 with
    | nil =>
      simp only [List.cons_append, List.nil_append] at heq
      injection heq with hd _
      exact absurd (by rw [← hd]; simp : a ∈ c :: t1') n1
    | cons d p1' =>
      simp only [List.cons_append] at heq
      injection heq with hd htl
      obtain ⟨e1, e2⟩ := ih t2 p1' p2 htl (fun hm => n1 (by simp [hm]))
        (fun hm => n2 (by simp [hm]))
      exact ⟨by rw [hd, e1], e2⟩

theorem find?_decomp {p : String → Bool} {l : List String} {b : String}
    (h : l.find? p = some b) :
    p b ∧ ∃ t1 t2, l = t1 ++ b :: t2 ∧ ∀ y ∈ t1, ¬ p y := by
  induction l with
  | nil => cases h
  | cons a t ih =>
    cases hp : p a with
    | true =>
      rw [List.find?_cons_of_pos _ hp] at h
      injection h with h
      subst h
      exact ⟨hp, [], t, rfl, by simp⟩
    | false =>
      rw [List.find?_cons_of_neg _ (by simp [hp])] at h
      obtain ⟨hb, t1, t2, hl, hpre⟩ := ih h
      exact ⟨hb, a :: t1, t2, by rw [hl]; simp, by
        intro y hy
        rcases List.mem_cons.1 hy with h1 | h1
        · subst h1; simp [hp]
        · exact hpre y h1⟩

theorem walk_head (s : Store) (n : Nat) (h : String) (hh : h ≠ "")
    (hn : 0 < n) : ∃ t, walk s n h = h :: t := by
  cases n with
  | zero => omega
  | succ k =>
    cases hrc : readCommit s h with
    | none =>
      refine ⟨[], ?_⟩
      conv =>
        lhs
        unfold walk
      rw [if_neg hh, hrc]
    | some c =>
      exact ⟨walk s k (firstParent c), walk_cons s k h hh c hrc⟩

/-- **C6** — merge-base agreement with the spec: when the first-parent walks
from `cur` and `tar` are finite (end naturally within the fuel) and every
visited commit is readable, `findMergeBase` — which walks from `tar`
searching the ancestor set of `cur` — returns exactly the first hash on the
walk from `cur` that appears in the walk of `tar` (the claim's reading), and
returns `""` exactly when the two walks share no hash.  Acyclicity is
implied by finiteness of the walks. -/
theorem findMergeBase_spec (s : Store) (fuel : Nat) (cur tar : String)
    (hl1 : (walk s fuel cur).length < fuel)
    (hl2 : (walk s fuel tar).length < fuel)
    (hr1 : ∀ y ∈ walk s fuel cur, readCommit s y ≠ none)
    (hr2 : ∀ y ∈ walk s fuel tar, readCommit s y ≠ none) :
    findMergeBase s fuel cur tar = mergeBaseSpec s fuel cur tar ∧
      (findMergeBase s fuel cur tar = "" ↔
        ∀ x ∈ walk s fuel cur, x ∉ walk s fuel tar) := by
  have hstep : findMergeBase s fuel cur tar
      = ((walk s fuel tar).find? (fun x =>
          decide (x ∈ walk s fuel cur))).getD "" :=
    walkFind_spec s (walk s fuel cur) fuel tar hl2 hr2
  cases hB : (walk s fuel tar).find? (fun x => decide (x ∈ walk s fuel cur)) with
  | none =>
    have hnoB : ∀ x ∈ walk s fuel tar, x ∉ walk s fuel cur := by
      intro x hx
      have := List.find?_eq_none.1 hB x hx
      simpa using this
    have hA : (walk s fuel cur).find? (fun x => decide (x ∈ walk s fuel tar))
        = none := by
      apply List.find?_eq_none.2
      intro x hx
      simp only [decide_eq_true_eq]
      exact fun hxB => hnoB x hxB hx
    have hg1 : findMergeBase s fuel cur tar = "" := by
      rw [hstep, hB]
      rfl
    have hg2 : mergeBaseSpec s fuel cur tar = "" := by
      unfold mergeBaseSpec
      rw [hA]
      rfl
    refine ⟨hg1.trans hg2.symm, ?_⟩
    rw [hg1]
    exact ⟨fun _ x hx hxB => hnoB x hxB hx, fun _ => rfl⟩
  | some a =>
    obtain ⟨haP, t1, t2, hBsplit, hpreB⟩ := find?_decomp hB
    have haA : a ∈ walk s fuel cur := by simpa using haP
    have haB : a ∈ walk s fuel tar := by rw [hBsplit]; simp
    have hane : a ≠ "" := walk_mem_ne_empty s fuel tar a haB
    have hfuel : 0 < fuel := by omega
    cases hA : (walk s fuel cur).find? (fun x => decide (x ∈ walk s fuel tar)) with
    | none =>
      exfalso
      have := List.find?_eq_none.1 hA a haA
      simp only [decide_eq_true_eq] at this
      exact this haB
    | some b =>
      obtain ⟨hbP, u1, u2, hAsplit, hpreA⟩ := find?_decomp hA
      have hbB : b ∈ walk s fuel tar := by simpa using hbP
      have hbA : b ∈ walk s fuel cur := by rw [hAsplit]; simp
      have hbne : b ≠ "" := walk_mem_ne_empty s fuel cur b hbA
      -- decompose the tar walk at a via the suffix lemma
      obtain ⟨pB, hpB, hanpB⟩ := walk_suffix s fuel tar a hl2 hr2 haB
      obtain ⟨wa, hwa⟩ := walk_head s fuel a hane hfuel
      obtain ⟨pA, hpA, hbnpA⟩ := walk_suffix s fuel cur b hl1 hr1 hbA
      obtain ⟨wb, hwb⟩ := walk_head s fuel b hbne hfuel
      have hBeq : t1 ++ a :: t2 = pB ++ a :: wa := by
        rw [← hBsplit, hpB, hwa]
      have hant1 : a ∉ t1 := fun hm => by
        have := hpreB a hm
        simp [haA] at this
      obtain ⟨he1, he2⟩ := split_at_unique t1 t2 pB wa hBeq hant1 hanpB
      have hAeq : u1 ++ b :: u2 = pA ++ b :: wb := by
        rw [← hAsplit, hpA, hwb]
      have hbnu1 : b ∉ u1 := fun hm => by
        have := hpreA b hm
        simp [hbB] at this
      obtain ⟨hf1, hf2⟩ := split_at_unique u1 u2 pA wb hAeq hbnu1 hbnpA
      -- b lies in the walk from a, and a in the walk from b
      have hbWa : b ∈ walk s fuel a := by
        rw [hBsplit] at hbB
        rcases List.mem_append.1 hbB with hm | hm
        · exact absurd hbA (by simpa using hpreB b hm)
        · rw [hwa, ← he2]
          exact hm
      have haWb : a ∈ walk s fuel b := by
        rw [hAsplit] at haA
        rcases List.mem_append.1 haA with hm | hm
        · exact absurd haB (by simpa using hpreA a hm)
        · rw [hwb, ← hf2]
          exact hm
      -- the two sub-walks are suffixes of each other, hence equal
      have hWalen : (walk s fuel a).length < fuel := by
        have : (walk s fuel a).length ≤ (walk s fuel tar).length := by
          rw [hpB]
          simp
        omega
      have hWara : ∀ y ∈ walk s fuel a, readCommit s y ≠ none := by
        intro y hy
        apply hr2
        rw [hpB]
        simp [hy]
      have hWblen : (walk s fuel b).length < fuel := by
        have : (walk s fuel b).length ≤ (walk s fuel cur).length := by
          rw [hpA]
          simp
        omega
      have hWbra : ∀ y ∈ walk s fuel b, readCommit s y ≠ none := by
        intro y hy
        apply hr1
        rw [hpA]
        simp [hy]
      obtain ⟨q1, hq1, _⟩ := walk_suffix s fuel a b hWalen hWara hbWa
      obtain ⟨q2, hq2, _⟩ := walk_suffix s fuel b a hWblen hWbra haWb
      have hlen : (walk s fuel a).length
          = q1.length + q2.length + (walk s fuel a).length := by
        conv =>
          lhs
          rw [hq1]
        rw [hq2]
        simp
        omega
      have hq1nil : q1 = [] := by
        have := List.length_eq_zero.1 (show q1.length = 0 by omega)
        exact this
      have hab : a = b := by
        have heq : walk s fuel a = walk s fuel b := by
          rw [hq1, hq1nil, List.nil_append]
        rw [hwa, hwb] at heq
        injection heq
      have hg1 : findMergeBase s fuel cur tar = a := by
        rw [hstep, hB]
        rfl
      have hg2 : mergeBaseSpec s fuel cur tar = b := by
        unfold mergeBaseSpec
        rw [hA]
        rfl
      refine ⟨by rw [hg1, hg2, hab], ?_⟩
      rw [hg1]
      constructor
      · intro hc
        exact absurd hc hane
      · intro hdisj
        exact absurd haB (hdisj a haA)

/-- A small concrete commit graph: `exC1` and `exC2` both have first parent
`exB`; `exB` is a root commit. -/
def mergeExStore : Store := fun h =>
  if h = "C1" then some (encodeObj "commit" (strBytes "tree t1\nparent B\n\nm1"))
  else if h = "C2" then some (encodeObj "commit" (strBytes "tree t2\nparent B\n\nm2"))
  else if h = "B" then some (encodeObj "commit" (strBytes "tree t0\n\nm0"))
  else none

/-- Witness for C6 on the concrete two-branch graph (the merge base is `B`). -/
theorem findMergeBase_spec_witness :
    findMergeBase mergeExStore 5 "C1" "C2" = mergeBaseSpec mergeExStore 5 "C1" "C2" ∧
      (findMergeBase mergeExStore 5 "C1" "C2" = "" ↔
        ∀ x ∈ walk mergeExStore 5 "C1", x ∉ walk mergeExStore 5 "C2") :=
  findMergeBase_spec mergeExStore 5 "C1" "C2" (by decide) (by decide)
    (by decide) (by decide)

/-! ## Tree model (src/object/blob.go: WriteTree, ParseTree,
BuildTreeFromIndex, FlattenTree)

Write events are recorded so that the merge claims can reason about write
ordering.  `writeDirF` and `flattenTree` carry a fuel for the recursion over
the directory structure; the Go originals terminate because tries and
hash-addressed trees are finite, and every theorem assumes enough fuel.
-/

/-- Events observable on disk, in program order. -/
inductive Ev where
  | objWrite (hash : String)
  | indexWrite
  | refWrite (ref : String) (hash : String)
  | headWrite (content : String)
  | wtWrite (path : String) (perm : Nat)
  | wtRemove (path : String)
  | printConflict (path : String)
deriving Repr, DecidableEq

/-- `WriteObject` together with the write event it performs (none when the
object already exists). -/
def writeObjectEv (H : String → Bytes → String) (store : Store)
    (kind : String) (content : Bytes) : String × Store × List Ev :=
  let r := writeObject H store kind content
  (r.1, r.2,
    match store (H kind content) with
    | some _ => []
    | none => [Ev.objWrite (H kind content)])

/-- A tree-object entry. -/
structure TreeEntry where
  mode : String
  name : String
  hash : String
deriving Repr, DecidableEq

/-- `WriteTree`'s sort key: directory names compare with a trailing slash. -/
def treeKey (e : TreeEntry) : String :=
  if e.mode = "40000" then e.name ++ "/" else e.name

/-- Insertion step of the sort in `WriteTree`. -/
def insertTreeEntry (e : TreeEntry) : List TreeEntry → List TreeEntry
  | [] => [e]
  | f :: fs =>
    if strLt (treeKey f) (treeKey e) then f :: insertTreeEntry e fs
    else e :: f :: fs

/-- Sort tree entries by `treeKey` (the effect of `sort.Slice` on entries
with distinct keys). -/
def sortTreeEntries (l : List TreeEntry) : List TreeEntry :=
  l.foldr insertTreeEntry []

/-- Serialize tree entries (`"<mode> <name>\0<20-byte hash>"` each); fails on
a hash that does not hex-decode, as `WriteTree` does. -/
def encodeTree : List TreeEntry → Option Bytes
  | [] => some []
  | e :: rest =>
    match hexDecodeStr e.hash with
    | (_, false) => none
    | (hb, true) =>
      match encodeTree rest with
      | none => none
      | some tail =>
        some (strBytes e.mode ++ 32 :: (strBytes e.name ++ 0 :: (hb ++ tail)))

/-- `WriteTree`: sort, serialize, store as a `"tree"` object. -/
def writeTree (H : String → Bytes → String) (store : Store)
    (entries : List TreeEntry) : Option (String × Store × List Ev) :=
  match encodeTree (sortTreeEntries entries) with
  | none => none
  | some payload => some (writeObjectEv H store "tree" payload)

/-- `ParseTree` with explicit fuel (each step consumes at least 21 bytes, so
`data.length` fuel always suffices). -/
def parseTreeF : Nat → Bytes → Option (List TreeEntry)
  | _, [] => some []
  | 0, _ :: _ => none
  | fuel + 1, data =>
    if (data.takeWhile (fun b => b ≠ 0)).length = data.length then none
    else
      if ((data.takeWhile (fun b => b ≠ 0)).takeWhile (fun b => b ≠ 32)).length
          = (data.takeWhile (fun b => b ≠ 0)).length then none
      else
        if data.length < (data.takeWhile (fun b => b ≠ 0)).length + 21 then none
        else
          match parseTreeF fuel
            (data.drop ((data.takeWhile (fun b => b ≠ 0)).length + 21)) with
          | none => none
          | some rest =>
            some ({ mode := bytesToStr
                      ((data.takeWhile (fun b => b ≠ 0)).takeWhile (fun b => b ≠ 32)),
                    name := bytesToStr
                      ((data.takeWhile (fun b => b ≠ 0)).drop
                        (((data.takeWhile (fun b => b ≠ 0)).takeWhile
                          (fun b => b ≠ 32)).length + 1)),
                    hash := hexEncodeStr
                      ((data.drop ((data.takeWhile (fun b => b ≠ 0)).length + 1)).take 20)
                  } :: rest)

/-- `ParseTree`. -/
def parseTree (data : Bytes) : Option (List TreeEntry) :=
  parseTreeF data.length data

/-- `ReadTree`: read the object (kind unchecked) and parse its payload. -/
def readTree (s : Store) (h : String) : Option (List TreeEntry) :=
  match readObject s h with
  | none => none
  | some (_, content) => parseTree content

/-- Go map lookup returning the zero value `""` for a missing key, exactly
as the merge code uses `tree[path]`. -/
def mget (m : List (String × String)) (k : String) : String :=
  (m.lookup k).getD ""

/-- Go map assignment `m[k] = v`. -/
def mset (m : List (String × String)) (k v : String) : List (String × String) :=
  if (m.lookup k).isSome then m.map (fun p => if p.1 = k then (k, v) else p)
  else m ++ [(k, v)]

/-- `FlattenTree`: read the tree at `h`, then fold over its entries, merging
recursive results for `40000` entries and inserting `prefix/name ↦ hash`
for files.  Go joins with `path.Join(prefix, name)`, which also runs
`path.Clean`; the model joins with a plain slash.  The two coincide exactly
when `prefix` is a clean relative path and `name` is a nonempty slash-free
component other than `.` and `..` — the round-trip theorem restricts its
paths to such components (`cleanComp`), so on every input it admits the
modelled join is Go's join.  (Entry names containing `/`, `.` or `..`
cannot make the properties proved about the merge/checkout commands here
fail: those theorems do not depend on the shape of the produced paths.) -/
def flattenTree (s : Store) : Nat → String → String → Option (List (String × String))
  | 0, _, _ => none
  | fuel + 1, h, pfx =>
    match readTree s h with
    | none => none
    | some entries =>
      entries.foldl (fun acc e =>
        match acc with
        | none => none
        | some m =>
          if e.mode = "40000" then
            match flattenTree s fuel e.hash
                (if pfx = "" then e.name else pfx ++ "/" ++ e.name) with
            | none => none
            | some sub => some (sub.foldl (fun m2 kv => mset m2 kv.1 kv.2) m)
          else some (mset m (if pfx = "" then e.name else pfx ++ "/" ++ e.name)
            e.hash)) (some [])

/-- The in-memory directory trie built by `BuildTreeFromIndex` (`dirEntry`):
`entries = none` models Go's nil map of a leaf node. -/
inductive Dir where
  | node (name : String) (mode : String) (hash : String) (isTree : Bool)
      (entries : Option (List (String × Dir)))
deriving Repr

def Dir.name : Dir → String
  | .node n _ _ _ _ => n

def Dir.mode : Dir → String
  | .node _ m _ _ _ => m

def Dir.hash : Dir → String
  | .node _ _ h _ _ => h

def Dir.isTree : Dir → Bool
  | .node _ _ _ t _ => t

def Dir.entries : Dir → Option (List (String × Dir))
  | .node _ _ _ _ e => e

/-- Go map read on the children map. -/
def childGet : List (String × Dir) → String → Option Dir
  | [], _ => none
  | (k, d) :: t, key => if k = key then some d else childGet t key

/-- Go map assignment on the children map. -/
def childSet : List (String × Dir) → String → Dir → List (String × Dir)
  | [], key, v => [(key, v)]
  | (k, d) :: t, key, v =>
    if k = key then (k, v) :: t else (k, d) :: childSet t key v

/-- A fresh leaf `dirEntry` (nil children map). -/
def leafDir (part mode hash : String) : Dir := .node part mode hash false none

/-- A fresh intermediate `dirEntry` (`isTree: true`, made map). -/
def newDir (part : String) : Dir := .node part "" "" true (some [])

/-- One index entry's insertion walk in `BuildTreeFromIndex`: descend the
parts, creating intermediate directories, and assign a leaf at the last
part.  Assigning into a leaf's nil children map is a Go panic, modelled as
`none`. -/
def insertPath (mode hash : String) : List String → Dir → Option Dir
  | [], cur => some cur
  | [part], cur =>
    match cur.entries with
    | none => none
    | some es =>
      some (.node cur.name cur.mode cur.hash cur.isTree
        (some (childSet es part (leafDir part mode hash))))
  | part :: rest1 :: rest, cur =>
    match cur.entries with
    | none => none
    | some es =>
      let child :=
        match childGet es part with
        | some c => c
        | none => newDir part
      match insertPath mode hash (rest1 :: rest) child with
      | none => none
      | some child' =>
        some (.node cur.name cur.mode cur.hash cur.isTree
          (some (childSet es part child')))

/-- Split a character list on a separator (`strings.Split` when the
separator is one character). -/
def splitChar (sep : Char) : List Char → List (List Char)
  | [] => [[]]
  | c :: rest =>
    if c = sep then [] :: splitChar sep rest
    else
      match splitChar sep rest with
      | [] => [[c]]
      | l :: ls => (c :: l) :: ls

/-- `strings.Split(path, "/")`. -/
def splitSlash (s : String) : List String :=
  (splitChar '/' s.data).map (fun l => ⟨l⟩)

/-- Slash-join of path components. -/
def joinSlash : List String → String
  | [] => ""
  | [p] => p
  | p :: q :: rest => p ++ "/" ++ joinSlash (q :: rest)

/-- Build the trie from index entries (the first loop of
`BuildTreeFromIndex`); the leaf mode string is `fmt.Sprintf("%o", e.Mode)`. -/
def buildTrie : List IEntry → Option Dir :=
  fun entries => entries.foldl (fun acc e =>
    match acc with
    | none => none
    | some d => insertPath (octalStr e.mode) e.hash (splitSlash e.path) d)
    (some (.node "" "" "" false (some [])))

/-- The loop body of `writeDir` over the children of one directory:
recursively write subtree children via `w`, collect one `TreeEntry` per
child. -/
def childFold (w : Dir → Store → Option (String × Store × List Ev)) :
    List (String × Dir) → Option (List TreeEntry × Store × List Ev) →
      Option (List TreeEntry × Store × List Ev)
  | [], acc => acc
  | kv :: rest, acc =>
    match acc with
    | none => childFold w rest none
    | some (tes, st, evs) =>
      if kv.2.isTree then
        match w kv.2 st with
        | none => childFold w rest none
        | some (ch, st1, evs1) =>
          childFold w rest
            (some (tes ++ [⟨"40000", kv.2.name, ch⟩], st1, evs ++ evs1))
      else
        childFold w rest
          (some (tes ++ [⟨kv.2.mode, kv.2.name, kv.2.hash⟩], st, evs))

/-- The recursive `writeDir` closure: emit each child (recursively writing
subtrees), then `WriteTree` the collected entries.  Go ranges over a map and
then sorts, so the iteration order only affects event order, not results. -/
def writeDirF (H : String → Bytes → String) :
    Nat → Dir → Store → Option (String × Store × List Ev)
  | 0, _, _ => none
  | fuel + 1, d, store =>
    match childFold (fun c st => writeDirF H fuel c st) (d.entries.getD [])
        (some ([], store, [])) with
    | none => none
    | some (tes, st, evs) =>
      match writeTree H st tes with
      | none => none
      | some (h, st2, evs2) => some (h, st2, evs ++ evs2)

/-- `BuildTreeFromIndex`: build the trie, then depth-first write all tree
objects, returning the root hash. -/
def buildTreeFromIndex (H : String → Bytes → String) (fuel : Nat)
    (store : Store) (entries : List IEntry) : Option (String × Store × List Ev) :=
  match buildTrie entries with
  | none => none
  | some root => writeDirF H fuel root store

/-! ## Repository state and the merge/checkout commands
(src/cmd: Merge helpers, checkout's updateWorkingTree)

The on-disk repository is a record of the object store, the index file
(as its decoded entries), the reference files, HEAD, and the working tree.
Each modelled command returns its result, the final state, and the ordered
list of write events it performed.  `now` stands for the stat clock
(`info.ModTime().Unix()`), `author`/`timestamp` for the commit identity
inputs.
-/

/-- Generic Go map assignment on an association list. -/
def aset {β : Type} (m : List (String × β)) (k : String) (v : β) :
    List (String × β) :=
  if (m.lookup k).isSome then m.map (fun p => if p.1 = k then (k, v) else p)
  else m ++ [(k, v)]

/-- `os.Remove` on the working-tree map. -/
def arem {β : Type} (m : List (String × β)) (k : String) : List (String × β) :=
  m.filter (fun p => p.1 ≠ k)

/-- On-disk repository state. -/
structure RepoState where
  store : Store
  index : List IEntry
  refs : List (String × String)
  head : String
  wt : List (String × Bytes)

/-- Result of a command. -/
inductive CmdResult where
  | ok
  | err (msg : String)
deriving Repr, DecidableEq

/-- `refs.BranchRef`. -/
def branchRef (name : String) : String := "refs/heads/" ++ name

/-- `object.ReadBlob`: the payload of the object, kind unchecked. -/
def readBlob (s : Store) (h : String) : Option Bytes :=
  (readObject s h).map Prod.snd

/-- `index.AddEntry`: replace the first entry with the same path, else
append. -/
def addEntry : List IEntry → IEntry → List IEntry
  | [], e => [e]
  | f :: fs, e => if f.path = e.path then e :: fs else f :: addEntry fs e

/-- The file-write loop shared verbatim by checkout's `updateWorkingTree`,
`fastForwardMerge` and `fileLevelMerge`: for each `(path, hash)`, read the
blob, write the file with permission `0644`, and add an index entry with
mode `0100644` and the file's stat times; a read/write error aborts the
loop, keeping the files already written (the in-memory index is then
discarded by the caller). -/
def materialize (store : Store) (now : Nat) :
    List (String × String) → List IEntry → List (String × Bytes) → List Ev →
      Option (List IEntry) × List (String × Bytes) × List Ev
  | [], idx, wt, evs => (some idx, wt, evs)
  | (path, hash) :: rest, idx, wt, evs =>
    match readBlob store hash with
    | none => (none, wt, evs)
    | some content =>
      materialize store now rest
        (addEntry idx
          ⟨now, now, content.length, hash, 33188, path⟩)
        (aset wt path content)
        (evs ++ [Ev.wtWrite path 420])

/-- The deletion loop shared by `updateWorkingTree` and `fileLevelMerge`:
remove every working-tree path of `l` that is not in `keep`
(`cleanEmptyDirs` only touches empty directories, which the state does not
track). -/
def removeLoop (keep : List (String × String)) (l : List (String × String))
    (wt : List (String × Bytes)) (evs : List Ev) :
    List (String × Bytes) × List Ev :=
  l.foldl (fun acc kv =>
    if (keep.lookup kv.1).isSome then acc
    else (arem acc.1 kv.1, acc.2 ++ [Ev.wtRemove kv.1])) (wt, evs)

/-- checkout's `updateWorkingTree`: delete paths gone from the target tree,
materialize the target tree, write the index, then point HEAD at the target
branch. -/
def updateWorkingTree (now : Nat) (st : RepoState) (target : String)
    (currentTree targetTree : List (String × String)) :
    CmdResult × RepoState × List Ev :=
  let rm := removeLoop targetTree currentTree st.wt []
  match materialize st.store now targetTree [] rm.1 rm.2 with
  | (none, wt2, evs2) => (.err "object read failed", { st with wt := wt2 }, evs2)
  | (some idx, wt2, evs2) =>
    (.ok,
      { st with
          wt := wt2
          index := sortByPath idx
          head := "ref: refs/heads/" ++ target },
      evs2 ++ [Ev.indexWrite, Ev.headWrite ("ref: refs/heads/" ++ target)])

/-- `fastForwardMerge`: move the current branch ref to the target hash
*first*, then read the target commit and materialize its tree, then write
the index. -/
def fastForwardMerge (fuel now : Nat) (st : RepoState)
    (currentBranch targetHash : String) : CmdResult × RepoState × List Ev :=
  let st1 := { st with refs := aset st.refs (branchRef currentBranch) targetHash }
  let evs1 := [Ev.refWrite (branchRef currentBranch) targetHash]
  match readCommit st1.store targetHash with
  | none => (.err "object not found", st1, evs1)
  | some tc =>
    match flattenTree st1.store fuel tc.treeHash "" with
    | none => (.err "flatten failed", st1, evs1)
    | some targetTree =>
      match materialize st1.store now targetTree [] st1.wt evs1 with
      | (none, wt2, evs2) => (.err "object read failed", { st1 with wt := wt2 }, evs2)
      | (some idx, wt2, evs2) =>
        (.ok, { st1 with wt := wt2, index := sortByPath idx },
          evs2 ++ [Ev.indexWrite])

/-- The read phase of `fileLevelMerge`: merge base, then the three flattened
trees (an empty base map when there is no common ancestor). -/
def flmTrees (st : RepoState) (fuel : Nat) (curH tarH : String) :
    Option (List (String × String) × List (String × String) ×
      List (String × String)) :=
  let baseHash := findMergeBase st.store fuel curH tarH
  match (if baseHash = "" then some [] else
    match readCommit st.store baseHash with
    | none => none
    | some bc => flattenTree st.store fuel bc.treeHash "") with
  | none => none
  | some baseTree =>
    match readCommit st.store curH with
    | none => none
    | some cc =>
      match flattenTree st.store fuel cc.treeHash "" with
      | none => none
      | some curTree =>
        match readCommit st.store tarH with
        | none => none
        | some tc =>
          match flattenTree st.store fuel tc.treeHash "" with
          | none => none
          | some tarTree => some (baseTree, curTree, tarTree)

/-- The union of the three trees' paths, first occurrences kept (the
iteration set of the classification loop). -/
def allPathsOf (bT cT tT : List (String × String)) : List String :=
  (bT.map Prod.fst ++ cT.map Prod.fst ++ tT.map Prod.fst).eraseDups

/-- The classification's `default` case: all three pairwise hashes differ. -/
def isConflict (bT cT tT : List (String × String)) (p : String) : Bool :=
  !(mget cT p == mget tT p) && !(mget cT p == mget bT p) &&
    !(mget tT p == mget bT p)

/-- The per-path classification loop of `fileLevelMerge`, accumulating the
merged tree, the conflict flag, and the `CONFLICT` report events. -/
def classify (bT cT tT : List (String × String)) :
    List String → List (String × String) → Bool → List Ev →
      List (String × String) × Bool × List Ev
  | [], mt, conf, evs => (mt, conf, evs)
  | p :: rest, mt, conf, evs =>
    if mget cT p = mget tT p then
      classify bT cT tT rest
        (if mget cT p ≠ "" then mset mt p (mget cT p) else mt) conf evs
    else if mget cT p = mget bT p then
      classify bT cT tT rest
        (if mget tT p ≠ "" then mset mt p (mget tT p) else mt) conf evs
    else if mget tT p = mget bT p then
      classify bT cT tT rest
        (if mget cT p ≠ "" then mset mt p (mget cT p) else mt) conf evs
    else
      classify bT cT tT rest
        (if mget cT p ≠ "" then mset mt p (mget cT p) else mt) true
        (evs ++ [Ev.printConflict p])

/-- All conflicting paths, in iteration order. -/
def conflictPaths (bT cT tT : List (String × String)) : List String :=
  (allPathsOf bT cT tT).filter (isConflict bT cT tT)

/-- `object.WriteCommit`'s payload text. -/
def commitPayload (treeHash : String) (parents : List String)
    (author timestamp message : String) : String :=
  "tree " ++ treeHash ++ "\n" ++
    (parents.foldl (fun acc p => acc ++ "parent " ++ p ++ "\n") "") ++
    "author " ++ author ++ " " ++ timestamp ++ "\n" ++
    "committer " ++ author ++ " " ++ timestamp ++ "\n" ++
    "\n" ++ message ++ "\n"

/-- `object.WriteCommit`. -/
def writeCommit (H : String → Bytes → String) (store : Store)
    (treeHash : String) (parents : List String)
    (author timestamp message : String) : String × Store × List Ev :=
  writeObjectEv H store "commit"
    (strBytes (commitPayload treeHash parents author timestamp message))

/-- `fileLevelMerge`: read phase, classification, conflict abort, then
materialize the merged tree, write the index, delete dropped files, build
the tree objects, write the merge commit, and finally move the branch ref. -/
def fileLevelMerge (H : String → Bytes → String) (fuel now : Nat)
    (author timestamp : String) (st : RepoState)
    (currentBranch targetBranch curH tarH : String) :
    CmdResult × RepoState × List Ev :=
  match flmTrees st fuel curH tarH with
  | none => (.err "object read failed", st, [])
  | some (bT, cT, tT) =>
    match classify bT cT tT (allPathsOf bT cT tT) [] false [] with
    | (mergedTree, hasConflict, confEvs) =>
      if hasConflict then
        (.err "automatic merge failed; fix conflicts and then commit", st, confEvs)
      else
        match materialize st.store now mergedTree [] st.wt confEvs with
        | (none, wt2, evs2) => (.err "object read failed", { st with wt := wt2 }, evs2)
        | (some idx, wt2, evs2) =>
          let st2 : RepoState := { st with wt := wt2, index := sortByPath idx }
          let evs3 := evs2 ++ [Ev.indexWrite]
          let rm := removeLoop mergedTree cT st2.wt []
          let st3 : RepoState := { st2 with wt := rm.1 }
          let evs4 := evs3 ++ rm.2
          match buildTreeFromIndex H fuel st3.store (sortByPath idx) with
          | none => (.err "tree build failed", st3, evs4)
          | some (treeHash, store2, buildEvs) =>
            match writeCommit H store2 treeHash [curH, tarH] author timestamp
              ("Merge branch '" ++ targetBranch ++ "' into " ++ currentBranch) with
            | (commitHash, store3, commitEvs) =>
              (.ok,
                { st3 with
                    store := store3
                    refs := aset st3.refs (branchRef currentBranch) commitHash },
                evs4 ++ buildEvs ++ commitEvs ++
                  [Ev.refWrite (branchRef currentBranch) commitHash])

theorem addEntry_mem {idx : List IEntry} {f e : IEntry}
    (h : e ∈ addEntry idx f) : e = f ∨ e ∈ idx := by
  induction idx with
  | nil =>
    simp only [addEntry, List.mem_singleton] at h
    exact Or.inl h
  | cons g t ih =>
    unfold addEntry at h
    split at h
    · rcases List.mem_cons.1 h with h1 | h1
      · exact Or.inl h1
      · exact Or.inr (by simp [h1])
    · rcases List.mem_cons.1 h with h1 | h1
      · exact Or.inr (by simp [h1])
      · rcases ih h1 with h2 | h2
        · exact Or.inl h2
        · exact Or.inr (by simp [h2])

theorem materialize_events (store : Store) (now : Nat) :
    ∀ (l : List (String × String)) idx wt evs e,
      e ∈ (materialize store now l idx wt evs).2.2 →
      e ∈ evs ∨ ∃ p, e = Ev.wtWrite p 420 := by
  intro l
  induction l with
  | nil =>
    intro idx wt evs e he
    exact Or.inl he
  | cons kv rest ih =>
    intro idx wt evs e he
    obtain ⟨path, hash⟩ := kv
    unfold materialize at he
    cases hrb : readBlob store hash with
    | none =>
      rw [hrb] at he
      exact Or.inl he
    | some content =>
      rw [hrb] at he
      rcases ih _ _ _ e he with h1 | h1
      · rcases List.mem_append.1 h1 with h2 | h2
        · exact Or.inl h2
        · simp only [List.mem_singleton] at h2
          exact Or.inr ⟨path, h2⟩
      · exact Or.inr h1

theorem materialize_idx (store : Store) (now : Nat) :
    ∀ (l : List (String × String)) idx wt evs idx',
      (materialize store now l idx wt evs).1 = some idx' →
      ∀ e ∈ idx', e ∈ idx ∨ e.mode = 33188 := by
  intro l
  induction l with
  | nil =>
    intro idx wt evs idx' hm e he
    unfold materialize at hm
    injection hm with hm
    subst hm
    exact Or.inl he
  | cons kv rest ih =>
    intro idx wt evs idx' hm e he
    obtain ⟨path, hash⟩ := kv
    unfold materialize at hm
    cases hrb : readBlob store hash with
    | none =>
      rw [hrb] at hm
      cases hm
    | some content =>
      rw [hrb] at hm
      rcases ih _ _ _ idx' hm e he with h1 | h1
      · rcases addEntry_mem h1 with h2 | h2
        · subst h2
          exact Or.inr rfl
        · exact Or.inl h2
      · exact Or.inr h1

theorem removeLoop_events (keep : List (String × String)) :
    ∀ (l : List (String × String)) wt evs e,
      e ∈ (removeLoop keep l wt evs).2 →
      e ∈ evs ∨ ∃ p, e = Ev.wtRemove p := by
  intro l
  induction l with
  | nil =>
    intro wt evs e he
    exact Or.inl he
  | cons kv rest ih =>
    intro wt evs e he
    unfold removeLoop at he ih
    rw [List.foldl_cons] at he
    by_cases hk : ((keep.lookup kv.1).isSome : Bool)
    · rw [if_pos hk] at he
      exact ih wt evs e he
    · rw [if_neg hk] at he
      rcases ih _ _ e he with h1 | h1
      · rcases List.mem_append.1 h1 with h2 | h2
        · exact Or.inl h2
        · simp only [List.mem_singleton] at h2
          exact Or.inr ⟨kv.1, h2⟩
      · exact Or.inr h1

theorem writeObjectEv_events (H : String → Bytes → String) (store : Store)
    (kind : String) (content : Bytes) :
    ∀ e ∈ (writeObjectEv H store kind content).2.2, ∃ h, e = Ev.objWrite h := by
  intro e he
  unfold writeObjectEv at he
  cases hst : store (H kind content) with
  | some w =>
    rw [hst] at he
    cases he
  | none =>
    rw [hst] at he
    simp only [List.mem_singleton] at he
    exact ⟨H kind content, he⟩

theorem writeObjectEv_store_some (H : String → Bytes → String) (store : Store)
    (kind : String) (content : Bytes) :
    (writeObjectEv H store kind content).2.1
      (writeObjectEv H store kind content).1 ≠ none := by
  unfold writeObjectEv writeObject
  cases hst : store (H kind content) with
  | some w => simp [hst]
  | none => simp [hst]

theorem writeTree_events (H : String → Bytes → String) (store : Store)
    (entries : List TreeEntry) (r : String × Store × List Ev)
    (hw : writeTree H store entries = some r) :
    ∀ e ∈ r.2.2, ∃ h, e = Ev.objWrite h := by
  unfold writeTree at hw
  cases hp : encodeTree (sortTreeEntries entries) with
  | none => rw [hp] at hw; cases hw
  | some payload =>
    rw [hp] at hw
    injection hw with hw
    subst hw
    exact writeObjectEv_events H store "tree" payload

theorem childFold_none
    (w : Dir → Store → Option (String × Store × List Ev)) :
    ∀ l, childFold w l none = none := by
  intro l
  induction l with
  | nil => rfl
  | cons kv rest ih =>
    unfold childFold
    exact ih

theorem childFold_events
    (w : Dir → Store → Option (String × Store × List Ev))
    (hwev : ∀ d st r, w d st = some r → ∀ e ∈ r.2.2, ∃ h, e = Ev.objWrite h) :
    ∀ l acc0, (∀ e ∈ acc0.2.2, ∃ h, e = Ev.objWrite h) →
      ∀ res, childFold w l (some acc0) = some res →
      ∀ e ∈ res.2.2, ∃ h, e = Ev.objWrite h := by
  intro l
  induction l with
  | nil =>
    intro acc0 hacc res hres e he
    injection hres with hres
    subst hres
    exact hacc e he
  | cons kv rest ih =>
    intro acc0 hacc res hres e he
    obtain ⟨tes, st, evs⟩ := acc0
    unfold childFold at hres
    by_cases hkv : (kv.2.isTree : Bool)
    · simp only [hkv, if_true] at hres
      cases hwd : w kv.2 st with
      | none =>
        rw [hwd, childFold_none] at hres
        cases hres
      | some r1 =>
        obtain ⟨ch, st1, evs1⟩ := r1
        rw [hwd] at hres
        refine ih _ ?_ res hres e he
        intro e2 he2
        rcases List.mem_append.1 he2 with h2 | h2
        · exact hacc e2 h2
        · exact hwev kv.2 st (ch, st1, evs1) hwd e2 h2
    · simp only [hkv] at hres
      simp only [Bool.false_eq_true, if_false] at hres
      exact ih (tes ++ [⟨kv.2.mode, kv.2.name, kv.2.hash⟩], st, evs)
        hacc res hres e he

theorem writeDirF_events (H : String → Bytes → String) :
    ∀ (fuel : Nat) (d : Dir) (store : Store) r,
      writeDirF H fuel d store = some r →
      ∀ e ∈ r.2.2, ∃ h, e = Ev.objWrite h := by
  intro fuel
  induction fuel with
  | zero =>
    intro d store r hw
    cases hw
  | succ n ih =>
    intro d store r hw
    unfold writeDirF at hw
    cases hres : childFold (fun c st => writeDirF H n c st) (d.entries.getD [])
        (some ([], store, [])) with
    | none =>
      rw [hres] at hw
      cases hw
    | some acc =>
      rw [hres] at hw
      obtain ⟨tes, st, evs⟩ := acc
      simp only at hw
      cases hwt : writeTree H st tes with
      | none =>
        rw [hwt] at hw
        cases hw
      | some r2 =>
        obtain ⟨h2, st2, evs2⟩ := r2
        rw [hwt] at hw
        injection hw with hw
        subst hw
        intro e he
        rcases List.mem_append.1 he with h3 | h3
        · exact childFold_events _ (fun d st r hr => ih d st r hr) _
            ([], store, []) (by intro e2 he2; cases he2) (tes, st, evs) hres e h3
        · exact writeTree_events H st tes (h2, st2, evs2) hwt e h3

theorem store_ne_none_of_readCommit {s : Store} {h : String}
    (hr : readCommit s h ≠ none) : s h ≠ none := by
  intro hnone
  apply hr
  unfold readCommit readObject
  rw [hnone]

/-- Does the trace keep all object writes before all index writes before all
reference writes (the ordering C4 claims)?  `seenIdx`/`seenRef` record what
has already occurred. -/
def writesOrderedAux : Bool → Bool → List Ev → Bool
  | _, _, [] => true
  | seenIdx, seenRef, e :: rest =>
    match e with
    | .objWrite _ => !seenIdx && !seenRef && writesOrderedAux seenIdx seenRef rest
    | .indexWrite => !seenRef && writesOrderedAux true seenRef rest
    | .refWrite _ _ => writesOrderedAux seenIdx true rest
    | .headWrite _ => writesOrderedAux seenIdx true rest
    | _ => writesOrderedAux seenIdx seenRef rest

/-- Object writes before index writes before reference writes. -/
def writesOrdered (tr : List Ev) : Bool := writesOrderedAux false false tr

/-- A tiny repository for the fast-forward counterexample: a commit `T`
whose tree `E` is empty. -/
def ffExStore : Store := fun h =>
  if h = "T" then some (encodeObj "commit" (strBytes "tree E\n\nm"))
  else if h = "E" then some (encodeObj "tree" [])
  else none

/-- Repository state on branch `main` before the fast-forward. -/
def ffExState : RepoState :=
  ⟨ffExStore, [], [("refs/heads/main", "C0")], "ref: refs/heads/main", []⟩

/-- **C4 counterexample** — a successful fast-forward merge writes the
branch reference *before* the index (its trace is
`[refWrite refs/heads/main T, indexWrite]`), so the claimed
objects-then-index-then-references ordering does not hold for every command
execution. -/
theorem ff_violates_write_ordering :
    (fastForwardMerge 3 0 ffExState "main" "T").1 = .ok ∧
      writesOrdered (fastForwardMerge 3 0 ffExState "main" "T").2.2 = false := by
  constructor
  · decide
  · decide

theorem buildTreeFromIndex_events (H : String → Bytes → String) (fuel : Nat)
    (store : Store) (entries : List IEntry) (r : String × Store × List Ev)
    (hb : buildTreeFromIndex H fuel store entries = some r) :
    ∀ e ∈ r.2.2, ∃ h, e = Ev.objWrite h := by
  unfold buildTreeFromIndex at hb
  cases ht : buildTrie entries with
  | none => rw [ht] at hb; cases hb
  | some root =>
    rw [ht] at hb
    exact writeDirF_events H fuel root store r hb

theorem classify_spec (bT cT tT : List (String × String)) :
    ∀ paths mt conf evs,
      (classify bT cT tT paths mt conf evs).2.1
          = (conf || paths.any (isConflict bT cT tT)) ∧
      (classify bT cT tT paths mt conf evs).2.2
          = evs ++ (paths.filter (isConflict bT cT tT)).map Ev.printConflict := by
  intro paths
  induction paths with
  | nil =>
    intro mt conf evs
    constructor
    · simp [classify]
    · simp [classify]
  | cons p rest ih =>
    intro mt conf evs
    unfold classify
    by_cases h1 : mget cT p = mget tT p
    · rw [if_pos h1]
      have hcf : isConflict bT cT tT p = false := by
        simp [isConflict, h1]
      obtain ⟨e1, e2⟩ := ih (if mget cT p ≠ "" then mset mt p (mget cT p) else mt)
        conf evs
      refine ⟨?_, ?_⟩
      · rw [e1]
        simp [hcf]
      · rw [e2]
        simp [hcf]
    · rw [if_neg h1]
      by_cases h2 : mget cT p = mget bT p
      · rw [if_pos h2]
        have hcf : isConflict bT cT tT p = false := by
          simp [isConflict, h2]
        obtain ⟨e1, e2⟩ := ih (if mget tT p ≠ "" then mset mt p (mget tT p) else mt)
          conf evs
        refine ⟨?_, ?_⟩
        · rw [e1]
          simp [hcf]
        · rw [e2]
          simp [hcf]
      · rw [if_neg h2]
        by_cases h3 : mget tT p = mget bT p
        · rw [if_pos h3]
          have hcf : isConflict bT cT tT p = false := by
            simp [isConflict, h3]
          obtain ⟨e1, e2⟩ := ih (if mget cT p ≠ "" then mset mt p (mget cT p) else mt)
            conf evs
          refine ⟨?_, ?_⟩
          · rw [e1]
            simp [hcf]
          · rw [e2]
            simp [hcf]
        · rw [if_neg h3]
          have hcf : isConflict bT cT tT p = true := by
            simp [isConflict, h1, h2, h3]
          obtain ⟨e1, e2⟩ := ih (if mget cT p ≠ "" then mset mt p (mget cT p) else mt)
            true (evs ++ [Ev.printConflict p])
          refine ⟨?_, ?_⟩
          · rw [e1]
            simp [hcf]
          · rw [e2]
            simp [hcf]

/-- **C4 amended** — what does hold of the write order: the fast-forward
merge leaves the object store untouched and its single ref write names the
target commit, which already exists in the store; the three-way merge's
branch-ref write is the very last write of the command, after the merge
commit object exists, so in both paths no reference is ever written that
names a missing object (the claimed objects→index→refs order itself is
violated: fast-forward writes the ref before the index, and the three-way
merge writes tree and commit objects after the index). -/
theorem merge_ref_write_safety :
    (∀ fuel now st curB tarH,
      readCommit st.store tarH ≠ none →
      (fastForwardMerge fuel now st curB tarH).2.1.store = st.store ∧
      ∀ r h, Ev.refWrite r h ∈ (fastForwardMerge fuel now st curB tarH).2.2 →
        st.store h ≠ none)
  ∧ (∀ H fuel now author timestamp st curB tarB curH tarH bT cT tT mt confEvs
        idx wt2 evs2 treeHash store2 buildEvs,
      flmTrees st fuel curH tarH = some (bT, cT, tT) →
      classify bT cT tT (allPathsOf bT cT tT) [] false [] = (mt, false, confEvs) →
      materialize st.store now mt [] st.wt confEvs = (some idx, wt2, evs2) →
      buildTreeFromIndex H fuel st.store (sortByPath idx)
          = some (treeHash, store2, buildEvs) →
      (fileLevelMerge H fuel now author timestamp st curB tarB curH tarH).1
          = CmdResult.ok ∧
      ∃ pre cH,
        (fileLevelMerge H fuel now author timestamp st curB tarB curH tarH).2.2
          = pre ++ [Ev.refWrite (branchRef curB) cH] ∧
        (∀ r h, Ev.refWrite r h ∉ pre) ∧
        (fileLevelMerge H fuel now author timestamp st curB tarB
          curH tarH).2.1.store cH ≠ none) := by
  constructor
  · intro fuel now st curB tarH hc
    have hne : st.store tarH ≠ none := store_ne_none_of_readCommit hc
    simp only [fastForwardMerge]
    cases hrc : readCommit st.store tarH with
    | none => exact absurd hrc hc
    | some tc =>
      simp only []
      cases hft : flattenTree st.store fuel tc.treeHash "" with
      | none =>
        simp only []
        refine ⟨trivial, ?_⟩
        intro r h hmem
        simp only [List.mem_singleton] at hmem
        injection hmem with _ hh
        rwa [← hh] at hne
      | some targetTree =>
        simp only []
        cases hmz : materialize st.store now targetTree [] st.wt
            [Ev.refWrite (branchRef curB) tarH] with
        | mk oidx rest2 =>
          obtain ⟨wt2, evs2⟩ := rest2
          have hev : ∀ r h, Ev.refWrite r h ∈ evs2 → st.store h ≠ none := by
            intro r h hmem
            have := materialize_events st.store now targetTree _ _ _ _
              (by rw [hmz]; exact hmem)
            rcases this with h1 | h1
            · simp only [List.mem_singleton] at h1
              injection h1 with _ hh
              rwa [← hh] at hne
            · obtain ⟨p, hp⟩ := h1
              cases hp
          cases oidx with
          | none =>
            simp only []
            exact ⟨trivial, fun r h hmem => hev r h hmem⟩
          | some idx =>
            simp only []
            refine ⟨trivial, ?_⟩
            intro r h hmem
            rcases List.mem_append.1 hmem with h1 | h1
            · exact hev r h h1
            · simp only [List.mem_singleton] at h1
              cases h1
  · intro H fuel now author timestamp st curB tarB curH tarH bT cT tT mt
      confEvs idx wt2 evs2 treeHash store2 buildEvs h1 h2 h3 h4
    have hconf : confEvs = [] := by
      have hs1 := (classify_spec bT cT tT (allPathsOf bT cT tT) [] false []).1
      have hs2 := (classify_spec bT cT tT (allPathsOf bT cT tT) [] false []).2
      rw [h2] at hs1 hs2
      simp only at hs1 hs2
      have hfil : (allPathsOf bT cT tT).filter (isConflict bT cT tT) = [] := by
        rcases hf : (allPathsOf bT cT tT).filter (isConflict bT cT tT) with
          _ | ⟨q, qs⟩
        · rfl
        · exfalso
          have hq : isConflict bT cT tT q = true :=
            List.of_mem_filter (p := isConflict bT cT tT)
              (l := allPathsOf bT cT tT) (a := q) (by rw [hf]; simp)
          have hqmem : q ∈ allPathsOf bT cT tT :=
            List.mem_of_mem_filter (by rw [hf]; simp)
          have hany : (allPathsOf bT cT tT).any (isConflict bT cT tT) = true :=
            List.any_eq_true.2 ⟨q, hqmem, hq⟩
          rw [hany] at hs1
          cases hs1
      rw [hfil] at hs2
      simpa using hs2
    have hrun : fileLevelMerge H fuel now author timestamp st curB tarB curH tarH
        = (CmdResult.ok,
           { st with
               store := (writeCommit H store2 treeHash [curH, tarH] author
                 timestamp ("Merge branch '" ++ tarB ++ "' into " ++ curB)).2.1
               index := sortByPath idx
               wt := (removeLoop mt cT wt2 []).1
               refs := aset st.refs (branchRef curB)
                 (writeCommit H store2 treeHash [curH, tarH] author timestamp
                   ("Merge branch '" ++ tarB ++ "' into " ++ curB)).1 },
           evs2 ++ [Ev.indexWrite] ++ (removeLoop mt cT wt2 []).2 ++ buildEvs ++
             (writeCommit H store2 treeHash [curH, tarH] author timestamp
               ("Merge branch '" ++ tarB ++ "' into " ++ curB)).2.2 ++
             [Ev.refWrite (branchRef curB)
               (writeCommit H store2 treeHash [curH, tarH] author timestamp
                 ("Merge branch '" ++ tarB ++ "' into " ++ curB)).1]) := by
      unfold fileLevelMerge
      rw [h1]
      simp only []
      rw [h2]
      simp only []
      rw [h3]
      simp only []
      rw [h4]
      rfl
    rw [hrun]
    refine ⟨rfl, evs2 ++ [Ev.indexWrite] ++ (removeLoop mt cT wt2 []).2 ++
      buildEvs ++ (writeCommit H store2 treeHash [curH, tarH] author timestamp
        ("Merge branch '" ++ tarB ++ "' into " ++ curB)).2.2,
      (writeCommit H store2 treeHash [curH, tarH] author timestamp
        ("Merge branch '" ++ tarB ++ "' into " ++ curB)).1, ?_, ?_, ?_⟩
    · simp
    · intro r h hmem
      rcases List.mem_append.1 hmem with hmem | hmem
      · rcases List.mem_append.1 hmem with hmem | hmem
        · rcases List.mem_append.1 hmem with hmem | hmem
          · rcases List.mem_append.1 hmem with hmem | hmem
            · rcases materialize_events st.store now mt _ _ _ _
                (by rw [h3]; exact hmem) with hx | hx
              · rw [hconf] at hx
                cases hx
              · obtain ⟨p, hp⟩ := hx
                cases hp
            · simp only [List.mem_singleton] at hmem
              cases hmem
          · rcases removeLoop_events mt cT wt2 [] _ hmem with hx | hx
            · cases hx
            · obtain ⟨p, hp⟩ := hx
              cases hp
        · obtain ⟨hh, hp⟩ := buildTreeFromIndex_events H fuel _ _ _ h4 _ hmem
          cases hp
      · obtain ⟨hh, hp⟩ := writeObjectEv_events H store2 "commit" _ _ hmem
        cases hp
    · exact writeObjectEv_store_some H store2 "commit" _

/-- 40 zeros: the base/target blob hash in the concrete merge examples. -/
def z40 : String := "0000000000000000000000000000000000000000"

/-- `hexEncodeStr` of twenty `0x01` bytes. -/
def o40 : String := "0101010101010101010101010101010101010101"

/-- A fixed 40-hex output for the model hash in concrete runs. -/
def dh : String := "deadbeefdeadbeefdeadbeefdeadbeefdeadbeef"

/-- Constant model hash function for concrete merge runs. -/
def flmH : String → Bytes → String := fun _ _ => dh

/-- Concrete mergeable repository: `C1` (current) changed `f`, `C2`
(target) kept the base version, so the file-level merge succeeds. -/
def flmExStore : Store := fun h =>
  if h = "C1" then some (encodeObj "commit" (strBytes "tree T1\nparent B\n\nm1"))
  else if h = "C2" then some (encodeObj "commit" (strBytes "tree T0\nparent B\n\nm2"))
  else if h = "B" then some (encodeObj "commit" (strBytes "tree T0\n\nm0"))
  else if h = "T0" then
    some (encodeObj "tree" (strBytes "100644 f" ++ 0 :: List.replicate 20 0))
  else if h = "T1" then
    some (encodeObj "tree" (strBytes "100644 f" ++ 0 :: List.replicate 20 1))
  else if h = o40 then some (encodeObj "blob" [104])
  else none

/-- State on branch `main` before the concrete file-level merge. -/
def flmExState : RepoState :=
  ⟨flmExStore, [], [("refs/heads/main", "C1"), ("refs/heads/feat", "C2")],
    "ref: refs/heads/main", []⟩

/-- Witness for the amended C4, at the concrete fast-forward and file-level
merge runs. -/
theorem merge_ref_write_safety_witness :
    ((fastForwardMerge 3 0 ffExState "main" "T").2.1.store = ffExState.store ∧
      ∀ r h, Ev.refWrite r h ∈ (fastForwardMerge 3 0 ffExState "main" "T").2.2 →
        ffExState.store h ≠ none) ∧
    ((fileLevelMerge flmH 5 0 "a" "1 +0000" flmExState "main" "feat" "C1" "C2").1
        = CmdResult.ok ∧
      ∃ pre cH,
        (fileLevelMerge flmH 5 0 "a" "1 +0000" flmExState "main" "feat"
          "C1" "C2").2.2 = pre ++ [Ev.refWrite (branchRef "main") cH] ∧
        (∀ r h, Ev.refWrite r h ∉ pre) ∧
        (fileLevelMerge flmH 5 0 "a" "1 +0000" flmExState "main" "feat"
          "C1" "C2").2.1.store cH ≠ none) :=
  ⟨merge_ref_write_safety.1 3 0 ffExState "main" "T" (by decide),
   merge_ref_write_safety.2 flmH 5 0 "a" "1 +0000" flmExState "main" "feat"
     "C1" "C2" _ _ _ _ _ _ _ _ _ _ _ rfl rfl rfl rfl⟩

/-- **C5** — merge-conflict atomicity: whenever the classification finds at
least one conflict, `fileLevelMerge` reports exactly the conflicting paths
(all of them, in iteration order), returns the merge-failed error, and
leaves the repository state completely unchanged: no ref, object, index or
working-tree write occurs (the trace holds only the conflict reports). -/
theorem merge_conflict_atomic (H : String → Bytes → String) (fuel now : Nat)
    (author timestamp : String) (st : RepoState) (curB tarB curH tarH : String)
    (bT cT tT : List (String × String))
    (htrees : flmTrees st fuel curH tarH = some (bT, cT, tT))
    (hconf : conflictPaths bT cT tT ≠ []) :
    (fileLevelMerge H fuel now author timestamp st curB tarB curH tarH).1
        = CmdResult.err "automatic merge failed; fix conflicts and then commit" ∧
    (fileLevelMerge H fuel now author timestamp st curB tarB curH tarH).2.1 = st ∧
    (fileLevelMerge H fuel now author timestamp st curB tarB curH tarH).2.2
        = (conflictPaths bT cT tT).map Ev.printConflict := by
  have hs1 := (classify_spec bT cT tT (allPathsOf bT cT tT) [] false []).1
  have hs2 := (classify_spec bT cT tT (allPathsOf bT cT tT) [] false []).2
  have hany : (allPathsOf bT cT tT).any (isConflict bT cT tT) = true := by
    rcases hf : (allPathsOf bT cT tT).filter (isConflict bT cT tT) with _ | ⟨q, qs⟩
    · exact absurd hf hconf
    · have hq : isConflict bT cT tT q = true :=
        List.of_mem_filter (p := isConflict bT cT tT)
          (l := allPathsOf bT cT tT) (a := q) (by rw [hf]; simp)
      have hqmem : q ∈ allPathsOf bT cT tT :=
        List.mem_of_mem_filter (by rw [hf]; simp)
      exact List.any_eq_true.2 ⟨q, hqmem, hq⟩
  rw [hany] at hs1
  simp only [Bool.or_true] at hs1
  have hrun : fileLevelMerge H fuel now author timestamp st curB tarB curH tarH
      = (CmdResult.err "automatic merge failed; fix conflicts and then commit",
         st, (classify bT cT tT (allPathsOf bT cT tT) [] false []).2.2) := by
    unfold fileLevelMerge
    rw [htrees]
    simp only []
    rw [if_pos hs1]
  rw [hrun]
  refine ⟨rfl, rfl, ?_⟩
  rw [hs2]
  simp [conflictPaths]

/-- `hexEncodeStr` of twenty `0x02` bytes. -/
def t40 : String := "0202020202020202020202020202020202020202"

/-- Concrete conflicting repository: both sides changed `f` differently from
the base. -/
def flmConfStore : Store := fun h =>
  if h = "C1" then some (encodeObj "commit" (strBytes "tree T1\nparent B\n\nm1"))
  else if h = "C2" then some (encodeObj "commit" (strBytes "tree T2\nparent B\n\nm2"))
  else if h = "B" then some (encodeObj "commit" (strBytes "tree T0\n\nm0"))
  else if h = "T0" then
    some (encodeObj "tree" (strBytes "100644 f" ++ 0 :: List.replicate 20 0))
  else if h = "T1" then
    some (encodeObj "tree" (strBytes "100644 f" ++ 0 :: List.replicate 20 1))
  else if h = "T2" then
    some (encodeObj "tree" (strBytes "100644 f" ++ 0 :: List.replicate 20 2))
  else none

/-- State before the conflicting merge attempt. -/
def flmConfState : RepoState :=
  ⟨flmConfStore, [], [("refs/heads/main", "C1"), ("refs/heads/feat", "C2")],
    "ref: refs/heads/main", []⟩

/-- Witness for C5 on the concrete conflicting repository. -/
theorem merge_conflict_atomic_witness :
    (fileLevelMerge flmH 5 0 "a" "1 +0000" flmConfState "main" "feat"
        "C1" "C2").1
      = CmdResult.err "automatic merge failed; fix conflicts and then commit" ∧
    (fileLevelMerge flmH 5 0 "a" "1 +0000" flmConfState "main" "feat"
        "C1" "C2").2.1 = flmConfState ∧
    (fileLevelMerge flmH 5 0 "a" "1 +0000" flmConfState "main" "feat"
        "C1" "C2").2.2
      = (conflictPaths [("f", z40)] [("f", o40)] [("f", t40)]).map
          Ev.printConflict :=
  merge_conflict_atomic flmH 5 0 "a" "1 +0000" flmConfState "main" "feat"
    "C1" "C2" [("f", z40)] [("f", o40)] [("f", t40)] (by decide) (by decide)

theorem classify_events_shape (bT cT tT : List (String × String))
    (paths : List String) (mt : List (String × String)) (conf : Bool)
    (evs : List Ev) :
    ∀ e ∈ (classify bT cT tT paths mt conf evs).2.2,
      e ∈ evs ∨ ∃ p, e = Ev.printConflict p := by
  intro e he
  rw [(classify_spec bT cT tT paths mt conf evs).2] at he
  rcases List.mem_append.1 he with h1 | h1
  · exact Or.inl h1
  · obtain ⟨p, _, hp⟩ := List.mem_map.1 h1
    exact Or.inr ⟨p, hp.symm⟩

/-- **C10** — every index entry created by checkout's working-tree update,
by the fast-forward merge, or by the three-way file-level merge has mode
`0o100644` (= 33188), and every working-tree file these commands write is
written with permission `0o644` (= 420) — for *arbitrary* object stores and
trees, so in particular the `100755` mode recorded in a committed tree is
never restored. -/
theorem checkout_merge_forces_mode :
    (∀ now st target curT tarT,
      ((updateWorkingTree now st target curT tarT).1 = CmdResult.ok →
        ∀ e ∈ (updateWorkingTree now st target curT tarT).2.1.index,
          e.mode = 33188) ∧
      (∀ p perm, Ev.wtWrite p perm ∈ (updateWorkingTree now st target curT tarT).2.2 →
        perm = 420))
  ∧ (∀ fuel now st curB tarH,
      ((fastForwardMerge fuel now st curB tarH).1 = CmdResult.ok →
        ∀ e ∈ (fastForwardMerge fuel now st curB tarH).2.1.index,
          e.mode = 33188) ∧
      (∀ p perm, Ev.wtWrite p perm ∈ (fastForwardMerge fuel now st curB tarH).2.2 →
        perm = 420))
  ∧ (∀ H fuel now author timestamp st curB tarB curH tarH,
      ((fileLevelMerge H fuel now author timestamp st curB tarB curH tarH).1
          = CmdResult.ok →
        ∀ e ∈ (fileLevelMerge H fuel now author timestamp st curB tarB
          curH tarH).2.1.index, e.mode = 33188) ∧
      (∀ p perm, Ev.wtWrite p perm ∈
          (fileLevelMerge H fuel now author timestamp st curB tarB curH tarH).2.2 →
        perm = 420)) := by
  refine ⟨?_, ?_, ?_⟩
  · intro now st target curT tarT
    simp only [updateWorkingTree]
    cases hmz : materialize st.store now tarT []
        (removeLoop tarT curT st.wt []).1 (removeLoop tarT curT st.wt []).2 with
    | mk oidx rest2 =>
      obtain ⟨wt2, evs2⟩ := rest2
      have hev : ∀ p perm, Ev.wtWrite p perm ∈ evs2 → perm = 420 := by
        intro p perm hmem
        rcases materialize_events st.store now tarT _ _ _ _
            (by rw [hmz]; exact hmem) with h1 | h1
        · rcases removeLoop_events tarT curT st.wt [] _ h1 with h2 | h2
          · cases h2
          · obtain ⟨q, hq⟩ := h2
            cases hq
        · obtain ⟨q, hq⟩ := h1
          injection hq
      cases oidx with
      | none =>
        simp only []
        refine ⟨(fun hok => nomatch hok), ?_⟩
        intro p perm hmem
        exact hev p perm hmem
      | some idx =>
        simp only []
        refine ⟨?_, ?_⟩
        · intro _ e he
          rcases materialize_idx st.store now tarT _ _ _ _
              (by rw [hmz]) e (mem_sortByPath.1 he) with h1 | h1
          · cases h1
          · exact h1
        · intro p perm hmem
          rcases List.mem_append.1 hmem with h1 | h1
          · exact hev p perm h1
          · simp only [List.mem_cons, List.not_mem_nil, or_false] at h1
            rcases h1 with h1 | h1 <;> cases h1
  · intro fuel now st curB tarH
    simp only [fastForwardMerge]
    cases hrc : readCommit st.store tarH with
    | none =>
      simp only []
      refine ⟨(fun hok => nomatch hok), ?_⟩
      intro p perm hmem
      simp only [List.mem_singleton] at hmem
      cases hmem
    | some tc =>
      simp only []
      cases hft : flattenTree st.store fuel tc.treeHash "" with
      | none =>
        simp only []
        refine ⟨(fun hok => nomatch hok), ?_⟩
        intro p perm hmem
        simp only [List.mem_singleton] at hmem
        cases hmem
      | some targetTree =>
        simp only []
        cases hmz : materialize st.store now targetTree [] st.wt
            [Ev.refWrite (branchRef curB) tarH] with
        | mk oidx rest2 =>
          obtain ⟨wt2, evs2⟩ := rest2
          have hev : ∀ p perm, Ev.wtWrite p perm ∈ evs2 → perm = 420 := by
            intro p perm hmem
            rcases materialize_events st.store now targetTree _ _ _ _
                (by rw [hmz]; exact hmem) with h1 | h1
            · simp only [List.mem_singleton] at h1
              cases h1
            · obtain ⟨q, hq⟩ := h1
              injection hq
          cases oidx with
          | none =>
            simp only []
            exact ⟨(fun hok => nomatch hok), fun p perm hmem => hev p perm hmem⟩
          | some idx =>
            simp only []
            refine ⟨?_, ?_⟩
            · intro _ e he
              rcases materialize_idx st.store now targetTree _ _ _ _
                  (by rw [hmz]) e (mem_sortByPath.1 he) with h1 | h1
              · cases h1
              · exact h1
            · intro p perm hmem
              rcases List.mem_append.1 hmem with h1 | h1
              · exact hev p perm h1
              · simp only [List.mem_singleton] at h1
                cases h1
  · intro H fuel now author timestamp st curB tarB curH tarH
    simp only [fileLevelMerge]
    cases htr : flmTrees st fuel curH tarH with
    | none =>
      simp only []
      refine ⟨(fun hok => nomatch hok), ?_⟩
      intro p perm hmem
      cases hmem
    | some trees =>
      obtain ⟨bT, cT, tT⟩ := trees
      simp only []
      have hconfshape : ∀ p perm, Ev.wtWrite p perm ∈
          (classify bT cT tT (allPathsOf bT cT tT) [] false []).2.2 → False := by
        intro p perm hmem
        rcases classify_events_shape bT cT tT _ _ _ _ _ hmem with h1 | h1
        · cases h1
        · obtain ⟨q, hq⟩ := h1
          cases hq
      by_cases hcf : (classify bT cT tT (allPathsOf bT cT tT) [] false []).2.1 = true
      · rw [if_pos hcf]
        refine ⟨(fun hok => nomatch hok), ?_⟩
        intro p perm hmem
        exact absurd hmem (fun hm => hconfshape p perm hm)
      · rw [if_neg hcf]
        cases hmz : materialize st.store now
            (classify bT cT tT (allPathsOf bT cT tT) [] false []).1 [] st.wt
            (classify bT cT tT (allPathsOf bT cT tT) [] false []).2.2 with
        | mk oidx rest2 =>
          obtain ⟨wt2, evs2⟩ := rest2
          have hev : ∀ p perm, Ev.wtWrite p perm ∈ evs2 → perm = 420 := by
            intro p perm hmem
            rcases materialize_events st.store now _ _ _ _ _
                (by rw [hmz]; exact hmem) with h1 | h1
            · exact absurd h1 (fun hm => hconfshape p perm hm)
            · obtain ⟨q, hq⟩ := h1
              injection hq
          cases oidx with
          | none =>
            simp only []
            exact ⟨(fun hok => nomatch hok), fun p perm hmem => hev p perm hmem⟩
          | some idx =>
            simp only []
            have hidx : ∀ e ∈ sortByPath idx, e.mode = 33188 := by
              intro e he
              rcases materialize_idx st.store now _ _ _ _ _
                  (by rw [hmz]) e (mem_sortByPath.1 he) with h1 | h1
              · cases h1
              · exact h1
            have hev4 : ∀ p perm, Ev.wtWrite p perm ∈
                evs2 ++ [Ev.indexWrite] ++
                  (removeLoop (classify bT cT tT (allPathsOf bT cT tT) [] false []).1
                    cT wt2 []).2 → perm = 420 := by
              intro p perm hmem
              rcases List.mem_append.1 hmem with h1 | h1
              · rcases List.mem_append.1 h1 with h2 | h2
                · exact hev p perm h2
                · simp only [List.mem_singleton] at h2
                  cases h2
              · rcases removeLoop_events _ _ _ _ _ h1 with h2 | h2
                · cases h2
                · obtain ⟨q, hq⟩ := h2
                  cases hq
            cases hbt : buildTreeFromIndex H fuel st.store (sortByPath idx) with
            | none =>
              simp only []
              refine ⟨(fun hok => nomatch hok), ?_⟩
              intro p perm hmem
              exact hev4 p perm hmem
            | some rbt =>
              obtain ⟨treeHash, store2, buildEvs⟩ := rbt
              simp only []
              refine ⟨fun _ e he => hidx e he, ?_⟩
              intro p perm hmem
              rcases List.mem_append.1 hmem with h1 | h1
              · rcases List.mem_append.1 h1 with h2 | h2
                · rcases List.mem_append.1 h2 with h3 | h3
                  · exact hev4 p perm h3
                  · obtain ⟨hh, hp⟩ := buildTreeFromIndex_events H fuel _ _ _ hbt _ h3
                    cases hp
                · obtain ⟨hh, hp⟩ := writeObjectEv_events H store2 "commit" _ _ h2
                  cases hp
              · simp only [List.mem_singleton] at h1
                cases h1

/-- A one-blob store for the C10 witness run. -/
def wtExStore : Store := fun h =>
  if h = "BL" then some (encodeObj "blob" [104]) else none

/-- Witness for C10: a concrete checkout-style run writing one file. -/
theorem checkout_merge_forces_mode_witness :
    (updateWorkingTree 7 ⟨wtExStore, [], [], "", []⟩ "b" [] [("f", "BL")]).1
        = CmdResult.ok ∧
    (∀ e ∈ (updateWorkingTree 7 ⟨wtExStore, [], [], "", []⟩ "b" []
        [("f", "BL")]).2.1.index, e.mode = 33188) ∧
    (∀ p perm, Ev.wtWrite p perm ∈ (updateWorkingTree 7 ⟨wtExStore, [], [], "", []⟩
        "b" [] [("f", "BL")]).2.2 → perm = 420) :=
  ⟨by decide,
   (checkout_merge_forces_mode.1 7 ⟨wtExStore, [], [], "", []⟩ "b" []
     [("f", "BL")]).1 (by decide),
   fun p perm hmem =>
     (checkout_merge_forces_mode.1 7 ⟨wtExStore, [], [], "", []⟩ "b" []
       [("f", "BL")]).2 p perm hmem⟩

/-! ## Tree round-trip (src/object/blob.go: BuildTreeFromIndex, FlattenTree)

Infrastructure for the round-trip between `BuildTreeFromIndex` and
`FlattenTree`: association-list lemmas for the Go-map model `mset`,
path split/join lemmas, the tree-payload codec round-trip, a
wellformedness invariant `DirOK` for the directory trie, and the main
write-then-flatten simulation.
-/

theorem string_data_inj {s t : String} (h : s.data = t.data) : s = t := by
  cases s
  cases t
  cases h
  rfl

theorem string_append_data (s t : String) : (s ++ t).data = s.data ++ t.data := rfl

theorem data_mk (l : List Char) : (String.mk l).data = l := rfl

theorem lookup_cons_eq {β : Type} (k : String) (v : β) (t : List (String × β))
    (q : String) :
    ((k, v) :: t).lookup q = if q = k then some v else t.lookup q := by
  by_cases h : q = k
  · have hb : (q == k) = true := beq_iff_eq.mpr h
    simp [List.lookup, hb, h]
  · have hb : (q == k) = false := beq_eq_false_iff_ne.mpr h
    simp [List.lookup, hb, h]

theorem lookup_none_iff {β : Type} (m : List (String × β)) (q : String) :
    m.lookup q = none ↔ q ∉ m.map Prod.fst := by
  induction m with
  | nil => simp
  | cons p t ih =>
    rw [(by rfl : p = (p.1, p.2)), lookup_cons_eq]
    by_cases h : q = p.1
    · simp [h]
    · simp [h, ih]

theorem lookup_append_left_none {β : Type} (m1 m2 : List (String × β)) (q : String)
    (h : m1.lookup q = none) : (m1 ++ m2).lookup q = m2.lookup q := by
  induction m1 with
  | nil => rfl
  | cons p t ih =>
    rw [(by rfl : p = (p.1, p.2))] at h ⊢
    rw [lookup_cons_eq] at h
    rw [List.cons_append, lookup_cons_eq]
    by_cases hq : q = p.1
    · rw [if_pos hq] at h
      cases h
    · rw [if_neg hq] at h ⊢
      exact ih h

theorem lookup_replaceAll_hit (k v : String) :
    ∀ m : List (String × String),
      (m.map (fun p => if p.1 = k then (k, v) else p)).lookup k
        = (m.lookup k).map (fun _ => v) := by
  intro m
  induction m with
  | nil => rfl
  | cons p t ih =>
    obtain ⟨pk, pv⟩ := p
    simp only [List.map_cons]
    by_cases hp : pk = k
    · rw [if_pos hp, lookup_cons_eq, lookup_cons_eq, if_pos rfl,
        if_pos (hp.symm)]
      rfl
    · rw [if_neg hp, lookup_cons_eq, lookup_cons_eq,
        if_neg (fun hx => hp hx.symm), if_neg (fun hx => hp hx.symm), ih]

theorem lookup_replaceAll_miss (k v q : String) (hq : q ≠ k) :
    ∀ m : List (String × String),
      (m.map (fun p => if p.1 = k then (k, v) else p)).lookup q = m.lookup q := by
  intro m
  induction m with
  | nil => rfl
  | cons p t ih =>
    obtain ⟨pk, pv⟩ := p
    simp only [List.map_cons]
    by_cases hp : pk = k
    · rw [if_pos hp, lookup_cons_eq, lookup_cons_eq, if_neg hq,
        if_neg (fun hx => hq (hx.trans hp)), ih]
    · rw [if_neg hp, lookup_cons_eq, lookup_cons_eq]
      by_cases hqp : q = pk
      · rw [if_pos hqp, if_pos hqp]
      · rw [if_neg hqp, if_neg hqp, ih]

theorem lookup_replaceAll (k v : String) (m : List (String × String)) (q : String) :
    (m.map (fun p => if p.1 = k then (k, v) else p)).lookup q
      = if q = k then ((m.lookup k).map (fun _ => v)) else m.lookup q := by
  by_cases hq : q = k
  · rw [if_pos hq, hq, lookup_replaceAll_hit]
  · rw [if_neg hq, lookup_replaceAll_miss k v q hq]

theorem lookup_append_single (m : List (String × String)) (k v q : String) :
    (m ++ [(k, v)]).lookup q
      = (m.lookup q).orElse (fun _ => if q = k then some v else none) := by
  induction m with
  | nil =>
    simp only [List.nil_append, lookup_cons_eq]
    by_cases hq : q = k
    · rw [if_pos hq, if_pos hq]
      rfl
    · rw [if_neg hq, if_neg hq]
      rfl
  | cons p t ih =>
    rw [(by rfl : p = (p.1, p.2)), List.cons_append, lookup_cons_eq, lookup_cons_eq]
    by_cases hq : q = p.1
    · rw [if_pos hq, if_pos hq]
      rfl
    · rw [if_neg hq, if_neg hq, ih]

theorem mset_lookup (m : List (String × String)) (k v q : String) :
    (mset m k v).lookup q = if q = k then some v else m.lookup q := by
  unfold mset
  by_cases hs : (m.lookup k).isSome
  · rw [if_pos hs, lookup_replaceAll]
    obtain ⟨b, hb⟩ := Option.isSome_iff_exists.1 hs
    by_cases hq : q = k
    · rw [if_pos hq, if_pos hq, hb]
      rfl
    · rw [if_neg hq, if_neg hq]
  · rw [if_neg hs, lookup_append_single]
    have hnone : m.lookup k = none := by
      cases h : m.lookup k
      · rfl
      · rw [h] at hs
        simp at hs
    by_cases hq : q = k
    · rw [if_pos hq, if_pos hq, hq, hnone]
      rfl
    · rw [if_neg hq, if_neg hq]
      cases hmq : m.lookup q
      · rfl
      · rfl

theorem mset_keys_of_none (m : List (String × String)) (k v : String)
    (h : m.lookup k = none) :
    (mset m k v).map Prod.fst = m.map Prod.fst ++ [k] := by
  unfold mset
  rw [if_neg (by rw [h]; simp)]
  simp

/-- The merge fold in `FlattenTree` over an association list with distinct
keys: lookups see the sub-map first, the accumulator second. -/
theorem foldl_mset_lookup :
    ∀ (sub : List (String × String)) (m : List (String × String)),
      (sub.map Prod.fst).Nodup →
      ∀ q, (sub.foldl (fun m2 kv => mset m2 kv.1 kv.2) m).lookup q
        = (sub.lookup q).orElse (fun _ => m.lookup q) := by
  intro sub
  induction sub with
  | nil => intro m _ q; rfl
  | cons kv rest ih =>
    intro m hnd q
    simp only [List.map_cons, List.nodup_cons] at hnd
    simp only [List.foldl_cons]
    rw [ih _ hnd.2 q, (by rfl : kv = (kv.1, kv.2)), lookup_cons_eq]
    by_cases hq : q = kv.1
    · have hrest : rest.lookup q = none := by
        rw [hq]
        exact (lookup_none_iff rest kv.1).mpr hnd.1
      rw [hrest, if_pos hq, mset_lookup, if_pos hq]
      rfl
    · rw [if_neg hq, mset_lookup, if_neg hq]

theorem foldl_mset_nodup :
    ∀ (sub : List (String × String)) (m : List (String × String)),
      (m.map Prod.fst).Nodup → (sub.map Prod.fst).Nodup →
      (∀ q v, sub.lookup q = some v → m.lookup q = none) →
      ((sub.foldl (fun m2 kv => mset m2 kv.1 kv.2) m).map Prod.fst).Nodup := by
  intro sub
  induction sub with
  | nil => intro m hm _ _; exact hm
  | cons kv rest ih =>
    intro m hm hnd hdisj
    simp only [List.map_cons, List.nodup_cons] at hnd
    have hmk : m.lookup kv.1 = none := by
      apply hdisj kv.1 kv.2
      rw [(by rfl : kv = (kv.1, kv.2)), lookup_cons_eq, if_pos rfl]
    simp only [List.foldl_cons]
    apply ih
    · rw [mset_keys_of_none _ _ _ hmk]
      apply List.Nodup.append hm (by simp)
      intro a ha hb
      simp only [List.mem_singleton] at hb
      exact ((lookup_none_iff m kv.1).mp hmk) (hb ▸ ha)
    · exact hnd.2
    · intro q v hv
      have hqne : q ≠ kv.1 := by
        intro hq
        rw [hq, (lookup_none_iff rest kv.1).mpr hnd.1] at hv
        cases hv
      rw [mset_lookup, if_neg hqne]
      apply hdisj q v
      rw [(by rfl : kv = (kv.1, kv.2)), lookup_cons_eq, if_neg hqne]
      exact hv

theorem append_sep_inj {α : Type} (sep : α) :
    ∀ (a1 a2 b1 b2 : List α), sep ∉ a1 → sep ∉ a2 →
      a1 ++ sep :: b1 = a2 ++ sep :: b2 → a1 = a2 ∧ b1 = b2 := by
  intro a1
  induction a1 with
  | nil =>
    intro a2 b1 b2 _ h2 heq
    cases a2 with
    | nil =>
      simp only [List.nil_append, List.cons.injEq] at heq
      exact ⟨rfl, heq.2⟩
    | cons x t =>
      simp only [List.nil_append, List.cons_append, List.cons.injEq] at heq
      refine absurd ?_ h2
      rw [heq.1]
      exact List.mem_cons_self x t
  | cons x t ih =>
    intro a2 b1 b2 h1 h2 heq
    cases a2 with
    | nil =>
      simp only [List.cons_append, List.nil_append, List.cons.injEq] at heq
      refine absurd ?_ h1
      rw [← heq.1]
      exact List.mem_cons_self x t
    | cons y u =>
      simp only [List.cons_append, List.cons.injEq] at heq
      obtain ⟨hxy, hrest⟩ := heq
      have := ih u b1 b2 (fun hm => h1 (List.mem_cons_of_mem x hm))
        (fun hm => h2 (hxy ▸ List.mem_cons_of_mem y hm)) hrest
      exact ⟨by rw [hxy, this.1], this.2⟩

theorem splitChar_ne_nil (sep : Char) : ∀ l : List Char, splitChar sep l ≠ [] := by
  intro l
  induction l with
  | nil => simp [splitChar]
  | cons c rest ih =>
    unfold splitChar
    by_cases h : c = sep
    · rw [if_pos h]
      simp
    · rw [if_neg h]
      cases hsp : splitChar sep rest with
      | nil => simp
      | cons a as => simp

theorem splitChar_no_sep (sep : Char) :
    ∀ l : List Char, ∀ part ∈ splitChar sep l, sep ∉ part := by
  intro l
  induction l with
  | nil =>
    intro part hp
    simp only [splitChar, List.mem_singleton] at hp
    subst hp
    simp
  | cons c rest ih =>
    intro part hp
    unfold splitChar at hp
    by_cases h : c = sep
    · rw [if_pos h] at hp
      rcases List.mem_cons.1 hp with h1 | h1
      · subst h1; simp
      · exact ih part h1
    · rw [if_neg h] at hp
      cases hsp : splitChar sep rest with
      | nil => exact absurd hsp (splitChar_ne_nil sep rest)
      | cons a as =>
        rw [hsp] at hp
        rcases List.mem_cons.1 hp with h1 | h1
        · subst h1
          intro hmem
          rcases List.mem_cons.1 hmem with h2 | h2
          · exact h h2.symm
          · exact ih a (by rw [hsp]; exact List.mem_cons_self a as) h2
        · exact ih part (by rw [hsp]; exact List.mem_cons_of_mem a h1)

theorem splitSlash_ne_nil (s : String) : splitSlash s ≠ [] := by
  unfold splitSlash
  intro h
  exact splitChar_ne_nil '/' s.data (List.map_eq_nil_iff.mp h)

theorem splitSlash_no_slash (s : String) :
    ∀ p ∈ splitSlash s, ∀ c ∈ p.data, c ≠ '/' := by
  intro p hp c hc
  unfold splitSlash at hp
  obtain ⟨l, hl, hpl⟩ := List.mem_map.1 hp
  intro hcs
  subst hpl
  exact splitChar_no_sep '/' s.data l hl (hcs ▸ hc)

theorem joinSlash_cons_cons (k q : String) (rest : List String) :
    joinSlash (k :: q :: rest) = k ++ "/" ++ joinSlash (q :: rest) := rfl

theorem joinSlash_splitChar :
    ∀ l : List Char, joinSlash ((splitChar '/' l).map (fun x => ⟨x⟩)) = ⟨l⟩ := by
  intro l
  induction l with
  | nil => rfl
  | cons c rest ih =>
    unfold splitChar
    by_cases h : c = '/'
    · rw [if_pos h]
      cases hsp : splitChar '/' rest with
      | nil => exact absurd hsp (splitChar_ne_nil '/' rest)
      | cons a as =>
        rw [hsp] at ih
        simp only [List.map_cons] at ih ⊢
        rw [joinSlash_cons_cons, ih]
        apply string_data_inj
        simp only [string_append_data, data_mk]
        rw [h]
        rfl
    · rw [if_neg h]
      cases hsp : splitChar '/' rest with
      | nil => exact absurd hsp (splitChar_ne_nil '/' rest)
      | cons a as =>
        rw [hsp] at ih
        simp only [] at ih ⊢
        simp only [List.map_cons] at ih ⊢
        cases as with
        | nil =>
          simp only [List.map_nil] at ih ⊢
          have ha : (⟨a⟩ : String) = ⟨rest⟩ := ih
          have had : a = rest := congrArg String.data ha
          show (⟨c :: a⟩ : String) = ⟨c :: rest⟩
          rw [had]
        | cons m ms =>
          simp only [List.map_cons] at ih ⊢
          rw [joinSlash_cons_cons] at ih ⊢
          have hd := congrArg String.data ih
          simp only [string_append_data, data_mk] at hd
          apply string_data_inj
          simp only [string_append_data, data_mk]
          rw [List.cons_append, List.cons_append, hd]

theorem joinSlash_splitSlash (s : String) : joinSlash (splitSlash s) = s := by
  unfold splitSlash
  cases s with
  | mk data => exact joinSlash_splitChar data

theorem splitSlash_inj {a b : String} (h : splitSlash a = splitSlash b) : a = b := by
  rw [← joinSlash_splitSlash a, ← joinSlash_splitSlash b, h]

theorem joinSlash_head_inj (k1 k2 : String) (r1 r2 : List String)
    (h1 : ∀ c ∈ k1.data, c ≠ '/') (h2 : ∀ c ∈ k2.data, c ≠ '/')
    (heq : joinSlash (k1 :: r1) = joinSlash (k2 :: r2)) :
    k1 = k2 ∧ joinSlash r1 = joinSlash r2 := by
  cases r1 with
  | nil =>
    cases r2 with
    | nil => exact ⟨heq, rfl⟩
    | cons q2 t2 =>
      rw [joinSlash_cons_cons] at heq
      have hd := congrArg String.data heq
      simp only [string_append_data] at hd
      have hj : joinSlash [k1] = k1 := rfl
      rw [hj] at hd
      exfalso
      refine h1 '/' ?_ rfl
      rw [hd]
      exact List.mem_append.2 (Or.inl (List.mem_append.2 (Or.inr (by decide))))
  | cons q1 t1 =>
    cases r2 with
    | nil =>
      rw [joinSlash_cons_cons] at heq
      have hd := congrArg String.data heq
      simp only [string_append_data] at hd
      have hj : joinSlash [k2] = k2 := rfl
      rw [hj] at hd
      exfalso
      refine h2 '/' ?_ rfl
      rw [← hd]
      exact List.mem_append.2 (Or.inl (List.mem_append.2 (Or.inr (by decide))))
    | cons q2 t2 =>
      rw [joinSlash_cons_cons, joinSlash_cons_cons] at heq
      have hd := congrArg String.data heq
      simp only [string_append_data] at hd
      rw [List.append_assoc, List.append_assoc, List.singleton_append,
        List.singleton_append] at hd
      have := append_sep_inj '/' k1.data k2.data _ _
        (fun hm => h1 '/' hm rfl) (fun hm => h2 '/' hm rfl) hd
      exact ⟨string_data_inj this.1, string_data_inj this.2⟩

/-- Join a relative component path onto the path accumulated so far, exactly
as `FlattenTree` extends its `prefix` argument. -/
def pjoin (pfx : String) (parts : List String) : String :=
  if pfx = "" then joinSlash parts else pfx ++ "/" ++ joinSlash parts

/-- A usable path component: nonempty, not one of the special components
`.` and `..` (which `path.Clean` would rewrite away), and printable ASCII
without NUL or `/`.  On paths made of such components `path.Join` is plain
slash concatenation, so the modelled join below coincides with Go's. -/
def cleanComp (k : String) : Prop :=
  (k ≠ "" ∧ k ≠ "." ∧ k ≠ "..") ∧
    ∀ c ∈ k.data, 0 < c.toNat ∧ c.toNat < 128 ∧ c ≠ '/'

/-- The two file modes the claim quantifies over, in `fmt.Sprintf("%o")`
form. -/
def LeafMode (md : String) : Prop := md = "100644" ∨ md = "100755"

/-- A 40-character lower-case hex string (the normal form produced by
`hex.EncodeToString` on a 20-byte hash). -/
def IsHex40 (s : String) : Prop :=
  ∃ bs, bs.length = 20 ∧ (∀ b ∈ bs, b < 256) ∧ s = hexEncodeStr bs

theorem cleanComp_ne_empty {k : String} (h : cleanComp k) : k.data ≠ [] := by
  intro hd
  exact h.1.1 (string_data_inj hd)

theorem pjoin_single (pfx k : String) :
    pjoin pfx [k] = if pfx = "" then k else pfx ++ "/" ++ k := rfl

theorem pjoin_ne_empty (pfx : String) (k : String) (rest : List String)
    (hk : cleanComp k) : pjoin pfx (k :: rest) ≠ "" := by
  intro h
  have hd := congrArg String.data h
  unfold pjoin at hd
  by_cases hp : pfx = ""
  · rw [if_pos hp] at hd
    cases rest with
    | nil => exact cleanComp_ne_empty hk hd
    | cons q t =>
      rw [joinSlash_cons_cons] at hd
      simp only [string_append_data] at hd
      rcases List.append_eq_nil.1 hd with ⟨h1, _⟩
      rcases List.append_eq_nil.1 h1 with ⟨h2, _⟩
      exact cleanComp_ne_empty hk h2
  · rw [if_neg hp] at hd
    simp only [string_append_data] at hd
    rcases List.append_eq_nil.1 hd with ⟨h1, _⟩
    rcases List.append_eq_nil.1 h1 with ⟨h2, _⟩
    exact hp (string_data_inj h2)

theorem pjoin_cons (pfx k : String) (parts : List String)
    (hk : cleanComp k) (hparts : parts ≠ []) :
    pjoin (pjoin pfx [k]) parts = pjoin pfx (k :: parts) := by
  cases parts with
  | nil => exact absurd rfl hparts
  | cons q rest =>
    unfold pjoin
    by_cases hp : pfx = ""
    · rw [if_pos hp]
      have hj : joinSlash [k] = k := rfl
      rw [hj, if_neg hk.1.1, joinSlash_cons_cons, if_pos hp]
    · rw [if_neg hp]
      have hj : joinSlash [k] = k := rfl
      rw [hj]
      have hne : pfx ++ "/" ++ k ≠ "" := by
        intro h
        have hd := congrArg String.data h
        simp only [string_append_data] at hd
        rcases List.append_eq_nil.1 hd with ⟨h1, _⟩
        rcases List.append_eq_nil.1 h1 with ⟨h2, _⟩
        exact hp (string_data_inj h2)
      rw [if_neg hne, if_neg hp, joinSlash_cons_cons]
      apply string_data_inj
      simp only [string_append_data]
      simp only [List.append_assoc]

theorem pjoin_head_inj (pfx : String) {k1 k2 : String} (r1 r2 : List String)
    (h1 : ∀ c ∈ k1.data, c ≠ '/') (h2 : ∀ c ∈ k2.data, c ≠ '/')
    (heq : pjoin pfx (k1 :: r1) = pjoin pfx (k2 :: r2)) :
    k1 = k2 ∧ joinSlash r1 = joinSlash r2 := by
  unfold pjoin at heq
  by_cases hp : pfx = ""
  · rw [if_pos hp, if_pos hp] at heq
    exact joinSlash_head_inj k1 k2 r1 r2 h1 h2 heq
  · rw [if_neg hp, if_neg hp] at heq
    have hd := congrArg String.data heq
    simp only [string_append_data] at hd
    rw [List.append_assoc, List.append_assoc] at hd
    have hdd := List.append_cancel_left hd
    have hjj := List.append_cancel_left hdd
    exact joinSlash_head_inj k1 k2 r1 r2 h1 h2 (string_data_inj hjj)

/-- Byte-level wellformedness of a tree entry needed for the serialize/parse
round-trip: a nonempty mode without NUL or space bytes, a name without NUL
bytes, and a hex-normal hash. -/
def TEntryWF (e : TreeEntry) : Prop :=
  strBytes e.mode ≠ [] ∧ (∀ b ∈ strBytes e.mode, b ≠ 0 ∧ b ≠ 32) ∧
    (∀ b ∈ strBytes e.name, b ≠ 0) ∧ IsHex40 e.hash

theorem hexDecodeStr_of_hex40 {s : String} (h : IsHex40 s) :
    ∃ hb, hexDecodeStr s = (hb, true) ∧ hb.length = 20 ∧ hexEncodeStr hb = s := by
  obtain ⟨bs, hlen, hlt, hs⟩ := h
  refine ⟨bs, ?_, hlen, hs.symm⟩
  rw [hs]
  exact hexDecodeStr_encode bs hlt

theorem insertTreeEntry_perm (e : TreeEntry) :
    ∀ l : List TreeEntry, (insertTreeEntry e l).Perm (e :: l) := by
  intro l
  induction l with
  | nil => exact List.Perm.refl _
  | cons f fs ih =>
    unfold insertTreeEntry
    by_cases h : strLt (treeKey f) (treeKey e)
    · rw [if_pos h]
      exact (List.Perm.cons f ih).trans (List.Perm.swap e f fs)
    · rw [if_neg h]

theorem sortTreeEntries_perm (l : List TreeEntry) :
    (sortTreeEntries l).Perm l := by
  unfold sortTreeEntries
  induction l with
  | nil => exact List.Perm.refl _
  | cons e rest ih =>
    simp only [List.foldr_cons]
    exact (insertTreeEntry_perm e _).trans (List.Perm.cons e ih)

theorem encodeTree_some :
    ∀ es : List TreeEntry, (∀ e ∈ es, IsHex40 e.hash) →
      ∃ bs, encodeTree es = some bs := by
  intro es
  induction es with
  | nil => intro _; exact ⟨[], rfl⟩
  | cons e rest ih =>
    intro h
    obtain ⟨hb, hdec, _, _⟩ := hexDecodeStr_of_hex40 (h e (by simp))
    obtain ⟨tail, htail⟩ := ih (fun f hf => h f (by simp [hf]))
    refine ⟨strBytes e.mode ++ 32 :: (strBytes e.name ++ 0 :: (hb ++ tail)), ?_⟩
    unfold encodeTree
    rw [hdec, htail]

theorem encodeTree_length :
    ∀ es bs, encodeTree es = some bs → es.length ≤ bs.length := by
  intro es
  induction es with
  | nil => intro bs h; simp
  | cons e rest ih =>
    intro bs h
    unfold encodeTree at h
    cases hdec : hexDecodeStr e.hash with
    | mk hb ok =>
      rw [hdec] at h
      cases ok with
      | false => simp at h
      | true =>
        simp only [] at h
        cases htail : encodeTree rest with
        | none => rw [htail] at h; cases h
        | some tail =>
          rw [htail] at h
          simp only [Option.some.injEq] at h
          subst h
          have := ih tail htail
          simp only [List.length_append, List.length_cons, List.length_nil]
          omega

theorem parseTreeF_succ_ne_nil (fuel : Nat) (data : Bytes) (hne : data ≠ []) :
    parseTreeF (fuel + 1) data =
      (if (data.takeWhile (fun b => b ≠ 0)).length = data.length then none
       else if ((data.takeWhile (fun b => b ≠ 0)).takeWhile (fun b => b ≠ 32)).length
           = (data.takeWhile (fun b => b ≠ 0)).length then none
       else if data.length < (data.takeWhile (fun b => b ≠ 0)).length + 21 then none
       else
         match parseTreeF fuel
           (data.drop ((data.takeWhile (fun b => b ≠ 0)).length + 21)) with
         | none => none
         | some rest =>
           some ({ mode := bytesToStr
                     ((data.takeWhile (fun b => b ≠ 0)).takeWhile (fun b => b ≠ 32)),
                   name := bytesToStr
                     ((data.takeWhile (fun b => b ≠ 0)).drop
                       (((data.takeWhile (fun b => b ≠ 0)).takeWhile
                         (fun b => b ≠ 32)).length + 1)),
                   hash := hexEncodeStr
                     ((data.drop ((data.takeWhile (fun b => b ≠ 0)).length + 1)).take 20)
                 } :: rest)) := by
  cases data with
  | nil => exact absurd rfl hne
  | cons b bs => rfl

theorem parseTreeF_encode :
    ∀ (es : List TreeEntry), (∀ e ∈ es, TEntryWF e) →
      ∀ bs, encodeTree es = some bs →
        ∀ fuel, es.length ≤ fuel → parseTreeF fuel bs = some es := by
  intro es
  induction es with
  | nil =>
    intro _ bs h fuel _
    simp only [encodeTree, Option.some.injEq] at h
    subst h
    cases fuel <;> rfl
  | cons e rest ih =>
    intro hwf bs h fuel hfuel
    have hewf := hwf e (by simp)
    obtain ⟨hmne, hmb, hnb, hhex⟩ := hewf
    obtain ⟨hb, hdec, hblen, henc⟩ := hexDecodeStr_of_hex40 hhex
    unfold encodeTree at h
    rw [hdec] at h
    simp only [] at h
    cases htail : encodeTree rest with
    | none => rw [htail] at h; cases h
    | some tail =>
      rw [htail] at h
      simp only [Option.some.injEq] at h
      subst h
      cases fuel with
      | zero => simp at hfuel
      | succ fuel' =>
        have hpre : (strBytes e.mode ++ 32 :: (strBytes e.name ++ 0 :: (hb ++ tail))).takeWhile
            (fun b => b ≠ 0)
            = strBytes e.mode ++ 32 :: strBytes e.name := by
          rw [takeWhile_append_of_all (fun b hbm => by
            simp [(hmb b hbm).1])]
          rw [List.takeWhile_cons_of_pos (by simp)]
          rw [takeWhile_append_of_all (fun b hbn => by
            simp [hnb b hbn])]
          rw [List.takeWhile_cons_of_neg (by simp)]
          simp
        have hmode : (strBytes e.mode ++ 32 :: strBytes e.name).takeWhile
            (fun b => b ≠ 32) = strBytes e.mode := by
          rw [takeWhile_append_of_all (fun b hbm => by
            simp [(hmb b hbm).2])]
          rw [List.takeWhile_cons_of_neg (by simp)]
          simp
        show parseTreeF (fuel' + 1)
          (strBytes e.mode ++ 32 :: (strBytes e.name ++ 0 :: (hb ++ tail))) = _
        rw [parseTreeF_succ_ne_nil _ _ (by simp)]
        rw [hpre, hmode]
        rw [if_neg (by
          simp only [List.length_append, List.length_cons, List.length_nil]
          omega)]
        rw [if_neg (by
          simp only [List.length_append, List.length_cons, List.length_nil]
          omega)]
        rw [if_neg (by
          simp only [List.length_append, List.length_cons, List.length_nil]
          omega)]
        have hdrop : (strBytes e.mode ++ 32 :: (strBytes e.name ++ 0 :: (hb ++ tail))).drop
            ((strBytes e.mode ++ 32 :: strBytes e.name).length + 21) = tail := by
          have hsplit : strBytes e.mode ++ 32 :: (strBytes e.name ++ 0 :: (hb ++ tail))
              = (strBytes e.mode ++ 32 :: strBytes e.name ++ 0 :: hb) ++ tail := by
            simp
          rw [hsplit, List.drop_left']
          simp only [List.length_append, List.length_cons, List.length_nil]
          omega
        rw [hdrop, ih (fun f hf => hwf f (by simp [hf])) tail htail fuel'
          (by simp only [List.length_cons] at hfuel; omega)]
        simp only [Option.some.injEq]
        have hname : (strBytes e.mode ++ 32 :: strBytes e.name).drop
            ((strBytes e.mode).length + 1) = strBytes e.name := by
          have hsplit : strBytes e.mode ++ 32 :: strBytes e.name
              = (strBytes e.mode ++ [32]) ++ strBytes e.name := by
            simp
          rw [hsplit, List.drop_left']
          simp
        have hhash : ((strBytes e.mode ++ 32 :: (strBytes e.name ++ 0 :: (hb ++ tail))).drop
            ((strBytes e.mode ++ 32 :: strBytes e.name).length + 1)).take 20 = hb := by
          have hsplit : strBytes e.mode ++ 32 :: (strBytes e.name ++ 0 :: (hb ++ tail))
              = (strBytes e.mode ++ 32 :: strBytes e.name ++ [0]) ++ (hb ++ tail) := by
            simp
          rw [hsplit, List.drop_left']
          · rw [List.take_left']
            exact hblen
          · simp only [List.length_append, List.length_cons, List.length_nil]
        rw [hname, hhash]
        cases e with
        | mk emode ename ehash =>
          simp only [] at henc ⊢
          congr 1
          rw [bytesToStr_strBytes, bytesToStr_strBytes, henc]

theorem parseTree_encode (es : List TreeEntry) (hwf : ∀ e ∈ es, TEntryWF e)
    (bs : Bytes) (henc : encodeTree es = some bs) : parseTree bs = some es :=
  parseTreeF_encode es hwf bs henc bs.length (encodeTree_length es bs henc)

theorem childGet_mem : ∀ (es : List (String × Dir)) (k : String) (c : Dir),
    childGet es k = some c → (k, c) ∈ es := by
  intro es
  induction es with
  | nil => intro k c h; cases h
  | cons kv rest ih =>
    intro k c h
    rw [(by rfl : kv = (kv.1, kv.2))] at h ⊢
    unfold childGet at h
    by_cases hk : kv.1 = k
    · rw [if_pos hk] at h
      injection h with h
      rw [hk, h]
      exact List.mem_cons_self _ _
    · rw [if_neg hk] at h
      exact List.mem_cons_of_mem _ (ih k c h)

theorem mem_childGet : ∀ (es : List (String × Dir)) (k : String) (c : Dir),
    (es.map Prod.fst).Nodup → (k, c) ∈ es → childGet es k = some c := by
  intro es
  induction es with
  | nil => intro k c _ h; cases h
  | cons kv rest ih =>
    intro k c hnd h
    simp only [List.map_cons, List.nodup_cons] at hnd
    rcases List.mem_cons.1 h with h1 | h1
    · rw [← h1]
      unfold childGet
      rw [if_pos rfl]
    · unfold childGet
      rw [(by rfl : kv = (kv.1, kv.2))]
      by_cases hk : kv.1 = k
      · exfalso
        apply hnd.1
        rw [hk]
        exact List.mem_map.2 ⟨(k, c), h1, rfl⟩
      · rw [if_neg hk]
        exact ih k c hnd.2 h1

theorem childGet_none_not_mem : ∀ (es : List (String × Dir)) (k : String),
    childGet es k = none → k ∉ es.map Prod.fst := by
  intro es
  induction es with
  | nil => intro k _ h; cases h
  | cons kv rest ih =>
    intro k h hmem
    unfold childGet at h
    rw [(by rfl : kv = (kv.1, kv.2))] at h
    by_cases hk : kv.1 = k
    · rw [if_pos hk] at h
      cases h
    · rw [if_neg hk] at h
      rcases List.mem_cons.1 hmem with h1 | h1
      · exact hk h1.symm
      · exact ih k h h1

theorem childGet_cons (K : String) (D : Dir) (t : List (String × Dir))
    (q : String) :
    childGet ((K, D) :: t) q = if K = q then some D else childGet t q := rfl

theorem childSet_cons (K : String) (D : Dir) (t : List (String × Dir))
    (k : String) (v : Dir) :
    childSet ((K, D) :: t) k v
      = if K = k then (K, v) :: t else (K, D) :: childSet t k v := rfl

theorem childGet_childSet : ∀ (es : List (String × Dir)) (k : String) (v : Dir)
    (q : String), childGet (childSet es k v) q
      = if q = k then some v else childGet es q := by
  intro es
  induction es with
  | nil =>
    intro k v q
    show childGet [(k, v)] q = if q = k then some v else childGet [] q
    rw [childGet_cons]
    by_cases hq : q = k
    · rw [if_pos hq.symm, if_pos hq]
    · rw [if_neg (fun hx => hq hx.symm), if_neg hq]
  | cons kv rest ih =>
    intro k v q
    rw [(by rfl : kv = (kv.1, kv.2)), childSet_cons]
    by_cases hKk : kv.1 = k
    · rw [if_pos hKk, childGet_cons, childGet_cons]
      by_cases hqk : q = k
      · rw [if_pos (show kv.1 = q by rw [hKk, hqk]), if_pos hqk]
      · have hKq : ¬ kv.1 = q := fun hx => hqk (by rw [← hx, hKk])
        rw [if_neg hKq, if_neg hqk, if_neg hKq]
    · rw [if_neg hKk, childGet_cons, childGet_cons]
      by_cases hKq : kv.1 = q
      · have hqk : ¬ q = k := fun hx => hKk (by rw [hKq, hx])
        rw [if_pos hKq, if_neg hqk, if_pos hKq]
      · rw [if_neg hKq, if_neg hKq, ih]


theorem childSet_keys : ∀ (es : List (String × Dir)) (k : String) (v : Dir),
    (childSet es k v).map Prod.fst
      = if k ∈ es.map Prod.fst then es.map Prod.fst
        else es.map Prod.fst ++ [k] := by
  intro es
  induction es with
  | nil =>
    intro k v
    simp [childSet]
  | cons kv rest ih =>
    intro k v
    rw [(by rfl : kv = (kv.1, kv.2))]
    unfold childSet
    by_cases hk : kv.1 = k
    · rw [if_pos hk]
      simp only [List.map_cons]
      rw [if_pos (by rw [hk]; exact List.mem_cons_self _ _)]
    · rw [if_neg hk]
      simp only [List.map_cons, List.cons_append]
      rw [ih]
      by_cases hmem : k ∈ rest.map Prod.fst
      · rw [if_pos hmem, if_pos (List.mem_cons_of_mem _ hmem)]
      · rw [if_neg hmem, if_neg (by
          intro hx
          rcases List.mem_cons.1 hx with h1 | h1
          · exact hk h1.symm
          · exact hmem h1)]

theorem childSet_keys_nodup (es : List (String × Dir)) (k : String) (v : Dir)
    (hnd : (es.map Prod.fst).Nodup) : ((childSet es k v).map Prod.fst).Nodup := by
  rw [childSet_keys]
  by_cases hmem : k ∈ es.map Prod.fst
  · rw [if_pos hmem]
    exact hnd
  · rw [if_neg hmem]
    apply List.Nodup.append hnd (by simp)
    intro a ha hb
    simp only [List.mem_singleton] at hb
    exact hmem (hb ▸ ha)

/-- Wellformedness of a directory trie node to depth `n`, together with the
flat map `f` it denotes: every child is either a wellformed leaf or a
wellformed subtree, children have distinct names matching their map keys,
and `f` is exactly the set of leaf paths. -/
def DirOK : Nat → Dir → (List String → Option (String × String)) → Prop
  | 0, _, _ => False
  | n + 1, d, f =>
    f [] = none ∧
    ∃ es, d.entries = some es ∧ (es.map Prod.fst).Nodup ∧
      (∀ k, childGet es k = none → ∀ rest, f (k :: rest) = none) ∧
      (∀ k c, childGet es k = some c → c.name = k ∧ cleanComp k ∧
        ((∃ md hs, c = leafDir k md hs ∧ LeafMode md ∧ IsHex40 hs ∧
            f [k] = some (md, hs) ∧ ∀ rest, rest ≠ [] → f (k :: rest) = none) ∨
          (c.isTree = true ∧ f [k] = none ∧ DirOK n c (fun q => f (k :: q)))))

theorem DirOK_congr : ∀ (n : Nat) (d : Dir)
    (f g : List String → Option (String × String)),
    DirOK n d f → (∀ q, f q = g q) → DirOK n d g := by
  intro n
  induction n with
  | zero => intro d f g h _; cases h
  | succ m ih =>
    intro d f g h hfg
    obtain ⟨hnil, es, hes, hnd, hnone, hsome⟩ := h
    refine ⟨?_, es, hes, hnd, ?_, ?_⟩
    · rw [← hfg []]
      exact hnil
    · intro k hk rest
      rw [← hfg (k :: rest)]
      exact hnone k hk rest
    · intro k c hk
      obtain ⟨hname, hclean, hdisj⟩ := hsome k c hk
      refine ⟨hname, hclean, ?_⟩
      rcases hdisj with ⟨md, hs, hc, hmd, hhs, hfk, hext⟩ | ⟨htree, hfk, hsub⟩
      · refine Or.inl ⟨md, hs, hc, hmd, hhs, ?_, ?_⟩
        · rw [← hfg [k]]
          exact hfk
        · intro rest hrest
          rw [← hfg (k :: rest)]
          exact hext rest hrest
      · refine Or.inr ⟨htree, ?_, ?_⟩
        · rw [← hfg [k]]
          exact hfk
        · exact ih c (fun q => f (k :: q)) (fun q => g (k :: q)) hsub
            (fun q => hfg (k :: q))

theorem DirOK_domain : ∀ (n : Nat) (d : Dir)
    (f : List String → Option (String × String)),
    DirOK n d f → ∀ parts md hs, f parts = some (md, hs) →
      parts ≠ [] ∧ (∀ k ∈ parts, cleanComp k) := by
  intro n
  induction n with
  | zero => intro d f h; cases h
  | succ m ih =>
    intro d f h parts md hs hparts
    obtain ⟨hnil, es, hes, hnd, hnone, hsome⟩ := h
    cases parts with
    | nil => rw [hnil] at hparts; cases hparts
    | cons k rest =>
      refine ⟨by simp, ?_⟩
      cases hg : childGet es k with
      | none =>
        rw [hnone k hg rest] at hparts
        cases hparts
      | some c =>
        obtain ⟨hname, hclean, hdisj⟩ := hsome k c hg
        rcases hdisj with ⟨md2, hs2, hc, hmd, hhs, hfk, hext⟩ | ⟨htree, hfk, hsub⟩
        · cases rest with
          | nil =>
            intro x hx
            simp only [List.mem_singleton] at hx
            rw [hx]
            exact hclean
          | cons r rs =>
            rw [hext (r :: rs) (by simp)] at hparts
            cases hparts
        · cases rest with
          | nil =>
            rw [hfk] at hparts
            cases hparts
          | cons r rs =>
            have := ih c (fun q => f (k :: q)) hsub (r :: rs) md hs hparts
            intro x hx
            rcases List.mem_cons.1 hx with h1 | h1
            · rw [h1]
              exact hclean
            · exact this.2 x h1

theorem DirOK_newDir (m : Nat) (k : String) (hm : 1 ≤ m) :
    DirOK m (newDir k) (fun _ => none) := by
  cases m with
  | zero => omega
  | succ m0 =>
    refine ⟨rfl, [], rfl, by simp, fun _ _ _ => rfl, ?_⟩
    intro k c h
    cases h

theorem insertPath_step_node (m : Nat) (d : Dir) (es : List (String × Dir))
    (f : List String → Option (String × String)) (md hs part r2 : String)
    (rs : List String) (c' : Dir)
    (g' : List String → Option (String × String))
    (hnil : f [] = none)
    (hnd : (es.map Prod.fst).Nodup)
    (hnone : ∀ k, childGet es k = none → ∀ rest, f (k :: rest) = none)
    (hsome : ∀ k c, childGet es k = some c → c.name = k ∧ cleanComp k ∧
      ((∃ md2 hs2, c = leafDir k md2 hs2 ∧ LeafMode md2 ∧ IsHex40 hs2 ∧
          f [k] = some (md2, hs2) ∧ ∀ rest, rest ≠ [] → f (k :: rest) = none) ∨
        (c.isTree = true ∧ f [k] = none ∧ DirOK m c (fun q => f (k :: q)))))
    (hfpart : f [part] = none)
    (hcleanp : cleanComp part)
    (hcname : c'.name = part) (hctree : c'.isTree = true)
    (hg' : ∀ q, g' q = if q = r2 :: rs then some (md, hs) else f (part :: q))
    (hcok : DirOK m c' g') :
    ∀ g, (∀ q, g q = if q = part :: r2 :: rs then some (md, hs) else f q) →
      DirOK (m + 1)
        (.node d.name d.mode d.hash d.isTree (some (childSet es part c'))) g := by
  intro g hg
  refine ⟨?_, childSet es part c', rfl, childSet_keys_nodup es part _ hnd, ?_, ?_⟩
  · rw [hg [], if_neg (by simp)]
    exact hnil
  · intro k hk rest2
    rw [childGet_childSet] at hk
    by_cases hkp : k = part
    · rw [if_pos hkp] at hk
      cases hk
    · rw [if_neg hkp] at hk
      rw [hg (k :: rest2), if_neg (by
        intro hx
        injection hx with hx1 _
        exact hkp hx1)]
      exact hnone k hk rest2
  · intro k c2 hk
    rw [childGet_childSet] at hk
    by_cases hkp : k = part
    · rw [if_pos hkp] at hk
      injection hk with hk
      subst hk
      refine ⟨by rw [hcname, hkp], by rw [hkp]; exact hcleanp, ?_⟩
      refine Or.inr ⟨hctree, ?_, ?_⟩
      · rw [hg [k], if_neg (by
          intro hx
          injection hx with _ hx2
          cases hx2), hkp]
        exact hfpart
      · apply DirOK_congr m c' g' _ hcok
        intro q
        show g' q = g (k :: q)
        rw [hg' q, hg (k :: q)]
        by_cases hq : q = r2 :: rs
        · rw [if_pos hq, if_pos (by rw [hq, hkp])]
        · rw [if_neg hq, if_neg (by
            intro hx
            injection hx with hx1 hx2
            exact hq hx2), hkp]
    · rw [if_neg hkp] at hk
      obtain ⟨hname, hcleank, hdisj⟩ := hsome k c2 hk
      refine ⟨hname, hcleank, ?_⟩
      rcases hdisj with ⟨md2, hs2, hc, hmd2, hhs2, hfk, hext2⟩ |
        ⟨htree, hfk, hsub⟩
      · refine Or.inl ⟨md2, hs2, hc, hmd2, hhs2, ?_, ?_⟩
        · rw [hg [k], if_neg (by
            intro hx
            injection hx with hx1 _
            exact hkp hx1)]
          exact hfk
        · intro rest2 hrest2
          rw [hg (k :: rest2), if_neg (by
            intro hx
            injection hx with hx1 _
            exact hkp hx1)]
          exact hext2 rest2 hrest2
      · refine Or.inr ⟨htree, ?_, ?_⟩
        · rw [hg [k], if_neg (by
            intro hx
            injection hx with hx1 _
            exact hkp hx1)]
          exact hfk
        · apply DirOK_congr m c2 (fun q => f (k :: q)) _ hsub
          intro q
          show f (k :: q) = g (k :: q)
          rw [hg (k :: q), if_neg (by
            intro hx
            injection hx with hx1 _
            exact hkp hx1)]

theorem insertPath_ok :
    ∀ (parts : List String) (n : Nat) (d : Dir)
      (f : List String → Option (String × String)) (md hs : String),
      DirOK n d f → parts ≠ [] → parts.length < n →
      (∀ k ∈ parts, cleanComp k) →
      LeafMode md → IsHex40 hs →
      (∀ pre ext, parts = pre ++ ext → pre ≠ [] → ext ≠ [] → f pre = none) →
      (∀ ext, ext ≠ [] → f (parts ++ ext) = none) →
      ∃ d', insertPath md hs parts d = some d' ∧
        d'.name = d.name ∧ d'.isTree = d.isTree ∧
        ∀ g, (∀ q, g q = if q = parts then some (md, hs) else f q) →
          DirOK n d' g := by
  intro parts
  induction parts with
  | nil => intro n d f md hs _ hne; exact absurd rfl hne
  | cons part rest ih =>
    intro n d f md hs hok hne hlen hclean hmd hhs hpre hext
    cases n with
    | zero => cases hok
    | succ m =>
    obtain ⟨hnil, es, hes, hnd, hnone, hsome⟩ := hok
    cases rest with
    | nil =>
      refine ⟨.node d.name d.mode d.hash d.isTree
        (some (childSet es part (leafDir part md hs))), ?_, rfl, rfl, ?_⟩
      · unfold insertPath
        rw [hes]
      · intro g hg
        refine ⟨?_, childSet es part (leafDir part md hs), rfl,
          childSet_keys_nodup es part _ hnd, ?_, ?_⟩
        · rw [hg [], if_neg (by simp)]
          exact hnil
        · intro k hk rest2
          rw [childGet_childSet] at hk
          by_cases hkp : k = part
          · rw [if_pos hkp] at hk
            cases hk
          · rw [if_neg hkp] at hk
            rw [hg (k :: rest2), if_neg (by
              intro hx
              injection hx with hx1 _
              exact hkp hx1)]
            exact hnone k hk rest2
        · intro k c2 hk
          rw [childGet_childSet] at hk
          by_cases hkp : k = part
          · rw [if_pos hkp] at hk
            injection hk with hk
            subst hk
            refine ⟨by rw [hkp]; rfl, by rw [hkp]; exact hclean part (by simp), ?_⟩
            refine Or.inl ⟨md, hs, by rw [hkp], hmd, hhs, ?_, ?_⟩
            · rw [hg [k], if_pos (by rw [hkp])]
            · intro rest2 hrest2
              rw [hg (k :: rest2), if_neg (by
                intro hx
                injection hx with _ hx2
                exact hrest2 hx2), hkp]
              exact hext rest2 hrest2
          · rw [if_neg hkp] at hk
            obtain ⟨hname, hcleank, hdisj⟩ := hsome k c2 hk
            refine ⟨hname, hcleank, ?_⟩
            rcases hdisj with ⟨md2, hs2, hc, hmd2, hhs2, hfk, hext2⟩ |
              ⟨htree, hfk, hsub⟩
            · refine Or.inl ⟨md2, hs2, hc, hmd2, hhs2, ?_, ?_⟩
              · rw [hg [k], if_neg (by
                  intro hx
                  injection hx with hx1 _
                  exact hkp hx1)]
                exact hfk
              · intro rest2 hrest2
                rw [hg (k :: rest2), if_neg (by
                  intro hx
                  injection hx with hx1 _
                  exact hkp hx1)]
                exact hext2 rest2 hrest2
            · refine Or.inr ⟨htree, ?_, ?_⟩
              · rw [hg [k], if_neg (by
                  intro hx
                  injection hx with hx1 _
                  exact hkp hx1)]
                exact hfk
              · apply DirOK_congr m c2 (fun q => f (k :: q)) _ hsub
                intro q
                show f (k :: q) = g (k :: q)
                rw [hg (k :: q), if_neg (by
                  intro hx
                  injection hx with hx1 _
                  exact hkp hx1)]
    | cons r2 rs =>
      have hfpart : f [part] = none :=
        hpre [part] (r2 :: rs) rfl (by simp) (by simp)
      cases hg0 : childGet es part with
      | some c =>
        obtain ⟨hname, hcleanp, hdisj⟩ := hsome part c hg0
        rcases hdisj with ⟨md2, hs2, hc, _, _, hfk, _⟩ | ⟨htree, hfk, hsub⟩
        · rw [hfpart] at hfk
          cases hfk
        · have ihc := ih m c (fun q => f (part :: q)) md hs hsub (by simp)
            (by simp only [List.length_cons] at hlen ⊢; omega)
            (fun k hk => hclean k (List.mem_cons_of_mem _ hk))
            hmd hhs
            (fun pre2 ext2 hsplit hpre2 hext2 =>
              hpre (part :: pre2) ext2 (by rw [hsplit]; rfl)
                (by simp) hext2)
            (fun ext2 hext2 => by
              have := hext ext2 hext2
              rw [List.cons_append] at this
              exact this)
          obtain ⟨c', hins, hcname, hctree, hcall⟩ := ihc
          have hcok := hcall
            (fun q => if q = r2 :: rs then some (md, hs) else f (part :: q))
            (fun q => rfl)
          refine ⟨.node d.name d.mode d.hash d.isTree
            (some (childSet es part c')), ?_, rfl, rfl, ?_⟩
          · unfold insertPath
            rw [hes]
            simp only []
            rw [hg0]
            simp only []
            rw [hins]
          · exact insertPath_step_node m d es f md hs part r2 rs c' _ hnil hnd
              hnone hsome hfpart (hclean part (by simp))
              (by rw [hcname, hname]) (by rw [hctree]; exact htree)
              (fun q => rfl) hcok
      | none =>
        have hsubnew : DirOK m (newDir part) (fun q => f (part :: q)) := by
          apply DirOK_congr m (newDir part) (fun _ => none) _
            (DirOK_newDir m part (by
              simp only [List.length_cons] at hlen
              omega))
          intro q
          exact (hnone part hg0 q).symm
        have ihc := ih m (newDir part) (fun q => f (part :: q)) md hs hsubnew
          (by simp)
          (by simp only [List.length_cons] at hlen ⊢; omega)
          (fun k hk => hclean k (List.mem_cons_of_mem _ hk))
          hmd hhs
          (fun pre2 ext2 hsplit hpre2 hext2 =>
            hpre (part :: pre2) ext2 (by rw [hsplit]; rfl)
              (by simp) hext2)
          (fun ext2 hext2 => by
            have := hext ext2 hext2
            rw [List.cons_append] at this
            exact this)
        obtain ⟨c', hins, hcname, hctree, hcall⟩ := ihc
        have hcok := hcall
          (fun q => if q = r2 :: rs then some (md, hs) else f (part :: q))
          (fun q => rfl)
        refine ⟨.node d.name d.mode d.hash d.isTree
          (some (childSet es part c')), ?_, rfl, rfl, ?_⟩
        · unfold insertPath
          rw [hes]
          simp only []
          rw [hg0]
          simp only []
          rw [hins]
        · exact insertPath_step_node m d es f md hs part r2 rs c' _ hnil hnd
            hnone hsome hfpart (hclean part (by simp))
            (by rw [hcname]; rfl) (by rw [hctree]; rfl)
            (fun q => rfl) hcok

/-- The flat map denoted by a list of index entries: component path to
`(mode string, hash)`. -/
def fIdx (l : List IEntry) (q : List String) : Option (String × String) :=
  (l.find? (fun e => decide (splitSlash e.path = q))).map
    (fun e => (octalStr e.mode, e.hash))

theorem find?_append_or {α : Type} (p : α → Bool) :
    ∀ l1 l2 : List α, (l1 ++ l2).find? p
      = ((l1.find? p).orElse (fun _ => l2.find? p)) := by
  intro l1
  induction l1 with
  | nil => intro l2; rfl
  | cons a t ih =>
    intro l2
    by_cases h : p a
    · rw [List.cons_append, List.find?_cons_of_pos _ h, List.find?_cons_of_pos _ h]
      rfl
    · rw [List.cons_append, List.find?_cons_of_neg _ h, List.find?_cons_of_neg _ h,
        ih]

/-- Per-entry wellformedness assumed by the round-trip: one of the two file
modes, a hex-normal hash, clean path components, and bounded depth. -/
def EntryTreeWF (n : Nat) (e : IEntry) : Prop :=
  (e.mode = 33188 ∨ e.mode = 33261) ∧ IsHex40 e.hash ∧
    (∀ k ∈ splitSlash e.path, cleanComp k) ∧ (splitSlash e.path).length < n

theorem LeafMode_octalStr (e : IEntry) (h : e.mode = 33188 ∨ e.mode = 33261) :
    LeafMode (octalStr e.mode) := by
  rcases h with h | h
  · rw [h]
    exact Or.inl (by decide)
  · rw [h]
    exact Or.inr (by decide)

theorem buildTrie_fold :
    ∀ (pend done : List IEntry) (d : Dir) (n : Nat),
      (∀ e ∈ done ++ pend, EntryTreeWF n e) →
      ((done ++ pend).map IEntry.path).Nodup →
      (∀ e1 ∈ done ++ pend, ∀ e2 ∈ done ++ pend, ∀ ext,
        splitSlash e2.path = splitSlash e1.path ++ ext → ext = []) →
      DirOK n d (fIdx done) →
      ∃ d', pend.foldl (fun acc e =>
          match acc with
          | none => none
          | some dd => insertPath (octalStr e.mode) e.hash (splitSlash e.path) dd)
        (some d) = some d' ∧ DirOK n d' (fIdx (done ++ pend)) := by
  intro pend
  induction pend with
  | nil =>
    intro done d n _ _ _ hok
    refine ⟨d, rfl, ?_⟩
    rw [List.append_nil]
    exact hok
  | cons e pend' ih =>
    intro done d n hall hnd hpf hok
    have hmem : e ∈ done ++ e :: pend' := by simp
    have hew := hall e hmem
    obtain ⟨hmode, hhash, hclean, hdepth⟩ := hew
    have hins := insertPath_ok (splitSlash e.path) n d (fIdx done)
      (octalStr e.mode) e.hash hok (splitSlash_ne_nil e.path) hdepth hclean
      (LeafMode_octalStr e hmode) hhash
      (fun pre ext hsplit hprene hextne => by
        unfold fIdx
        cases hf : done.find? (fun e2 => decide (splitSlash e2.path = pre)) with
        | none => rfl
        | some e2 =>
          exfalso
          have hp2 := List.find?_some hf
          simp only [decide_eq_true_eq] at hp2
          have hm2 : e2 ∈ done ++ e :: pend' :=
            List.mem_append.2 (Or.inl (List.mem_of_find?_eq_some hf))
          have := hpf e2 hm2 e hmem ext (by rw [hsplit, hp2])
          exact hextne this)
      (fun ext hextne => by
        unfold fIdx
        cases hf : done.find?
            (fun e2 => decide (splitSlash e2.path = splitSlash e.path ++ ext)) with
        | none => rfl
        | some e2 =>
          exfalso
          have hp2 := List.find?_some hf
          simp only [decide_eq_true_eq] at hp2
          have hm2 : e2 ∈ done ++ e :: pend' :=
            List.mem_append.2 (Or.inl (List.mem_of_find?_eq_some hf))
          have := hpf e hmem e2 hm2 ext hp2
          exact hextne this)
    obtain ⟨d', hinseq, _, _, hcall⟩ := hins
    have hfind_done : done.find?
        (fun e2 => decide (splitSlash e2.path = splitSlash e.path)) = none := by
      cases hf : done.find?
          (fun e2 => decide (splitSlash e2.path = splitSlash e.path)) with
      | none => rfl
      | some e2 =>
        exfalso
        have hp2 := List.find?_some hf
        simp only [decide_eq_true_eq] at hp2
        have hm2 : e2 ∈ done := List.mem_of_find?_eq_some hf
        have hpath : e2.path = e.path := splitSlash_inj hp2
        have : e.path ∈ done.map IEntry.path := by
          rw [← hpath]
          exact List.mem_map.2 ⟨e2, hm2, rfl⟩
        rw [List.map_append] at hnd
        have hdisj := (List.nodup_append.1 hnd).2.2
        exact hdisj this (by simp)
    have hg : ∀ q, fIdx (done ++ [e]) q
        = if q = splitSlash e.path then some (octalStr e.mode, e.hash)
          else fIdx done q := by
      intro q
      unfold fIdx
      rw [find?_append_or]
      by_cases hq : q = splitSlash e.path
      · rw [if_pos hq, hq, hfind_done]
        rw [List.find?_cons_of_pos _ (by simp)]
        rfl
      · rw [if_neg hq]
        rw [List.find?_cons_of_neg _ (by
          simp only [decide_eq_true_eq]
          exact fun hx => hq hx.symm)]
        cases hf : done.find? (fun e2 => decide (splitSlash e2.path = q)) with
        | none => rfl
        | some e2 => rfl
    have hok' : DirOK n d' (fIdx (done ++ [e])) := hcall _ hg
    have hassoc : done ++ [e] ++ pend' = done ++ e :: pend' := by simp
    have ihres := ih (done ++ [e]) d' n
      (by rw [hassoc]; exact hall) (by rw [hassoc]; exact hnd)
      (by rw [hassoc]; exact hpf) hok'
    obtain ⟨d'', hfold, hok''⟩ := ihres
    refine ⟨d'', ?_, ?_⟩
    · rw [List.foldl_cons]
      simp only []
      rw [hinseq]
      exact hfold
    · rw [← hassoc]
      exact hok''

theorem buildTrie_ok (idx : List IEntry) (n : Nat) (hn : 1 ≤ n)
    (hall : ∀ e ∈ idx, EntryTreeWF n e)
    (hnd : (idx.map IEntry.path).Nodup)
    (hpf : ∀ e1 ∈ idx, ∀ e2 ∈ idx, ∀ ext,
      splitSlash e2.path = splitSlash e1.path ++ ext → ext = []) :
    ∃ root, buildTrie idx = some root ∧ DirOK n root (fIdx idx) := by
  have hbase : DirOK n (.node "" "" "" false (some [])) (fIdx []) := by
    cases n with
    | zero => omega
    | succ m =>
      refine ⟨rfl, [], rfl, by simp, fun _ _ _ => rfl, ?_⟩
      intro k c h
      cases h
  have := buildTrie_fold idx [] (.node "" "" "" false (some [])) n
    (by simpa using hall) (by simpa using hnd) (by simpa using hpf) hbase
  obtain ⟨root, hfold, hok⟩ := this
  refine ⟨root, ?_, by simpa using hok⟩
  unfold buildTrie
  exact hfold

theorem cleanComp_no_slash {k : String} (h : cleanComp k) :
    ∀ c ∈ k.data, c ≠ '/' := fun c hc => (h.2 c hc).2.2

/-- Store extension: every stored object stays stored. -/
def StoreLe (st1 st2 : Store) : Prop := ∀ k v, st1 k = some v → st2 k = some v

/-- The final store is content-addressed on tree objects: any value found at
the key `H "tree" Q` is the encoding of `Q` itself (SHA-1 collision
freedom for this run, the code's standing assumption). -/
def StoreCons (H : String → Bytes → String) (stF : Store) : Prop :=
  ∀ Q v, stF (H "tree" Q) = some v → v = encodeObj "tree" Q

theorem writeObject_mono (H : String → Bytes → String) (st : Store)
    (kind : String) (content : Bytes) :
    StoreLe st (writeObject H st kind content).2 := by
  intro k v hk
  unfold writeObject
  simp only []
  cases hs : st (H kind content) with
  | some w =>
    simp only []
    exact hk
  | none =>
    simp only []
    by_cases hkh : k = H kind content
    · rw [hkh] at hk
      rw [hs] at hk
      cases hk
    · rw [if_neg hkh]
      exact hk

theorem flattenTree_succ (s : Store) (n : Nat) (h pfx : String) :
    flattenTree s (n + 1) h pfx
      = match readTree s h with
        | none => none
        | some entries => entries.foldl (fun acc e =>
            match acc with
            | none => none
            | some m =>
              if e.mode = "40000" then
                match flattenTree s n e.hash
                    (if pfx = "" then e.name else pfx ++ "/" ++ e.name) with
                | none => none
                | some sub => some (sub.foldl (fun m2 kv => mset m2 kv.1 kv.2) m)
              else some (mset m (if pfx = "" then e.name else pfx ++ "/" ++ e.name)
                e.hash)) (some []) := rfl

theorem flatten_fold (stF : Store) (n : Nat) (pfx : String)
    (f : List String → Option (String × String))
    (hdom : ∀ parts md hs, f parts = some (md, hs) →
      parts ≠ [] ∧ ∀ k ∈ parts, cleanComp k) :
    ∀ (L : List TreeEntry) (done : List String) (am : List (String × String)),
      (L.map TreeEntry.name).Nodup →
      (∀ te ∈ L, te.name ∉ done) →
      (∀ te ∈ L, cleanComp te.name ∧
        ((∃ md, te.mode = md ∧ LeafMode md ∧ f [te.name] = some (md, te.hash) ∧
            (∀ rest, rest ≠ [] → f (te.name :: rest) = none)) ∨
         (te.mode = "40000" ∧ f [te.name] = none ∧
           ∃ fm0, flattenTree stF n te.hash
               (if pfx = "" then te.name else pfx ++ "/" ++ te.name) = some fm0 ∧
             (fm0.map Prod.fst).Nodup ∧
             (∀ parts md hs, f (te.name :: parts) = some (md, hs) →
               fm0.lookup (pjoin pfx (te.name :: parts)) = some hs) ∧
             (∀ q v, fm0.lookup q = some v →
               ∃ parts md, f (te.name :: parts) = some (md, v) ∧
                 q = pjoin pfx (te.name :: parts))))) →
      (am.map Prod.fst).Nodup →
      (∀ k rest md hs, f (k :: rest) = some (md, hs) → k ∈ done →
        am.lookup (pjoin pfx (k :: rest)) = some hs) →
      (∀ q v, am.lookup q = some v →
        ∃ k rest md, f (k :: rest) = some (md, v) ∧ q = pjoin pfx (k :: rest) ∧
          k ∈ done) →
      (∀ k rest md hs, f (k :: rest) = some (md, hs) →
        k ∈ done ∨ k ∈ L.map TreeEntry.name) →
      ∃ fm, L.foldl (fun acc e =>
          match acc with
          | none => none
          | some m =>
            if e.mode = "40000" then
              match flattenTree stF n e.hash
                  (if pfx = "" then e.name else pfx ++ "/" ++ e.name) with
              | none => none
              | some sub => some (sub.foldl (fun m2 kv => mset m2 kv.1 kv.2) m)
            else some (mset m (if pfx = "" then e.name else pfx ++ "/" ++ e.name)
              e.hash)) (some am) = some fm ∧
        (fm.map Prod.fst).Nodup ∧
        (∀ parts md hs, f parts = some (md, hs) →
          fm.lookup (pjoin pfx parts) = some hs) ∧
        (∀ q v, fm.lookup q = some v →
          ∃ parts md, f parts = some (md, v) ∧ q = pjoin pfx parts) := by
  intro L
  induction L with
  | nil =>
    intro done am _ _ _ hamnd hamc hams hcov
    refine ⟨am, rfl, hamnd, ?_, ?_⟩
    · intro parts md hs hparts
      obtain ⟨hne, hcln⟩ := hdom parts md hs hparts
      cases parts with
      | nil => exact absurd rfl hne
      | cons k rest =>
        rcases hcov k rest md hs hparts with hk | hk
        · exact hamc k rest md hs hparts hk
        · cases hk
    · intro q v hq
      obtain ⟨k, rest, md, h1, h2, _⟩ := hams q v hq
      exact ⟨k :: rest, md, h1, h2⟩
  | cons te L' ih =>
    intro done am hndL hdis hte hamnd hamc hams hcov
    obtain ⟨hclte, hdisj⟩ := hte te (by simp)
    simp only [List.map_cons, List.nodup_cons] at hndL
    have hkey : (if pfx = "" then te.name else pfx ++ "/" ++ te.name)
        = pjoin pfx [te.name] := rfl
    rcases hdisj with ⟨md, hmodeq, hmd, hfk, hextnone⟩ |
      ⟨hmode40, hfk, fm0, hflat, hfm0nd, hfm0c, hfm0s⟩
    · -- file child
      have hmode_ne : ¬ te.mode = "40000" := by
        rw [hmodeq]
        rcases hmd with h | h <;> rw [h] <;> decide
      have hamkey : am.lookup (pjoin pfx [te.name]) = none := by
        cases hl : am.lookup (pjoin pfx [te.name]) with
        | none => rfl
        | some w =>
          exfalso
          obtain ⟨k2, rest2, md2, hf2, hq2, hk2done⟩ := hams _ w hl
          have hcl2 := ((hdom _ _ _ hf2).2 k2 (by simp))
          have := pjoin_head_inj pfx [] rest2 (cleanComp_no_slash hclte)
            (cleanComp_no_slash hcl2) hq2
          exact hdis te (by simp) (this.1 ▸ hk2done)
      have hamnd' : ((mset am (pjoin pfx [te.name]) te.hash).map Prod.fst).Nodup := by
        rw [mset_keys_of_none _ _ _ hamkey]
        apply List.Nodup.append hamnd (by simp)
        intro a ha hb
        simp only [List.mem_singleton] at hb
        exact ((lookup_none_iff am _).mp hamkey) (hb ▸ ha)
      have hres := ih (te.name :: done) (mset am (pjoin pfx [te.name]) te.hash)
        hndL.2
        (fun te' hte' => by
          intro hmem
          rcases List.mem_cons.1 hmem with h1 | h1
          · exact hndL.1 (h1 ▸ List.mem_map.2 ⟨te', hte', rfl⟩)
          · exact hdis te' (List.mem_cons_of_mem _ hte') h1)
        (fun te' hte' => hte te' (List.mem_cons_of_mem _ hte'))
        hamnd'
        (fun k rest md2 hs2 hf2 hkdone => by
          rw [mset_lookup]
          rcases List.mem_cons.1 hkdone with h1 | h1
          · have hrest : rest = [] := by
              by_contra hne
              rw [h1] at hf2
              rw [hextnone rest hne] at hf2
              cases hf2
            subst hrest
            rw [h1] at hf2
            rw [hfk] at hf2
            injection hf2 with hf2
            injection hf2 with _ hf2b
            rw [if_pos (by rw [h1]), ← hf2b]
          · have hcl2 := ((hdom _ _ _ hf2).2 k (by simp))
            rw [if_neg (by
              intro hx
              have := pjoin_head_inj pfx rest [] (cleanComp_no_slash hcl2)
                (cleanComp_no_slash hclte) hx
              exact hdis te (by simp) (this.1 ▸ h1))]
            exact hamc k rest md2 hs2 hf2 h1)
        (fun q v hq => by
          rw [mset_lookup] at hq
          by_cases hqk : q = pjoin pfx [te.name]
          · rw [if_pos hqk] at hq
            injection hq with hq
            exact ⟨te.name, [], md, by rw [← hq]; exact hfk, hqk,
              List.mem_cons_self _ _⟩
          · rw [if_neg hqk] at hq
            obtain ⟨k, rest, md2, h1, h2, h3⟩ := hams q v hq
            exact ⟨k, rest, md2, h1, h2, List.mem_cons_of_mem _ h3⟩)
        (fun k rest md2 hs2 hf2 => by
          rcases hcov k rest md2 hs2 hf2 with h1 | h1
          · exact Or.inl (List.mem_cons_of_mem _ h1)
          · simp only [List.map_cons, List.mem_cons] at h1
            rcases h1 with h1 | h1
            · exact Or.inl (by rw [h1]; exact List.mem_cons_self _ _)
            · exact Or.inr h1)
      obtain ⟨fm, hfold, hfmnd, hfmc, hfms⟩ := hres
      refine ⟨fm, ?_, hfmnd, hfmc, hfms⟩
      rw [List.foldl_cons]
      simp only []
      rw [if_neg hmode_ne, hkey]
      exact hfold
    · -- subtree child
      have hamdisj : ∀ q v, fm0.lookup q = some v → am.lookup q = none := by
        intro q v hq
        obtain ⟨parts, md2, hf2, hq2⟩ := hfm0s q v hq
        cases hl : am.lookup q with
        | none => rfl
        | some w =>
          exfalso
          obtain ⟨k3, rest3, md3, hf3, hq3, hk3done⟩ := hams q w hl
          have hcl3 := ((hdom _ _ _ hf3).2 k3 (by simp))
          have := pjoin_head_inj pfx parts rest3 (cleanComp_no_slash hclte)
            (cleanComp_no_slash hcl3) (hq2 ▸ hq3)
          exact hdis te (by simp) (this.1 ▸ hk3done)
      have hamnd' : (((fm0.foldl (fun m2 kv => mset m2 kv.1 kv.2) am).map
          Prod.fst)).Nodup :=
        foldl_mset_nodup fm0 am hamnd hfm0nd hamdisj
      have hlook : ∀ q, (fm0.foldl (fun m2 kv => mset m2 kv.1 kv.2) am).lookup q
          = (fm0.lookup q).orElse (fun _ => am.lookup q) :=
        foldl_mset_lookup fm0 am hfm0nd
      have hres := ih (te.name :: done) (fm0.foldl (fun m2 kv => mset m2 kv.1 kv.2) am)
        hndL.2
        (fun te' hte' => by
          intro hmem
          rcases List.mem_cons.1 hmem with h1 | h1
          · exact hndL.1 (h1 ▸ List.mem_map.2 ⟨te', hte', rfl⟩)
          · exact hdis te' (List.mem_cons_of_mem _ hte') h1)
        (fun te' hte' => hte te' (List.mem_cons_of_mem _ hte'))
        hamnd'
        (fun k rest md2 hs2 hf2 hkdone => by
          rw [hlook]
          rcases List.mem_cons.1 hkdone with h1 | h1
          · rw [h1] at hf2
            rw [h1, hfm0c rest md2 hs2 hf2]
            rfl
          · have hcl2 := ((hdom _ _ _ hf2).2 k (by simp))
            have hfm0none : fm0.lookup (pjoin pfx (k :: rest)) = none := by
              cases hl : fm0.lookup (pjoin pfx (k :: rest)) with
              | none => rfl
              | some w =>
                exfalso
                obtain ⟨parts2, md3, hf3, hq3⟩ := hfm0s _ w hl
                have := pjoin_head_inj pfx rest parts2 (cleanComp_no_slash hcl2)
                  (cleanComp_no_slash hclte) hq3
                exact hdis te (by simp) (this.1 ▸ h1)
            rw [hfm0none]
            exact hamc k rest md2 hs2 hf2 h1)
        (fun q v hq => by
          rw [hlook] at hq
          cases hl : fm0.lookup q with
          | some w =>
            rw [hl] at hq
            injection hq with hq
            obtain ⟨parts, md2, hf2, hq2⟩ := hfm0s q w hl
            exact ⟨te.name, parts, md2, by rw [← hq]; exact hf2, hq2,
              List.mem_cons_self _ _⟩
          | none =>
            rw [hl] at hq
            obtain ⟨k, rest, md2, h1, h2, h3⟩ := hams q v hq
            exact ⟨k, rest, md2, h1, h2, List.mem_cons_of_mem _ h3⟩)
        (fun k rest md2 hs2 hf2 => by
          rcases hcov k rest md2 hs2 hf2 with h1 | h1
          · exact Or.inl (List.mem_cons_of_mem _ h1)
          · simp only [List.map_cons, List.mem_cons] at h1
            rcases h1 with h1 | h1
            · exact Or.inl (by rw [h1]; exact List.mem_cons_self _ _)
            · exact Or.inr h1)
      obtain ⟨fm, hfold, hfmnd, hfmc, hfms⟩ := hres
      refine ⟨fm, ?_, hfmnd, hfmc, hfms⟩
      rw [List.foldl_cons]
      simp only []
      rw [if_pos hmode40, hflat]
      exact hfold

theorem writeObject_fst (H : String → Bytes → String) (st : Store)
    (kind : String) (content : Bytes) :
    (writeObject H st kind content).1 = H kind content := by
  unfold writeObject
  simp only []
  cases st (H kind content) <;> rfl

theorem writeObjectEv_fst (H : String → Bytes → String) (st : Store)
    (kind : String) (content : Bytes) :
    (writeObjectEv H st kind content).1 = H kind content :=
  writeObject_fst H st kind content

theorem writeObjectEv_snd (H : String → Bytes → String) (st : Store)
    (kind : String) (content : Bytes) :
    (writeObjectEv H st kind content).2.1 = (writeObject H st kind content).2 := rfl

theorem TEntryWF_leaf (md k hs : String) (hmd : LeafMode md) (hk : cleanComp k)
    (hhs : IsHex40 hs) : TEntryWF ⟨md, k, hs⟩ := by
  refine ⟨?_, ?_, ?_, hhs⟩
  · show strBytes md ≠ []
    rcases hmd with h | h <;> rw [h] <;> decide
  · show ∀ b ∈ strBytes md, b ≠ 0 ∧ b ≠ 32
    rcases hmd with h | h <;> rw [h] <;> decide
  · show ∀ b ∈ strBytes k, b ≠ 0
    intro b hb
    unfold strBytes at hb
    obtain ⟨c, hc, hcb⟩ := List.mem_map.1 hb
    have := (hk.2 c hc).1
    omega

theorem TEntryWF_tree (k hsh : String) (hk : cleanComp k) (hhs : IsHex40 hsh) :
    TEntryWF ⟨"40000", k, hsh⟩ := by
  refine ⟨?_, ?_, ?_, hhs⟩
  · show strBytes "40000" ≠ []
    decide
  · show ∀ b ∈ strBytes "40000", b ≠ 0 ∧ b ≠ 32
    decide
  · show ∀ b ∈ strBytes k, b ≠ 0
    intro b hb
    unfold strBytes at hb
    obtain ⟨c, hc, hcb⟩ := List.mem_map.1 hb
    have := (hk.2 c hc).1
    omega

theorem childFold_build (H : String → Bytes → String) (m : Nat)
    (f : List String → Option (String × String))
    (WIH : ∀ (c : Dir) (fc : List String → Option (String × String)) (store : Store),
      DirOK m c fc →
      ∃ h st' evs, writeDirF H m c store = some (h, st', evs) ∧
        StoreLe store st' ∧ IsHex40 h ∧
        ∀ stF, StoreLe st' stF → StoreCons H stF →
          ∀ pfx', ∃ fm0, flattenTree stF m h pfx' = some fm0 ∧
            (fm0.map Prod.fst).Nodup ∧
            (∀ parts md hs, fc parts = some (md, hs) →
              fm0.lookup (pjoin pfx' parts) = some hs) ∧
            (∀ q v, fm0.lookup q = some v →
              ∃ parts md, fc parts = some (md, v) ∧ q = pjoin pfx' parts)) :
    ∀ (kvs : List (String × Dir)) (tes0 : List TreeEntry) (st0 : Store)
      (evs0 : List Ev),
      (∀ k c, (k, c) ∈ kvs → c.name = k ∧ cleanComp k ∧
        ((∃ md hs, c = leafDir k md hs ∧ LeafMode md ∧ IsHex40 hs ∧
            f [k] = some (md, hs) ∧ ∀ rest, rest ≠ [] → f (k :: rest) = none) ∨
          (c.isTree = true ∧ f [k] = none ∧ DirOK m c (fun q => f (k :: q))))) →
      ∃ tes1 st1 evs1,
        childFold (fun c st => writeDirF H m c st) kvs (some (tes0, st0, evs0))
          = some (tes0 ++ tes1, st1, evs0 ++ evs1) ∧
        StoreLe st0 st1 ∧
        tes1.map TreeEntry.name = kvs.map Prod.fst ∧
        (∀ te ∈ tes1, TEntryWF te ∧ cleanComp te.name ∧
          ((∃ md, te.mode = md ∧ LeafMode md ∧ f [te.name] = some (md, te.hash) ∧
              (∀ rest, rest ≠ [] → f (te.name :: rest) = none)) ∨
           (te.mode = "40000" ∧ f [te.name] = none ∧
             ∀ stF, StoreLe st1 stF → StoreCons H stF →
               ∀ pfx', ∃ fm0, flattenTree stF m te.hash pfx' = some fm0 ∧
                 (fm0.map Prod.fst).Nodup ∧
                 (∀ parts md hs, f (te.name :: parts) = some (md, hs) →
                   fm0.lookup (pjoin pfx' parts) = some hs) ∧
                 (∀ q v, fm0.lookup q = some v →
                   ∃ parts md, f (te.name :: parts) = some (md, v) ∧
                     q = pjoin pfx' parts)))) := by
  intro kvs
  induction kvs with
  | nil =>
    intro tes0 st0 evs0 _
    refine ⟨[], st0, [], by simp [childFold], fun k v h => h, rfl, ?_⟩
    intro te hte
    cases hte
  | cons kv kvs' ih =>
    intro tes0 st0 evs0 hkvs
    obtain ⟨hname, hclean, hdisj⟩ := hkvs kv.1 kv.2 (by
      have hrr : kv ∈ kv :: kvs' := List.mem_cons_self _ _
      exact hrr)
    rcases hdisj with ⟨md, hs, hc, hmd, hhs, hfk, hext⟩ | ⟨htree, hfk, hsub⟩
    · -- leaf child
      have hit : kv.2.isTree = false := by rw [hc]; rfl
      have hcm : kv.2.mode = md := by rw [hc]; rfl
      have hch : kv.2.hash = hs := by rw [hc]; rfl
      have hstep : childFold (fun c st => writeDirF H m c st) (kv :: kvs')
          (some (tes0, st0, evs0))
          = childFold (fun c st => writeDirF H m c st) kvs'
            (some (tes0 ++ [⟨md, kv.1, hs⟩], st0, evs0)) := by
        conv => lhs; unfold childFold
        simp only []
        rw [if_neg (by rw [hit]; simp), hcm, hname, hch]
      obtain ⟨tes1', st1, evs1', hcf, hmono, hnames, htes⟩ :=
        ih (tes0 ++ [⟨md, kv.1, hs⟩]) st0 evs0
          (fun k2 c2 hm => hkvs k2 c2 (List.mem_cons_of_mem _ hm))
      refine ⟨⟨md, kv.1, hs⟩ :: tes1', st1, evs1', ?_, hmono, ?_, ?_⟩
      · rw [hstep, hcf]
        simp
      · simp only [List.map_cons]
        rw [hnames]
      · intro te hte
        rcases List.mem_cons.1 hte with h1 | h1
        · subst h1
          refine ⟨TEntryWF_leaf md kv.1 hs hmd hclean hhs, hclean, ?_⟩
          exact Or.inl ⟨md, rfl, hmd, hfk, hext⟩
        · exact htes te h1
    · -- subtree child
      obtain ⟨hc2, stc, evsc, hwc, hmonoc, hhexc, hflatc⟩ :=
        WIH kv.2 (fun q => f (kv.1 :: q)) st0 hsub
      have hstep : childFold (fun c st => writeDirF H m c st) (kv :: kvs')
          (some (tes0, st0, evs0))
          = childFold (fun c st => writeDirF H m c st) kvs'
            (some (tes0 ++ [⟨"40000", kv.1, hc2⟩], stc, evs0 ++ evsc)) := by
        conv => lhs; unfold childFold
        simp only []
        rw [if_pos htree, hwc]
        simp only []
        rw [hname]
      obtain ⟨tes1', st1, evs1', hcf, hmono, hnames, htes⟩ :=
        ih (tes0 ++ [⟨"40000", kv.1, hc2⟩]) stc (evs0 ++ evsc)
          (fun k2 c2 hm => hkvs k2 c2 (List.mem_cons_of_mem _ hm))
      refine ⟨⟨"40000", kv.1, hc2⟩ :: tes1', st1, evsc ++ evs1', ?_,
        fun k2 v2 h2 => hmono k2 v2 (hmonoc k2 v2 h2), ?_, ?_⟩
      · rw [hstep, hcf]
        simp
      · simp only [List.map_cons]
        rw [hnames]
      · intro te hte
        rcases List.mem_cons.1 hte with h1 | h1
        · subst h1
          refine ⟨TEntryWF_tree kv.1 hc2 hclean hhexc, hclean, ?_⟩
          refine Or.inr ⟨rfl, hfk, ?_⟩
          intro stF hstF hcons pfx'
          exact hflatc stF (fun k2 v2 h2 => hstF k2 v2 (hmono k2 v2 h2)) hcons pfx'
        · exact htes te h1
theorem writeDir_flatten (H : String → Bytes → String)
    (hhex : ∀ Q, IsHex40 (H "tree" Q)) :
    ∀ (n : Nat) (d : Dir) (f : List String → Option (String × String))
      (store : Store),
      DirOK n d f →
      ∃ h st' evs, writeDirF H n d store = some (h, st', evs) ∧
        StoreLe store st' ∧ IsHex40 h ∧
        ∀ stF, StoreLe st' stF → StoreCons H stF →
          ∀ pfx, ∃ fm, flattenTree stF n h pfx = some fm ∧
            (fm.map Prod.fst).Nodup ∧
            (∀ parts md hs, f parts = some (md, hs) →
              fm.lookup (pjoin pfx parts) = some hs) ∧
            (∀ q v, fm.lookup q = some v →
              ∃ parts md, f parts = some (md, v) ∧ q = pjoin pfx parts) := by
  intro n
  induction n with
  | zero => intro d f store h; cases h
  | succ m ih =>
    intro d f store hok
    have hok0 := hok
    obtain ⟨hnil, es, hes, hnd, hnone, hsome⟩ := hok
    have hkvs : ∀ k c, (k, c) ∈ es → c.name = k ∧ cleanComp k ∧
        ((∃ md hs, c = leafDir k md hs ∧ LeafMode md ∧ IsHex40 hs ∧
            f [k] = some (md, hs) ∧ ∀ rest, rest ≠ [] → f (k :: rest) = none) ∨
          (c.isTree = true ∧ f [k] = none ∧ DirOK m c (fun q => f (k :: q)))) :=
      fun k c hm => hsome k c (mem_childGet es k c hnd hm)
    obtain ⟨tes1, st1, evs1, hcfeq, hmono1, hnames, htes⟩ :=
      childFold_build H m f (fun c fc st hs => ih c fc st hs) es [] store [] hkvs
    simp only [List.nil_append] at hcfeq
    have hperm := sortTreeEntries_perm tes1
    have hsortmem : ∀ te ∈ sortTreeEntries tes1, te ∈ tes1 :=
      fun te ht => hperm.mem_iff.1 ht
    have hwfall : ∀ te ∈ sortTreeEntries tes1, TEntryWF te :=
      fun te ht => (htes te (hsortmem te ht)).1
    obtain ⟨payload, hpayload⟩ := encodeTree_some (sortTreeEntries tes1)
      (fun te ht => (hwfall te ht).2.2.2)
    cases hwo : writeObjectEv H st1 "tree" payload with
    | mk h2 rest2 =>
    obtain ⟨st2, evs2⟩ := rest2
    have hh2 : h2 = H "tree" payload := by
      rw [← writeObjectEv_fst H st1 "tree" payload, hwo]
    have hst2 : st2 = (writeObject H st1 "tree" payload).2 := by
      rw [← writeObjectEv_snd H st1 "tree" payload, hwo]
    have hwt : writeTree H st1 tes1 = some (h2, st2, evs2) := by
      unfold writeTree
      rw [hpayload]
      simp only []
      rw [hwo]
    have hrun : writeDirF H (m + 1) d store = some (h2, st2, evs1 ++ evs2) := by
      conv => lhs; unfold writeDirF
      have hes' : d.entries.getD [] = es := by rw [hes]; rfl
      rw [hes', hcfeq]
      simp only []
      rw [hwt]
    have hmono2 : StoreLe st1 st2 := by
      rw [hst2]
      exact writeObject_mono H st1 "tree" payload
    have hsome2 : st2 h2 ≠ none := by
      have := writeObjectEv_store_some H st1 "tree" payload
      rw [hwo] at this
      exact this
    refine ⟨h2, st2, evs1 ++ evs2, hrun,
      fun k v h => hmono2 k v (hmono1 k v h), by rw [hh2]; exact hhex payload, ?_⟩
    intro stF hle hcons pfx
    have hstF : stF h2 = some (encodeObj "tree" payload) := by
      cases hs2 : st2 h2 with
      | none => exact absurd hs2 hsome2
      | some w =>
        have hw := hle h2 w hs2
        have := hcons payload w (by rw [← hh2]; exact hw)
        rw [← this]
        exact hw
    have hread : readTree stF h2 = some (sortTreeEntries tes1) := by
      unfold readTree
      rw [readObject_of_stored stF h2 "tree" payload.length payload
        (by constructor <;> decide) hstF]
      exact parseTree_encode (sortTreeEntries tes1) hwfall payload hpayload
    have hdom := DirOK_domain (m + 1) d f hok0
    have hndL : ((sortTreeEntries tes1).map TreeEntry.name).Nodup := by
      have hp2 := hperm.map TreeEntry.name
      rw [hp2.nodup_iff, hnames]
      exact hnd
    have hLmem : ∀ k, k ∈ es.map Prod.fst →
        k ∈ (sortTreeEntries tes1).map TreeEntry.name := by
      intro k hk
      rw [← hnames] at hk
      obtain ⟨te, hte, hteq⟩ := List.mem_map.1 hk
      exact List.mem_map.2 ⟨te, hperm.mem_iff.2 hte, hteq⟩
    have hff := flatten_fold stF m pfx f hdom (sortTreeEntries tes1) [] []
      hndL
      (fun te _ => by simp)
      (fun te hte2 => by
        have hfacts := htes te (hsortmem te hte2)
        refine ⟨hfacts.2.1, ?_⟩
        rcases hfacts.2.2 with ⟨md, hmodeq, hmd, hfk, hextn⟩ |
          ⟨hmode40, hfk, htrans⟩
        · exact Or.inl ⟨md, hmodeq, hmd, hfk, hextn⟩
        · refine Or.inr ⟨hmode40, hfk, ?_⟩
          obtain ⟨fm0, hflat0, hnd0, hc0, hs0⟩ := htrans stF
            (fun k v h => hle k v (hmono2 k v h)) hcons
            (if pfx = "" then te.name else pfx ++ "/" ++ te.name)
          refine ⟨fm0, hflat0, hnd0, ?_, ?_⟩
          · intro parts md hs hfp
            have hpne : parts ≠ [] := by
              intro hp
              rw [hp, hfk] at hfp
              cases hfp
            have hc1 : fm0.lookup (pjoin (pjoin pfx [te.name]) parts)
                = some hs := hc0 parts md hs hfp
            rwa [pjoin_cons pfx te.name parts hfacts.2.1 hpne] at hc1
          · intro q v hq
            obtain ⟨parts, md, hfp, hqp⟩ := hs0 q v hq
            have hpne : parts ≠ [] := by
              intro hp
              rw [hp, hfk] at hfp
              cases hfp
            refine ⟨parts, md, hfp, ?_⟩
            have hqp2 : q = pjoin (pjoin pfx [te.name]) parts := hqp
            rwa [pjoin_cons pfx te.name parts hfacts.2.1 hpne] at hqp2)
      (by simp)
      (fun k rest md hs _ hk => by cases hk)
      (fun q v hq => by cases hq)
      (fun k rest md hs hfp => by
        cases hg : childGet es k with
        | none =>
          rw [hnone k hg rest] at hfp
          cases hfp
        | some c =>
          refine Or.inr (hLmem k ?_)
          exact List.mem_map.2 ⟨(k, c), childGet_mem es k c hg, rfl⟩)
    obtain ⟨fm, hfold, hfmnd, hfmc, hfms⟩ := hff
    refine ⟨fm, ?_, hfmnd, hfmc, hfms⟩
    rw [flattenTree_succ, hread]
    exact hfold

theorem fIdx_mem : ∀ (idx : List IEntry), (idx.map IEntry.path).Nodup →
    ∀ e ∈ idx, fIdx idx (splitSlash e.path) = some (octalStr e.mode, e.hash) := by
  intro idx
  induction idx with
  | nil => intro _ e he; cases he
  | cons a rest ih =>
    intro hnd e he
    simp only [List.map_cons, List.nodup_cons] at hnd
    unfold fIdx
    by_cases hp : splitSlash a.path = splitSlash e.path
    · rw [List.find?_cons_of_pos _ (by simp [hp])]
      have hae : a = e := by
        rcases List.mem_cons.1 he with h1 | h1
        · exact h1.symm
        · exfalso
          apply hnd.1
          rw [splitSlash_inj hp]
          exact List.mem_map.2 ⟨e, h1, rfl⟩
      rw [hae]
      rfl
    · rw [List.find?_cons_of_neg _ (by simp [hp])]
      rcases List.mem_cons.1 he with h1 | h1
      · exact absurd (by rw [h1]) hp
      · exact ih hnd.2 e h1

/-- **C1** — Amended tree round-trip.  The claim as stated is false for maps
in which one path is a proper directory-prefix of another (see the
counterexample): `BuildTreeFromIndex` either panics (assignment into the nil
children map of a leaf `dirEntry`) or silently replaces the subtree when the
shorter path is inserted later.  For *prefix-free* path-unique maps whose
components are clean ASCII — nonempty, slash- and NUL-free, and none equal
to `.` or `..` (so `path.Join` is plain concatenation) — with file modes
`0100644`/`0100755`, hex-normal hashes, enough fuel, and a collision-free
content-addressed store (`StoreCons`), building the tree from the index and
flattening it back yields exactly the original map. -/
theorem tree_roundtrip (H : String → Bytes → String) (fuel : Nat)
    (idx : List IEntry) (store0 : Store)
    (hfuel : 0 < fuel)
    (hhex : ∀ Q, IsHex40 (H "tree" Q))
    (hmode : ∀ e ∈ idx, e.mode = 33188 ∨ e.mode = 33261)
    (hhash : ∀ e ∈ idx, IsHex40 e.hash)
    (hclean : ∀ e ∈ idx, ∀ k ∈ splitSlash e.path, cleanComp k)
    (hdepth : ∀ e ∈ idx, (splitSlash e.path).length < fuel)
    (hnd : (idx.map IEntry.path).Nodup)
    (hpf : ∀ e1 ∈ idx, ∀ e2 ∈ idx, ∀ ext,
      splitSlash e2.path = splitSlash e1.path ++ ext → ext = []) :
    ∃ rootH st' evs,
      buildTreeFromIndex H fuel store0 idx = some (rootH, st', evs) ∧
      ∀ stF, StoreLe st' stF → StoreCons H stF →
        ∃ fm, flattenTree stF fuel rootH "" = some fm ∧
          (∀ e ∈ idx, fm.lookup e.path = some e.hash) ∧
          (∀ p, (∀ e ∈ idx, e.path ≠ p) → fm.lookup p = none) := by
  obtain ⟨root, hbuild, hok⟩ := buildTrie_ok idx fuel hfuel
    (fun e he => ⟨hmode e he, hhash e he, hclean e he, hdepth e he⟩) hnd hpf
  obtain ⟨rootH, st', evs, hw, hmono, hhexh, hflat⟩ :=
    writeDir_flatten H hhex fuel root (fIdx idx) store0 hok
  refine ⟨rootH, st', evs, ?_, ?_⟩
  · unfold buildTreeFromIndex
    rw [hbuild]
    exact hw
  · intro stF hle hcons
    obtain ⟨fm, hfm, hfmnd, hfmc, hfms⟩ := hflat stF hle hcons ""
    refine ⟨fm, hfm, ?_, ?_⟩
    · intro e he
      have hfe := fIdx_mem idx hnd e he
      have := hfmc (splitSlash e.path) (octalStr e.mode) e.hash hfe
      have hpj : pjoin "" (splitSlash e.path) = e.path := by
        unfold pjoin
        rw [if_pos rfl, joinSlash_splitSlash]
      rwa [hpj] at this
    · intro p hp
      cases hl : fm.lookup p with
      | none => rfl
      | some v =>
        exfalso
        obtain ⟨parts, md, hfp, hpq⟩ := hfms p v hl
        unfold fIdx at hfp
        cases hf : idx.find? (fun e2 => decide (splitSlash e2.path = parts)) with
        | none =>
          rw [hf] at hfp
          cases hfp
        | some e2 =>
          have hp2 := List.find?_some hf
          simp only [decide_eq_true_eq] at hp2
          have hm2 : e2 ∈ idx := List.mem_of_find?_eq_some hf
          apply hp e2 hm2
          rw [hpq, ← hp2]
          unfold pjoin
          rw [if_pos rfl, joinSlash_splitSlash]

/-- A concrete deterministic stand-in hash for the counterexample run. -/
def cH : String → Bytes → String := fun _ Q =>
  hexEncodeStr (Q.take 20 ++ List.replicate (20 - Q.length) 0)

/-- Counterexample to C1 as stated: the map `{"a/b" ↦ z40, "a" ↦ o40}` is
path-unique with no `.gogit` component, yet building the tree from the index
holding exactly its entries (in this order) silently drops the subtree under
`a` — the build succeeds, and flattening the result yields a map that still
contains `a` but *lacks* `a/b`, so `flatten(build(m)) ≠ m`.  (In the reverse
insertion order the build panics in Go: assignment into a leaf's nil map.) -/
theorem tree_roundtrip_fails_on_nested_paths :
    ((buildTreeFromIndex cH 3 (fun _ => none)
        [⟨0, 0, 1, z40, 33188, "a/b"⟩, ⟨0, 0, 1, o40, 33188, "a"⟩]).bind
      (fun r => flattenTree r.2.1 3 r.1 "")).map
        (fun fm => (fm.lookup "a", fm.lookup "a/b"))
      = some (some o40, none) := by decide

/-- The single wellformed index entry of the witness run. -/
def wb40 : String := hexEncodeStr (List.replicate 20 11)

def c1E : IEntry := ⟨0, 0, 1, wb40, 33188, "f"⟩

/-- The tree payload the witness run writes. -/
def c1P : Bytes :=
  strBytes "100644" ++ 32 :: (strBytes "f" ++ 0 :: (List.replicate 20 11 ++ []))

/-- A hash function for the witness: 40-hex everywhere, and injective on the
one payload the run stores, so the final store is content-addressed. -/
def c1H : String → Bytes → String := fun _ Q =>
  if Q = c1P then hexEncodeStr (List.replicate 20 1)
  else hexEncodeStr (List.replicate 20 0)

/-- Witness for the amended C1 on a concrete one-file index. -/
theorem tree_roundtrip_witness :
    ∃ rootH st' evs,
      buildTreeFromIndex c1H 2 (fun _ => none) [c1E] = some (rootH, st', evs) ∧
      ∀ stF, StoreLe st' stF → StoreCons c1H stF →
        ∃ fm, flattenTree stF 2 rootH "" = some fm ∧
          (∀ e ∈ [c1E], fm.lookup e.path = some e.hash) ∧
          (∀ p, (∀ e ∈ [c1E], e.path ≠ p) → fm.lookup p = none) :=
  tree_roundtrip c1H 2 [c1E] (fun _ => none)
    (by decide)
    (fun Q => by
      unfold c1H
      by_cases hq : Q = c1P
      · rw [if_pos hq]
        exact ⟨List.replicate 20 1, by decide, by decide, rfl⟩
      · rw [if_neg hq]
        exact ⟨List.replicate 20 0, by decide, by decide, rfl⟩)
    (fun e he => by
      rw [List.mem_singleton] at he
      rw [he]
      exact Or.inl rfl)
    (fun e he => by
      rw [List.mem_singleton] at he
      rw [he]
      exact ⟨List.replicate 20 11, by decide, by decide, rfl⟩)
    (fun e he => by
      rw [List.mem_singleton] at he
      rw [he]
      intro k hk
      have : k = "f" := by
        have hss : splitSlash c1E.path = ["f"] := by decide
        rw [hss] at hk
        simpa using hk
      rw [this]
      exact ⟨by decide, by decide⟩)
    (fun e he => by
      rw [List.mem_singleton] at he
      rw [he]
      decide)
    (by decide)
    (fun e1 h1 e2 h2 ext hext => by
      rw [List.mem_singleton] at h1 h2
      rw [h1] at hext
      rw [h2] at hext
      have hl := congrArg List.length hext
      rw [List.length_append] at hl
      have : ext.length = 0 := by omega
      exact List.length_eq_zero.1 this)

end Gogit
